import Mathlib

/-!
WMoveScanner: a verification development for `main.go`.

The Go program accepts an uploaded zip archive, extracts it under `temp/`,
locates the `bytecode_modules` directory, runs the external MoveScanner binary
on it and returns the JSON file the scanner wrote under `results/`.  A
background goroutine empties `temp/` and `results/` at every hour boundary.

The development embeds the functions of `main.go` as Lean definitions that keep
their Go names, and proves properties about them.

* Go strings are Lean strings; `path/filepath` (Unix) is written out on them.
* The filesystem is a tree of directories and files; a path string names a place
  in it by a lexical walk from the working directory (there are no symbolic
  links).  A directory can be unlistable and an object can be unremovable, so
  that `os.ReadDir` and `os.RemoveAll` can fail.
* Functions that act on the outside world take a `World` and return the new one;
  the world also records the calls that change the filesystem or start a
  subprocess.
* The decoding of zip archives, the scanner binary, the clock and the random
  source are parameters (`Env`).
* A Go `error` is an `Option String`; a panic is the result `none`.
* Log output is not part of the model, and each function runs without
  interference from other goroutines.
-/

namespace WMoveScanner

/-! ## Constants of `main.go` -/

/-- Go: `const RESULT = "results/"`. -/
def RESULT : String := "results/"

/-- Go: `const TMP = "temp/"`. -/
def TMP : String := "temp/"

/-! ## Go's `time` package, as used by `clearTempFolder` -/

/-- Go: `time.Second`, in nanoseconds. -/
def Second : Int := 1000000000

/-- Go: `time.Hour`, in nanoseconds. -/
def Hour : Int := 3600 * 1000000000

/-- Go: the largest `time.Duration`, `1<<63 - 1`. -/
def maxDuration : Int := 9223372036854775807

/-- Go: the smallest `time.Duration`, `-1 << 63`. -/
def minDuration : Int := -9223372036854775808

/-- The value of an `int64` expression whose exact value is `x`: arithmetic on
`int64` wraps around modulo `2^64 = 18446744073709551616` into the range from
`-2^63 = -9223372036854775808` to `2^63 - 1`. -/
def wrap64 (x : Int) : Int :=
  (x + 9223372036854775808) % 18446744073709551616 - 9223372036854775808

/-- Go: a `time.Time` read on the wall clock: `t.sec()`, the seconds since
January 1 of the year 1 (an `int64`), and `t.nsec()`, the nanoseconds within the
second (0 to 999999999). -/
structure Time where
  sec : Int
  nsec : Int
  deriving DecidableEq

/-- The instant as a number of nanoseconds since the zero time. -/
def Time.nanos (t : Time) : Int := t.sec * 1000000000 + t.nsec

/-- Go: `(*Time).addSec(d)`: the seconds are added with saturation at the ends
of the `int64` range. -/
def Time.addSec (t : Time) (d : Int) : Time :=
  if decide (wrap64 (t.sec + d) > t.sec) = decide (d > 0) then ⟨wrap64 (t.sec + d), t.nsec⟩
  else if d > 0 then ⟨9223372036854775807, t.nsec⟩
  else ⟨-9223372036854775807, t.nsec⟩

/-- Go: `t.Add(d)`: `dsec := int64(d / 1e9)`, `nsec := t.nsec() + int32(d%1e9)`,
the nanoseconds are brought back into one second, then `t.addSec(dsec)`.  Go's
`/` and `%` round towards zero. -/
def Time.Add (t : Time) (d : Int) : Time :=
  if t.nsec + Int.tmod d 1000000000 ≥ 1000000000 then
    Time.addSec ⟨t.sec, t.nsec + Int.tmod d 1000000000 - 1000000000⟩
      (wrap64 (Int.tdiv d 1000000000 + 1))
  else if t.nsec + Int.tmod d 1000000000 < 0 then
    Time.addSec ⟨t.sec, t.nsec + Int.tmod d 1000000000 + 1000000000⟩
      (wrap64 (Int.tdiv d 1000000000 - 1))
  else Time.addSec ⟨t.sec, t.nsec + Int.tmod d 1000000000⟩ (Int.tdiv d 1000000000)

/-- Go: the remainder `r` that `div(t, d)` returns, for `d > 0`.  A time before
the zero time is replaced by its absolute value first and the remainder turned
round at the end; the remainder is computed from the nanoseconds alone when `2d`
divides a second, from the seconds when `d` is a multiple of a second, and from
the 128-bit number of nanoseconds otherwise. -/
def Time.div (t : Time) (d : Int) : Int :=
  let flipped : Int × Int :=
    if t.sec < 0 then
      if -t.nsec < 0 then (wrap64 (wrap64 (-t.sec) - 1), -t.nsec + 1000000000)
      else (wrap64 (-t.sec), -t.nsec)
    else (t.sec, t.nsec)
  let r : Int :=
    if d < Second ∧ Int.tmod Second (d + d) = 0 then Int.tmod flipped.2 d
    else if Int.tmod d Second = 0 then
      wrap64 (wrap64 (Int.tmod flipped.1 (Int.tdiv d Second) * Second) + flipped.2)
    else (flipped.1 % 18446744073709551616 * 1000000000 + flipped.2) % d
  if t.sec < 0 ∧ r ≠ 0 then wrap64 (d - r) else r

/-- Go: `t.Truncate(d)`: `t` itself when `d <= 0`, and otherwise `t.Add(-r)` for
the remainder `r` of `div(t, d)`. -/
def Time.Truncate (t : Time) (d : Int) : Time :=
  if d ≤ 0 then t else t.Add (wrap64 (-(t.div d)))

/-- Go: `t.Before(u)`. -/
def Time.Before (t u : Time) : Bool :=
  decide (t.sec < u.sec) || (decide (t.sec = u.sec) && decide (t.nsec < u.nsec))

/-- Go: `t.Sub(u)` for times without monotonic reading: the difference computed
in `int64`, kept when `u.Add(d).Equal(t)`, and the smallest or largest duration
otherwise. -/
def Time.Sub (t u : Time) : Int :=
  if u.Add (wrap64 (wrap64 (wrap64 (t.sec - u.sec) * Second) + wrap64 (t.nsec - u.nsec))) = t then
    wrap64 (wrap64 (wrap64 (t.sec - u.sec) * Second) + wrap64 (t.nsec - u.nsec))
  else if t.Before u then minDuration
  else maxDuration

/-- Go, `clearTempFolder` lines 263-265:
`nextHour := now.Truncate(time.Hour).Add(time.Hour)`, for the reading `now` of
`time.Now()` (its monotonic reading is dropped by `Truncate`). -/
def nextHour (now : Time) : Time := (now.Truncate Hour).Add Hour

/-- Go, `clearTempFolder` line 267: `duration := nextHour.Sub(now)`, the
argument of `time.Sleep`. -/
def sleepDuration (now : Time) : Int := (nextHour now).Sub now

/-- The seconds of the last hour boundary `time.Time` can represent, and the
negative of the seconds of the first one: `2562047788015215` hours. -/
def lastHourSec : Int := 2562047788015215 * 3600

/-! ## `generateRandomFileName` -/

/-- Go: `const letterBytes` inside `generateRandomFileName`. -/
def letterBytes : String :=
  "abcdefghijklmnopqrstuvwxyzABCDEFGHIJKLMNOPQRSTUVWXYZ0123456789"

/-- The loop `for i := range b { b[i] = letterBytes[rand.Intn(len(letterBytes))] }`
from index `i` on, with `k` cells left to fill.  `draws j` is the value the
`j`-th call of `rand.Intn(len(letterBytes))` returns.  Indexing `letterBytes`
outside its bounds is a run-time panic, modelled as `none`. -/
def fillFrom (draws : Nat → Nat) (i : Nat) : Nat → Option (List Char)
  | 0 => some []
  | k + 1 =>
    match letterBytes.data[draws i]? with
    | none => none
    | some c =>
      match fillFrom draws (i + 1) k with
      | none => none
      | some rest => some (c :: rest)

/-- Go: `func generateRandomFileName(fileNameLength int) string`.
`make([]byte, fileNameLength)` panics on a negative length (`none`). -/
def generateRandomFileName (fileNameLength : Int) (draws : Nat → Nat) : Option String :=
  if fileNameLength < 0 then none
  else
    match fillFrom draws 0 fileNameLength.toNat with
    | none => none
    | some b => some (String.mk b)

/-! ## Go's `strings` and `path/filepath` (Unix) -/

namespace strings

/-- Go: `strings.Join(elems, sep)`. -/
def Join : List String → String → String
  | [], _ => ""
  | [a], _ => a
  | a :: b :: rest, sep => a ++ sep ++ Join (b :: rest) sep

end strings

namespace filepath

/-- The pieces of a path between its separators `/` (possibly empty pieces). -/
def splitSlash : List Char → List (List Char)
  | [] => [[]]
  | c :: cs =>
    if c = '/' then [] :: splitSlash cs
    else
      match splitSlash cs with
      | [] => [[c]]
      | w :: ws => (c :: w) :: ws

/-- The path elements of a string, as strings. -/
def elements (path : String) : List String :=
  (splitSlash path.data).map String.mk

/-- One round of the loop of `filepath.Clean` on the next path element `c`.
`out` holds the elements written so far, the last one first.  Empty elements
and `.` are skipped; `..` removes the last written element when there is one
that is not itself `..`, is dropped at the root of a rooted path, and is kept
otherwise. -/
def cleanStep (rooted : Bool) (out : List String) (c : String) : List String :=
  if c = "" ∨ c = "." then out
  else if c = ".." then
    match out with
    | [] => if rooted then [] else [".."]
    | top :: rest => if top = ".." then ".." :: top :: rest else rest
  else c :: out

/-- Whether the path starts with a separator. -/
def isRooted (path : String) : Bool :=
  path.data.head? = some '/'

/-- Go: `filepath.Clean(path)`. -/
def Clean (path : String) : String :=
  if path = "" then "."
  else
    let out := (elements path).foldl (cleanStep (isRooted path)) []
    if isRooted path then "/" ++ strings.Join out.reverse "/"
    else if out = [] then "."
    else strings.Join out.reverse "/"

/-- Go: `filepath.Join(elem...)`: the elements from the first non-empty one on,
joined with `/` and cleaned; the empty string when all are empty. -/
def Join (elem : List String) : String :=
  match elem.dropWhile (fun e => e = "") with
  | [] => ""
  | e :: es => Clean (strings.Join (e :: es) "/")

/-- The characters after the last separator. -/
def lastElement (cs : List Char) : List Char :=
  (cs.reverse.takeWhile (fun c => c ≠ '/')).reverse

/-- The characters up to and including the last separator. -/
def upToLastSlash (cs : List Char) : List Char :=
  (cs.reverse.dropWhile (fun c => c ≠ '/')).reverse

/-- Go: `filepath.Base(path)`. -/
def Base (path : String) : String :=
  if path = "" then "."
  else
    let stripped := (path.data.reverse.dropWhile (fun c => c = '/')).reverse
    let last := lastElement stripped
    if last = [] then "/" else String.mk last

/-- Go: `filepath.Ext(path)`: the suffix beginning at the final dot in the final
element of the path; empty if there is no dot. -/
def Ext (path : String) : String :=
  let last := lastElement path.data
  if '.' ∈ last then
    String.mk ('.' :: (last.reverse.takeWhile (fun c => c ≠ '.')).reverse)
  else ""

/-- Go: `filepath.Dir(path)`. -/
def Dir (path : String) : String :=
  Clean (String.mk (upToLastSlash path.data))

end filepath

/-! ## The filesystem -/

/-- File contents. -/
abbrev Bytes := List UInt8

/-- A filesystem object.  A directory lists its entries in the order
`os.ReadDir` returns them (sorted by name).  `readable = false` is a directory
whose listing fails (no read permission); `locked = true` is an object that
cannot be unlinked. -/
inductive Node where
  | file (data : Bytes) (locked : Bool)
  | dir (entries : List (String × Node)) (readable : Bool) (locked : Bool)

/-- A directory listing. -/
abbrev Listing := List (String × Node)

/-- Go: `DirEntry.IsDir()`. -/
def Node.IsDir : Node → Bool
  | .file _ _ => false
  | .dir _ _ _ => true

/-- A new, empty directory. -/
def Node.emptyDir : Node := .dir [] true false

/-- The first entry of a listing with the given name. -/
def lookupEntry : Listing → String → Option Node
  | [], _ => none
  | (m, nd) :: rest, n => if m = n then some nd else lookupEntry rest n

/-- Insert an entry at its place in the name order. -/
def insertEntry (n : String) (nd : Node) : Listing → Listing
  | [] => [(n, nd)]
  | (m, md) :: rest =>
    if n.data < m.data then (n, nd) :: (m, md) :: rest else (m, md) :: insertEntry n nd rest

/-- Replace the entries named `n` by `nd`. -/
def replaceEntry (n : String) (nd : Node) : Listing → Listing
  | [] => []
  | (m, md) :: rest =>
    if m = n then (m, nd) :: replaceEntry n nd rest else (m, md) :: replaceEntry n nd rest

/-- Set (`some`) or delete (`none`) the entry named `n` of a listing. -/
def putEntry (es : Listing) (n : String) : Option Node → Listing
  | none => es.filter (fun e => e.1 ≠ n)
  | some nd =>
    match lookupEntry es n with
    | none => insertEntry n nd es
    | some _ => replaceEntry n nd es

/-- The object at an absolute path, given by its elements from the root. -/
def Node.lookup : Node → List String → Option Node
  | nd, [] => some nd
  | .file _ _, _ :: _ => none
  | .dir es _ _, n :: rest =>
    match lookupEntry es n with
    | none => none
    | some child => child.lookup rest

/-- Set or delete the object at an absolute path; `none` when the parent
directory does not exist (or the path is the root). -/
def Node.put (new : Option Node) : List String → Node → Option Node
  | [], _ => none
  | _ :: _, .file _ _ => none
  | [n], .dir es r l => some (.dir (putEntry es n new) r l)
  | n :: m :: rest, .dir es r l =>
    match lookupEntry es n with
    | none => none
    | some child =>
      match child.put new (m :: rest) with
      | none => none
      | some child' => some (.dir (putEntry es n (some child')) r l)

/-- Create the directories along an absolute path that do not exist yet; `none`
when an element of the path is a file. -/
def Node.mkdirAll : List String → Node → Option Node
  | [], .dir es r l => some (.dir es r l)
  | [], .file _ _ => none
  | _ :: _, .file _ _ => none
  | n :: rest, .dir es r l =>
    match ((lookupEntry es n).getD Node.emptyDir).mkdirAll rest with
    | none => none
    | some child' => some (.dir (putEntry es n (some child')) r l)

mutual
/-- What is left of an object after `os.RemoveAll` tried to remove it with
everything below it: `none` when it is gone.  Everything that can be removed is
removed. -/
def Node.removeAll : Node → Option Node
  | .file d locked => if locked then some (.file d locked) else none
  | .dir es readable locked =>
    if readable then
      match removeAllEntries es with
      | [] => if locked then some (.dir [] readable locked) else none
      | e :: left => some (.dir (e :: left) readable locked)
    else if es.isEmpty && !locked then none
    else some (.dir es readable locked)
/-- What is left of a listing after removal of each entry was tried. -/
def removeAllEntries : Listing → Listing
  | [] => []
  | (n, nd) :: rest =>
    match nd.removeAll with
    | none => removeAllEntries rest
    | some nd' => (n, nd') :: removeAllEntries rest
end

/-- A name a directory entry can have: not empty, not `.` or `..`, without a
separator. -/
def validName (n : String) : Bool :=
  n ≠ "" && n ≠ "." && n ≠ ".." && !('/' ∈ n.data)

mutual
/-- Well-formed object: every entry name below it is valid and no directory
lists a name twice. -/
def Node.wf : Node → Bool
  | .file _ _ => true
  | .dir es _ _ => wfEntries es
/-- Well-formed listing. -/
def wfEntries : Listing → Bool
  | [] => true
  | (n, nd) :: rest =>
    validName n && (lookupEntry rest n).isNone && nd.wf && wfEntries rest
end

/-- One step of the walk along a path: the empty element and `.` stay, `..`
goes to the parent (the root is its own parent), a name goes to that entry.
`place` holds the elements of the current place, the last one first. -/
def walkStep (place : List String) (c : String) : List String :=
  if c = "" ∨ c = "." then place
  else if c = ".." then place.drop 1
  else c :: place

/-- The absolute path (elements from the root) a path string names for a
process whose working directory is `cwd`, resolving `.` and `..` lexically;
`none` for the empty string, which names nothing. -/
def resolve (cwd : List String) (path : String) : Option (List String) :=
  if path = "" then none
  else
    some (((filepath.elements path).foldl walkStep
      (if filepath.isRooted path then [] else cwd.reverse)).reverse)

/-! ## The process and its environment -/

/-- A call of the program that acts on the outside world: it changes the
filesystem or starts a subprocess. -/
inductive Event where
  | Mkdir (path : String)
  | Create (path : String)
  | MkdirAll (path : String)
  | OpenFile (path : String)
  | Command (name : String) (args : List String)
  | RemoveAll (path : String)
  deriving DecidableEq

/-- The state of the outside world: the directory tree from `/` and the calls
made so far, oldest first. -/
structure World where
  root : Node
  trace : List Event

/-- An entry of a zip archive as `archive/zip` presents it: `f.Name`,
`f.FileInfo().IsDir()`, what `f.Open()` gives (`none` when it returns an
error), and whether reading the stream to its end fails. -/
structure ZipFile where
  Name : String
  IsDir : Bool
  Open : Option Bytes
  Corrupt : Bool

/-- What the program does not determine itself. -/
structure Env where
  /-- the working directory of the process, elements from the root -/
  cwd : List String
  /-- Go: `runtime.GOOS` -/
  GOOS : String
  /-- Go: `time.Now().UnixNano()` at the call of `rand.Seed` -/
  UnixNano : Int
  /-- the values `rand.Intn(62)` returns, call after call, after `rand.Seed(seed)` -/
  Intn : Int → Nat → Nat
  /-- how `zip.OpenReader` reads the bytes of a file: the entries, or an error -/
  zipEntries : Bytes → Option (List ZipFile)
  /-- the run of a subprocess: the directory tree it leaves and whether it was
  started and exited with status 0 -/
  run : String → List String → Node → Node × Bool

/-- A Go `error` value: `none` is `nil`. -/
abbrev Error := Option String

namespace os

/-- The object a path names. -/
def find (env : Env) (w : World) (path : String) : Option Node :=
  match resolve env.cwd path with
  | none => none
  | some p => w.root.lookup p

/-- Go: `_, err := os.Stat(path); os.IsNotExist(err)`. -/
def IsNotExist (env : Env) (w : World) (path : String) : Bool :=
  (find env w path).isNone

/-- Go: `os.Mkdir(path, os.ModePerm)`. -/
def Mkdir (env : Env) (w : World) (path : String) : World × Error :=
  let w1 : World := ⟨w.root, w.trace ++ [Event.Mkdir path]⟩
  match resolve env.cwd path with
  | none => (w1, some "mkdir: no such file or directory")
  | some p =>
    match w.root.lookup p with
    | some _ => (w1, some "mkdir: file exists")
    | none =>
      match w.root.put (some Node.emptyDir) p with
      | none => (w1, some "mkdir: no such file or directory")
      | some root' => (⟨root', w1.trace⟩, none)

/-- Open the file at `path` for writing, creating it when it is missing and
emptying it when `truncate` is set (`O_TRUNC`). -/
def openForWrite (env : Env) (w : World) (path : String) (truncate : Bool) : World × Error :=
  match resolve env.cwd path with
  | none => (w, some "open: no such file or directory")
  | some p =>
    match w.root.lookup p with
    | some (.dir _ _ _) => (w, some "open: is a directory")
    | some (.file _ locked) =>
      if truncate then
        match w.root.put (some (.file [] locked)) p with
        | none => (w, some "open: no such file or directory")
        | some root' => (⟨root', w.trace⟩, none)
      else (w, none)
    | none =>
      match w.root.put (some (.file [] false)) p with
      | none => (w, some "open: no such file or directory")
      | some root' => (⟨root', w.trace⟩, none)

/-- Go: `os.Create(path)`, that is `OpenFile(path, O_RDWR|O_CREATE|O_TRUNC, 0666)`. -/
def Create (env : Env) (w : World) (path : String) : World × Error :=
  openForWrite env ⟨w.root, w.trace ++ [Event.Create path]⟩ path true

/-- Go: `os.OpenFile(path, os.O_WRONLY|os.O_CREATE, os.ModePerm)`. -/
def OpenFile (env : Env) (w : World) (path : String) : World × Error :=
  openForWrite env ⟨w.root, w.trace ++ [Event.OpenFile path]⟩ path false

/-- Write `data` from the start of a file that holds `old`, without truncating. -/
def overwrite (data old : Bytes) : Bytes :=
  data ++ old.drop data.length

/-- Go: `io.Copy(f, src)` for the file `f` just opened at `path` (its offset is
0) and a source that yields `data`; `srcFails` is a source whose read ends in an
error after the data. -/
def Copy (env : Env) (w : World) (path : String) (data : Bytes) (srcFails : Bool) :
    World × Error :=
  match resolve env.cwd path with
  | none => (w, some "write: bad file descriptor")
  | some p =>
    match w.root.lookup p with
    | some (.file old locked) =>
      match w.root.put (some (.file (overwrite data old) locked)) p with
      | none => (w, some "write: bad file descriptor")
      | some root' => (⟨root', w.trace⟩, if srcFails then some "read: unexpected error" else none)
    | _ => (w, some "write: bad file descriptor")

/-- Go: `os.MkdirAll(path, os.ModePerm)`. -/
def MkdirAll (env : Env) (w : World) (path : String) : World × Error :=
  let w1 : World := ⟨w.root, w.trace ++ [Event.MkdirAll path]⟩
  match resolve env.cwd path with
  | none => (w1, some "mkdir: no such file or directory")
  | some p =>
    match w.root.mkdirAll p with
    | none => (w1, some "mkdir: not a directory")
    | some root' => (⟨root', w1.trace⟩, none)

/-- Go: `os.ReadDir(path)`. -/
def ReadDir (env : Env) (w : World) (path : String) : Except String Listing :=
  match find env w path with
  | some (.dir es true _) => .ok es
  | some (.dir _ false _) => .error "open: permission denied"
  | some (.file _ _) => .error "readdirent: not a directory"
  | none => .error "open: no such file or directory"

/-- Go: `ioutil.ReadFile(path)`. -/
def ReadFile (env : Env) (w : World) (path : String) : Except String Bytes :=
  match find env w path with
  | some (.file data _) => .ok data
  | some (.dir _ _ _) => .error "read: is a directory"
  | none => .error "open: no such file or directory"

/-- Go: `os.RemoveAll(path)`: removes the object and everything below it that
can be removed; no error when the path names nothing. -/
def RemoveAll (env : Env) (w : World) (path : String) : World × Error :=
  let w1 : World := ⟨w.root, w.trace ++ [Event.RemoveAll path]⟩
  match resolve env.cwd path with
  | none => (w1, none)
  | some p =>
    match w.root.lookup p with
    | none => (w1, none)
    | some nd =>
      match w.root.put nd.removeAll p with
      | none => (w1, some "unlinkat: operation not permitted")
      | some root' =>
        (⟨root', w1.trace⟩,
          if nd.removeAll.isSome then some "unlinkat: operation not permitted" else none)

end os

/-! ## The functions of `main.go` -/

/-- Go: `func processJSON(resultFile string) ([]byte, error)`.  The data is
`nil` (empty) when the read fails. -/
def processJSON (env : Env) (w : World) (resultFile : String) : Bytes × Error :=
  match os.ReadFile env w resultFile with
  | .ok data => (data, none)
  | .error e => ([], some e)

/-- The body of the loop `for _, f := range r.File` of `unzip`, entry after
entry. -/
def unzipEntries (env : Env) (dest : String) : World → List ZipFile → World × Error
  | w, [] => (w, none)
  | w, f :: rest =>
    match f.Open with
    | none => (w, some "zip: cannot open entry")
    | some rc =>
      let path := filepath.Join [dest, f.Name]
      if f.IsDir then
        unzipEntries env dest (os.MkdirAll env w path).1 rest
      else
        match os.MkdirAll env w (filepath.Dir path) with
        | (w1, some e) => (w1, some e)
        | (w1, none) =>
          match os.OpenFile env w1 path with
          | (w2, some e) => (w2, some e)
          | (w2, none) =>
            match os.Copy env w2 path rc f.Corrupt with
            | (w3, some e) => (w3, some e)
            | (w3, none) => unzipEntries env dest w3 rest

/-- Go: `func unzip(src, dest string) error`. -/
def unzip (env : Env) (w : World) (src dest : String) : World × Error :=
  match os.ReadFile env w src with
  | .error e => (w, some e)
  | .ok bytes =>
    match env.zipEntries bytes with
    | none => (w, some "zip: not a valid zip file")
    | some files => unzipEntries env dest w files

/-- The name of the directory the scanner works on. -/
def bytecodeModules : String := "bytecode_modules"

mutual
/-- Go: the call `findBytecodeFolder(dirPath)` when `dirPath` names the object
`nd`: `os.ReadDir` succeeds on a readable directory and fails otherwise (the
error is logged and the empty string returned). -/
def findBelow (dirPath : String) : Node → String
  | .dir files true _ => findInFiles dirPath files
  | .dir _ false _ => ""
  | .file _ _ => ""
/-- The loop `for _, file := range files` of `findBytecodeFolder`.  The
recursive call `findBytecodeFolder(subDir)` lists the entry `file` itself: in a
tree whose entry names are valid and distinct, `subDir` names that entry
(`findBytecodeFolderByPath_eq` below compares this with listing by path). -/
def findInFiles (dirPath : String) : Listing → String
  | [] => ""
  | (name, file) :: rest =>
    if file.IsDir && name = bytecodeModules then
      filepath.Join [dirPath, bytecodeModules]
    else if file.IsDir then
      let found := findBelow (filepath.Join [dirPath, name]) file
      if found ≠ "" then found
      else findInFiles dirPath rest
    else findInFiles dirPath rest
end

/-- Go: `func findBytecodeFolder(dirPath string) string`. -/
def findBytecodeFolder (env : Env) (w : World) (dirPath : String) : String :=
  match os.find env w dirPath with
  | none => ""
  | some nd => findBelow dirPath nd

/-- Go: the choice of the scanner binary in `executeMovescanner`. -/
def MOVESCANNER (env : Env) : String :=
  if env.GOOS = "linux" then "./MoveScanner"
  else if env.GOOS = "darwin" then "./MoveScanner_m1"
  else "./MoveScanner"

/-- Go: `func executeMovescanner(inputDir string) (string, error)`.  The result
is `none` when the function panics. -/
def executeMovescanner (env : Env) (w : World) (inputDir : String) :
    Option (World × String × Error) :=
  match generateRandomFileName 10 (env.Intn env.UnixNano) with
  | none => none
  | some name =>
    let randomFileName := name ++ ".json"
    let result_json := RESULT ++ randomFileName
    let bytecodeDir := findBytecodeFolder env w inputDir
    let args := ["-p", bytecodeDir, "-n", "-o", result_json]
    let trace := w.trace ++ [Event.Command (MOVESCANNER env) args]
    match env.run (MOVESCANNER env) args w.root with
    | (root', false) => some (⟨root', trace⟩, "", some "exit status 1")
    | (root', true) => some (⟨root', trace⟩, randomFileName, none)

/-- The uploaded file of a request: `header.Filename` and the bytes of `file`. -/
structure Upload where
  Filename : String
  content : Bytes

/-- What the handler writes as the body of the response. -/
inductive Body where
  /-- Go: `c.JSON(code, gin.H{"error": err.Error()})` -/
  | json (error : String)
  /-- Go: `c.String(code, text)` -/
  | text (text : String)
  /-- Go: `c.String(http.StatusOK, pageResult)`, the HTML page with `result` in
  its `<pre>` element -/
  | page (result : Bytes)
  deriving DecidableEq

/-- An HTTP response. -/
structure Response where
  status : Nat
  body : Body
  deriving DecidableEq

/-- Go: lines 103-133 of `handleFileUpload`, the stages before the scanner:
create `temp/` when it is missing, save the upload, extract it, and derive the
working area from the file name.  The result is the world, the error of the
first stage that failed, and the directory handed to `executeMovescanner`. -/
def saveAndExtract (env : Env) (w : World) (header : Upload) : World × Error × String :=
  let w1 := if os.IsNotExist env w TMP then (os.Mkdir env w TMP).1 else w
  let filePath := filepath.Join [TMP, header.Filename]
  match os.Create env w1 filePath with
  | (w2, some e) => (w2, some e, "")
  | (w2, none) =>
    match os.Copy env w2 filePath header.content false with
    | (w3, some e) => (w3, some e, "")
    | (w3, none) =>
      let unzipDir := filepath.Join [TMP, "./"]
      match unzip env w3 filePath unzipDir with
      | (w4, some e) => (w4, some e, "")
      | (w4, none) =>
        let fileBase := filepath.Base filePath
        let folderName :=
          String.mk (fileBase.data.take (fileBase.length - (filepath.Ext fileBase).length))
        (w4, none, filepath.Join [unzipDir, folderName])

/-- Go: `func handleFileUpload(c *gin.Context)`.  `form` is what
`c.Request.FormFile("file")` returns.  The result is `none` when the handler
panics. -/
def handleFileUpload (env : Env) (w : World) (form : Except String Upload) :
    Option (World × Response) :=
  match form with
  | .error e => some (w, ⟨400, .json e⟩)
  | .ok header =>
    match saveAndExtract env w header with
    | (w4, some e, _) => some (w4, ⟨500, .json e⟩)
    | (w4, none, inputDir) =>
      match executeMovescanner env w4 inputDir with
      | none => none
      | some (w5, _, some _) => some (w5, ⟨500, .text "Command execution error"⟩)
      | some (w5, randomResultFileName, none) =>
        let result := (processJSON env w5 (RESULT ++ randomResultFileName)).1
        some (w5, ⟨200, .page result⟩)

/-- The loop `for _, entry := range dir` of `clearDirectory`. -/
def clearEntries (env : Env) (path : String) : World → Listing → World × Error
  | w, [] => (w, none)
  | w, (name, _) :: rest =>
    match os.RemoveAll env w (path ++ "/" ++ name) with
    | (w1, some e) => (w1, some e)
    | (w1, none) => clearEntries env path w1 rest

/-- Go: `func clearDirectory(path string) error`. -/
def clearDirectory (env : Env) (w : World) (path : String) : World × Error :=
  match os.ReadDir env w path with
  | .error e => (w, some e)
  | .ok dir => clearEntries env path w dir

/-- Go: one round of the endless loop of `func clearTempFolder()`, entered when
the clock reads `now`: the duration slept, the world after the sweep, and the
errors of the two `clearDirectory` calls (which are logged). -/
def clearTempFolder (env : Env) (now : Time) (w : World) : Int × World × Error × Error :=
  let duration := sleepDuration now
  let r1 := clearDirectory env w TMP
  let r2 := clearDirectory env r1.1 RESULT
  (duration, r2.1, r1.2, r2.2)

/-! ## Notions used in the statements -/

/-- The identifier a table of ten in-range draws produces. -/
def nameOfDraws (f : Fin 10 → Fin 62) : String :=
  String.mk ((List.range 10).map
    (fun j => letterBytes.data.getD (if h : j < 10 then (f ⟨j, h⟩).val else 0) 'a'))

namespace filepath

/-- A path element that names an entry: not empty, not `.`, not `..`. -/
def Proper (c : String) : Prop := c ≠ "" ∧ c ≠ "." ∧ c ≠ ".."

/-- The invariant that ties the loop of `Clean` on an unrooted path to the walk
from a place `S`: `Clean` has written `k` leading `..` and then the names `N`;
the walk stands at `N` below the `k`-th parent of `S`. -/
def Tied (S out T : List String) : Prop :=
  ∃ (N : List String) (k : Nat), out = N ++ List.replicate k ".." ∧
    (∀ x ∈ N, Proper x) ∧ T = N ++ S.drop k

end filepath

mutual
/-- Every directory of the subtree can be listed. -/
def Node.listable : Node → Bool
  | .file _ _ => true
  | .dir es readable _ => readable && listableEntries es
/-- Every directory below the entries of a listing can be listed. -/
def listableEntries : Listing → Bool
  | [] => true
  | (_, nd) :: rest => nd.listable && listableEntries rest
end

mutual
/-- The directories below the object that `dirPath` names, in depth-first
pre-order (a directory before what it contains, the entries of a directory in
listing order), each with its name and its path string.  A directory that
cannot be listed is visited, its content is not. -/
def dirsBelow (dirPath : String) : Node → List (String × String)
  | .dir es true _ => dirsIn dirPath es
  | .dir _ false _ => []
  | .file _ _ => []
/-- The directories at and below the entries of a listing, in depth-first
pre-order. -/
def dirsIn (dirPath : String) : Listing → List (String × String)
  | [] => []
  | (n, nd) :: rest =>
    (if nd.IsDir then
        (n, filepath.Join [dirPath, n]) :: dirsBelow (filepath.Join [dirPath, n]) nd
      else []) ++ dirsIn dirPath rest
end

/-- The path of the first directory named `bytecode_modules` in a traversal, or
the empty string. -/
def firstMarker (visited : List (String × String)) : String :=
  match visited.find? (fun x => x.1 = bytecodeModules) with
  | none => ""
  | some x => x.2

/-- The loop `for _, file := range files` of `findBytecodeFolder`, with the
recursive call `findBytecodeFolder(subDir)` given as `recur` (`none` when that
call does not return within its bound). -/
def scanFiles (recur : String → Option String) (dirPath : String) : Listing → Option String
  | [] => some ""
  | (name, file) :: rest =>
    if file.IsDir && name = bytecodeModules then
      some (filepath.Join [dirPath, bytecodeModules])
    else if file.IsDir then
      match recur (filepath.Join [dirPath, name]) with
      | none => none
      | some found =>
        if found ≠ "" then some found
        else scanFiles recur dirPath rest
    else scanFiles recur dirPath rest

/-- Go: `func findBytecodeFolder(dirPath string) string` run call by call: every
call lists its directory with `os.ReadDir` on the path string it was given.
`fuel` bounds the depth of the recursion; `none` when the bound is reached. -/
def findBytecodeFolderByPath (env : Env) (w : World) : Nat → String → Option String
  | 0, _ => none
  | fuel + 1, dirPath =>
    match os.ReadDir env w dirPath with
    | .error _ => some ""
    | .ok files => scanFiles (findBytecodeFolderByPath env w fuel) dirPath files

mutual
/-- The number of directory levels of a subtree. -/
def Node.depth : Node → Nat
  | .file _ _ => 0
  | .dir es _ _ => depthEntries es + 1
/-- The largest depth among the entries of a listing. -/
def depthEntries : Listing → Nat
  | [] => 0
  | (_, nd) :: rest => max nd.depth (depthEntries rest)
end

/-- The path string `path` names a place at or below the one `dest` names. -/
def insideDir (cwd : List String) (dest path : String) : Prop :=
  ∃ a b, resolve cwd dest = some a ∧ resolve cwd path = some b ∧ a <+: b

/-- A path element list of an entry name goes nowhere up: it has no `..`. -/
def localName (name : String) : Prop :=
  ".." ∉ filepath.elements name

/-- What one run of the loop of `clearDirectory` leaves of a listing, and
whether it stopped on an error: the entries are removed in order up to the
first one that cannot be removed completely; that entry keeps what could not be
removed, and the entries after it are not touched. -/
def sweepListing : Listing → Listing × Bool
  | [] => ([], false)
  | (n, nd) :: rest =>
    match nd.removeAll with
    | none => sweepListing rest
    | some left => ((n, left) :: rest, true)

/-! ## Concrete inputs -/

/-- Three archives, told apart by their bytes: `project.zip` with
`project/bytecode_modules/mod.mv`, `empty.zip` without a `bytecode_modules`
directory, and `slip.zip` with the entry `../x`. -/
def exampleArchives (bytes : Bytes) : Option (List ZipFile) :=
  if bytes = [80, 75, 1] then
    some [⟨"project/", true, some [], false⟩,
      ⟨"project/bytecode_modules/", true, some [], false⟩,
      ⟨"project/bytecode_modules/mod.mv", false, some [1, 2, 3], false⟩]
  else if bytes = [80, 75, 2] then
    some [⟨"empty/", true, some [], false⟩,
      ⟨"empty/readme.txt", false, some [104, 105], false⟩]
  else if bytes = [80, 75, 3] then
    some [⟨"../x", false, some [7], false⟩]
  else if bytes = [80, 75, 4] then
    some [⟨"a/../b", false, some [9], false⟩]
  else none

/-- A scanner that writes `{}` to its output path and exits with status 0. -/
def writingScanner (_name : String) (args : List String) (root : Node) : Node × Bool :=
  match resolve ["srv"] (args.getD 4 "") with
  | none => (root, false)
  | some p =>
    match root.put (some (.file [123, 125] false)) p with
    | none => (root, false)
    | some root' => (root', true)

/-- A scanner that exits with status 0 and writes nothing. -/
def silentScanner (_name : String) (_args : List String) (root : Node) : Node × Bool :=
  (root, true)

/-- A Linux process in `/srv` whose random draws are `0, 1, 2, ...` and whose
scanner is `run`. -/
def exampleEnv (run : String → List String → Node → Node × Bool) : Env where
  cwd := ["srv"]
  GOOS := "linux"
  UnixNano := 0
  Intn := fun _ i => i % 62
  zipEntries := exampleArchives
  run := run

/-- A fresh deployment: `/srv/results` exists and is empty, `/srv/temp` does not
exist yet. -/
def freshWorld : World :=
  ⟨.dir [("srv", .dir [("results", .dir [] true false)] true false)] true false, []⟩

/-- A deployment after one scan of `project.zip`. -/
def usedWorld : World :=
  ⟨.dir [("srv", .dir
      [("results", .dir [("abcdefghij.json", .file [123, 125] false)] true false),
       ("temp", .dir
          [("project", .dir
              [("bytecode_modules", .dir [("mod.mv", .file [1, 2, 3] false)] true false)]
              true false),
           ("project.zip", .file [80, 75, 1] false)] true false)] true false)] true false, []⟩

/-- A deployment whose `temp/` holds a file `a` that cannot be removed and a
file `b` that can. -/
def stuckWorld : World :=
  ⟨.dir [("srv", .dir
      [("results", .dir [("abcdefghij.json", .file [123, 125] false)] true false),
       ("temp", .dir [("a", .file [1] true), ("b", .file [2] false)] true false)]
      true false)] true false, []⟩

/-- The deployment after `empty.zip` was saved and extracted in `freshWorld`. -/
def emptyExtracted : World :=
  ⟨.dir [("srv", .dir
      [("results", .dir [] true false),
       ("temp", .dir
          [("empty", .dir [("readme.txt", .file [104, 105] false)] true false),
           ("empty.zip", .file [80, 75, 2] false)] true false)] true false)] true false,
    [Event.Mkdir "temp/", Event.Create "temp/empty.zip", Event.MkdirAll "temp/empty",
      Event.MkdirAll "temp/empty", Event.OpenFile "temp/empty/readme.txt"]⟩

/-- A deployment whose `temp/` does not exist and whose `results/` holds one
result. -/
def resultsOnlyWorld : World :=
  ⟨.dir [("srv", .dir
      [("results", .dir [("abcdefghij.json", .file [123, 125] false)] true false)]
      true false)] true false, []⟩

/-- A deployment in which `detour.zip`, whose one entry is `a/../b`, has just
been saved under `temp/`. -/
def detourWorld : World :=
  ⟨.dir [("srv", .dir
      [("results", .dir [("abcdefghij.json", .file [123, 125] false)] true false),
       ("temp", .dir [("detour.zip", .file [80, 75, 4] false)] true false)]
      true false)] true false, []⟩

/-- A deployment in which `slip.zip` has just been saved under `temp/`. -/
def slipWorld : World :=
  ⟨.dir [("srv", .dir
      [("results", .dir [] true false),
       ("temp", .dir [("slip.zip", .file [80, 75, 3] false)] true false)]
      true false)] true false, []⟩

/-! ## Theorems: the Retention Scheduler's wait -/

theorem wrap64_of_range (x : Int) (h1 : -9223372036854775808 ≤ x)
    (h2 : x ≤ 9223372036854775807) : wrap64 x = x := by
  unfold wrap64
  omega

/-- Go's division and remainder, which round towards zero, in terms of the
quotient and the remainder. -/
theorem tdiv_tmod_spec (d n : Int) (hn : 0 < n) :
    d = n * Int.tdiv d n + Int.tmod d n ∧
    (0 ≤ d → 0 ≤ Int.tmod d n ∧ Int.tmod d n < n) ∧
    (d ≤ 0 → -n < Int.tmod d n ∧ Int.tmod d n ≤ 0) := by
  have hdef := Int.tmod_def d n
  refine ⟨by omega, ?_, ?_⟩
  · intro hd
    rw [Int.tmod_eq_emod hd (le_of_lt hn)]
    exact ⟨Int.emod_nonneg d (ne_of_gt hn), Int.emod_lt_of_pos d hn⟩
  · intro hd
    obtain ⟨r, rfl⟩ : ∃ r, d = -r := ⟨-d, by omega⟩
    have hr : 0 ≤ r := by omega
    rw [Int.tmod_def, Int.neg_tdiv, Int.tdiv_eq_ediv hr (le_of_lt hn)]
    have h1 := Int.emod_nonneg r (ne_of_gt hn)
    have h2 := Int.emod_lt_of_pos r hn
    have h3 := Int.emod_add_ediv r n
    constructor
    · have : n * -(r / n) = -(n * (r / n)) := by ring
      omega
    · have : n * -(r / n) = -(n * (r / n)) := by ring
      omega

theorem addSec_exact (t : Time) (d : Int)
    (h1 : -9223372036854775808 ≤ t.sec + d) (h2 : t.sec + d ≤ 9223372036854775807) :
    t.addSec d = ⟨t.sec + d, t.nsec⟩ := by
  unfold Time.addSec
  rw [wrap64_of_range _ h1 h2]
  have : decide (t.sec + d > t.sec) = decide (d > 0) := by
    by_cases hd : d > 0
    · simp [hd]
    · simp [hd]
  rw [if_pos this]

/-- Where it does not saturate, `t.Add(d)` is the instant `d` nanoseconds after
`t`. -/
theorem Add_exact (t : Time) (d : Int) (hn0 : 0 ≤ t.nsec) (hn1 : t.nsec < 1000000000)
    (hd0 : -9223372036854775808 ≤ d) (hd1 : d ≤ 9223372036854775807)
    (h1 : -9223372036854775808 ≤ (t.nanos + d) / 1000000000)
    (h2 : (t.nanos + d) / 1000000000 ≤ 9223372036854775807) :
    t.Add d = ⟨(t.nanos + d) / 1000000000, (t.nanos + d) % 1000000000⟩ := by
  obtain ⟨hq, hpos, hneg⟩ := tdiv_tmod_spec d 1000000000 (by decide)
  unfold Time.nanos at h1 h2 ⊢
  unfold Time.Add
  generalize Int.tdiv d 1000000000 = q at hq ⊢
  generalize Int.tmod d 1000000000 = m at hq hpos hneg ⊢
  have hm : -1000000000 < m ∧ m < 1000000000 := by
    by_cases hd : 0 ≤ d
    · have := hpos hd; omega
    · have := hneg (by omega); omega
  by_cases c1 : t.nsec + m ≥ 1000000000
  · rw [if_pos c1, wrap64_of_range _ (by omega) (by omega), addSec_exact _ _ (by simp only; omega)
      (by simp only; omega)]
    simp only [Time.mk.injEq]
    constructor <;> omega
  · rw [if_neg c1]
    by_cases c2 : t.nsec + m < 0
    · rw [if_pos c2, wrap64_of_range _ (by omega) (by omega),
        addSec_exact _ _ (by simp only; omega) (by simp only; omega)]
      simp only [Time.mk.injEq]
      constructor <;> omega
    · rw [if_neg c2, addSec_exact _ _ (by simp only; omega) (by simp only; omega)]
      simp only [Time.mk.injEq]
      constructor <;> omega

/-- The remainder `div(t, time.Hour)` returns is the remainder of the instant by
one hour, also before the zero time. -/
theorem div_Hour (t : Time) (hn0 : 0 ≤ t.nsec) (hn1 : t.nsec < 1000000000)
    (hs0 : -9223372036854775807 ≤ t.sec) (hs1 : t.sec ≤ 9223372036854775807) :
    t.div Hour = t.nanos % 3600000000000 := by
  have hc1 : ¬ (Hour < Second ∧ Int.tmod Second (Hour + Hour) = 0) := by decide
  have hc2 : Int.tmod Hour Second = 0 := by decide
  have hq : Int.tdiv Hour Second = 3600 := by decide
  have hH : Hour = 3600000000000 := by decide
  have hS : Second = 1000000000 := rfl
  unfold Time.div Time.nanos
  simp only
  rw [if_neg hc1, if_pos hc2, hq, hH, hS]
  by_cases hsec : t.sec < 0
  · rw [if_pos hsec]
    by_cases hns : -t.nsec < 0
    · rw [if_pos hns]
      simp only
      rw [wrap64_of_range (-t.sec) (by omega) (by omega),
        wrap64_of_range (-t.sec - 1) (by omega) (by omega)]
      obtain ⟨hd, hpos, _⟩ := tdiv_tmod_spec (-t.sec - 1) 3600 (by decide)
      have hp := hpos (by omega)
      generalize Int.tdiv (-t.sec - 1) 3600 = q at hd
      generalize Int.tmod (-t.sec - 1) 3600 = m at hd hp ⊢
      rw [wrap64_of_range (m * 1000000000) (by omega) (by omega),
        wrap64_of_range (m * 1000000000 + (-t.nsec + 1000000000)) (by omega) (by omega)]
      have hr : m * 1000000000 + (-t.nsec + 1000000000) ≠ 0 := by omega
      rw [if_pos ⟨hsec, hr⟩, wrap64_of_range _ (by omega) (by omega)]
      omega
    · rw [if_neg hns]
      simp only
      have hn : t.nsec = 0 := by omega
      rw [wrap64_of_range (-t.sec) (by omega) (by omega)]
      obtain ⟨hd, hpos, _⟩ := tdiv_tmod_spec (-t.sec) 3600 (by decide)
      have hp := hpos (by omega)
      generalize Int.tdiv (-t.sec) 3600 = q at hd
      generalize Int.tmod (-t.sec) 3600 = m at hd hp ⊢
      rw [wrap64_of_range (m * 1000000000) (by omega) (by omega),
        wrap64_of_range (m * 1000000000 + -t.nsec) (by omega) (by omega)]
      by_cases hr : m * 1000000000 + -t.nsec = 0
      · rw [if_neg (by intro h; exact h.2 hr)]
        omega
      · rw [if_pos ⟨hsec, hr⟩, wrap64_of_range _ (by omega) (by omega)]
        omega
  · rw [if_neg hsec]
    simp only
    obtain ⟨hd, hpos, _⟩ := tdiv_tmod_spec t.sec 3600 (by decide)
    have hp := hpos (by omega)
    generalize Int.tdiv t.sec 3600 = q at hd
    generalize Int.tmod t.sec 3600 = m at hd hp ⊢
    rw [wrap64_of_range (m * 1000000000) (by omega) (by omega),
      wrap64_of_range (m * 1000000000 + t.nsec) (by omega) (by omega)]
    rw [if_neg (by intro h; exact hsec h.1)]
    omega

/-- From the first hour boundary `time.Time` can represent on,
`t.Truncate(time.Hour)` is the hour boundary at or before `t`. -/
theorem Truncate_Hour (t : Time) (hn0 : 0 ≤ t.nsec) (hn1 : t.nsec < 1000000000)
    (hs0 : -9223372036854774000 ≤ t.sec) (hs1 : t.sec ≤ 9223372036854775807) :
    t.Truncate Hour
      = ⟨(t.nanos - t.nanos % 3600000000000) / 1000000000, 0⟩ := by
  have hH : ¬ Hour ≤ 0 := by decide
  unfold Time.Truncate
  rw [if_neg hH, div_Hour t hn0 hn1 (by omega) hs1]
  have hr0 := Int.emod_nonneg t.nanos (show (3600000000000 : Int) ≠ 0 by decide)
  have hr1 := Int.emod_lt_of_pos t.nanos (show (0 : Int) < 3600000000000 by decide)
  rw [wrap64_of_range _ (by omega) (by omega)]
  have hnan : t.nanos = t.sec * 1000000000 + t.nsec := rfl
  rw [Add_exact t _ hn0 hn1 (by omega) (by omega) (by omega) (by omega)]
  simp only [Time.mk.injEq]
  constructor
  · have : t.nanos + -(t.nanos % 3600000000000) = t.nanos - t.nanos % 3600000000000 := by ring
    rw [this]
  · omega

theorem Sub_exact (t u : Time) (ht0 : 0 ≤ t.nsec) (ht1 : t.nsec < 1000000000)
    (hu0 : 0 ≤ u.nsec) (hu1 : u.nsec < 1000000000)
    (hts0 : -9223372036854775808 ≤ t.sec) (hts1 : t.sec ≤ 9223372036854775807)
    (hd0 : -4000 ≤ t.sec - u.sec) (hd1 : t.sec - u.sec ≤ 4000) :
    t.Sub u = t.nanos - u.nanos := by
  have hS : Second = 1000000000 := rfl
  have hd : wrap64 (wrap64 (wrap64 (t.sec - u.sec) * Second) + wrap64 (t.nsec - u.nsec))
      = t.nanos - u.nanos := by
    unfold Time.nanos
    rw [hS, wrap64_of_range (t.sec - u.sec) (by omega) (by omega),
      wrap64_of_range ((t.sec - u.sec) * 1000000000) (by omega) (by omega),
      wrap64_of_range (t.nsec - u.nsec) (by omega) (by omega),
      wrap64_of_range _ (by omega) (by omega)]
    ring
  have hnt : t.nanos = t.sec * 1000000000 + t.nsec := rfl
  have hnu : u.nanos = u.sec * 1000000000 + u.nsec := rfl
  have hadd : u.Add (t.nanos - u.nanos) = t := by
    rw [Add_exact u _ hu0 hu1 (by omega) (by omega) (by omega) (by omega)]
    cases t with
    | mk ts tn =>
      simp only [Time.mk.injEq]
      simp only at ht0 ht1 hts0 hts1 hd0 hd1 hnt
      constructor <;> omega
  unfold Time.Sub
  rw [hd, if_pos hadd]

/-- C8, as amended: for every instant `now` from the first hour boundary
`time.Time` can represent up to, but not including, the last one, the wait
computed by `clearTempFolder` is strictly positive and at most one hour, and
`now` plus the wait is the smallest multiple of one hour strictly after
`now`. -/
theorem sleepDuration_next_hour_boundary (now : Time)
    (hn0 : 0 ≤ now.nsec) (hn1 : now.nsec < 1000000000)
    (hlo : -lastHourSec ≤ now.sec) (hhi : now.sec < lastHourSec) :
    sleepDuration now = (nextHour now).nanos - now.nanos ∧
    0 < sleepDuration now ∧ sleepDuration now ≤ Hour ∧
    Hour ∣ (now.nanos + sleepDuration now) ∧ now.nanos < now.nanos + sleepDuration now ∧
    ∀ b : Int, Hour ∣ b → now.nanos < b → now.nanos + sleepDuration now ≤ b := by
  have hL : lastHourSec = 9223372036854774000 := by decide
  have hH : Hour = 3600000000000 := by decide
  rw [hL] at hlo hhi
  have hnan : now.nanos = now.sec * 1000000000 + now.nsec := rfl
  have hr0 := Int.emod_nonneg now.nanos (show (3600000000000 : Int) ≠ 0 by decide)
  have hr1 := Int.emod_lt_of_pos now.nanos (show (0 : Int) < 3600000000000 by decide)
  have hdiv : (3600000000000 : Int) ∣ (now.nanos - now.nanos % 3600000000000) :=
    Int.dvd_sub_of_emod_eq rfl
  obtain ⟨k, hk⟩ := hdiv
  -- the hour boundary at or before `now`, and the next one
  have htr := Truncate_Hour now hn0 hn1 hlo (by omega)
  have hnext : nextHour now
      = ⟨(now.nanos - now.nanos % 3600000000000 + 3600000000000) / 1000000000, 0⟩ := by
    unfold nextHour
    rw [htr, hH]
    rw [Add_exact _ _ (by simp) (by simp) (by omega) (by omega)
      (by simp only [Time.nanos]; omega) (by simp only [Time.nanos]; omega)]
    simp only [Time.nanos, Time.mk.injEq]
    constructor <;> omega
  have hnn : (nextHour now).nanos = now.nanos - now.nanos % 3600000000000 + 3600000000000 := by
    rw [hnext]
    simp only [Time.nanos]
    omega
  have hsleep : sleepDuration now = 3600000000000 - now.nanos % 3600000000000 := by
    unfold sleepDuration
    rw [Sub_exact (nextHour now) now (by simp [hnext]) (by simp [hnext]) hn0 hn1
      (by rw [hnext]; simp only; omega) (by rw [hnext]; simp only; omega)
      (by rw [hnext]; simp only; omega) (by rw [hnext]; simp only; omega), hnn]
    ring
  rw [hsleep, hnn, hH]
  refine ⟨by ring, by omega, by omega, ⟨k + 1, by omega⟩, by omega, ?_⟩
  intro b hb hlt
  obtain ⟨j, hj⟩ := hb
  omega

/-- C8 at an instant of the year 2025, five nanoseconds after an hour boundary:
the wait is five nanoseconds short of an hour. -/
theorem sleepDuration_next_hour_boundary_witness :
    sleepDuration ⟨63900000000, 5⟩ = 3599999999995 ∧
    0 < sleepDuration ⟨63900000000, 5⟩ ∧
    Hour ∣ ((Time.mk 63900000000 5).nanos + sleepDuration ⟨63900000000, 5⟩) :=
  have h := sleepDuration_next_hour_boundary ⟨63900000000, 5⟩ (by decide) (by decide)
    (by decide) (by decide)
  ⟨by decide, h.2.1, h.2.2.2.1⟩

/-- C8 fails as stated: in the last hour of the range of `time.Time`, `Add`
saturates.  At the last instant but for 999999995 nanoseconds the next hour is
computed as the last full second and the wait is `-5` nanoseconds.  At the last
hour boundary the wait leads to no hour boundary, and one nanosecond before the
first hour boundary the wait is not the one nanosecond that leads there. -/
theorem sleepDuration_saturates :
    nextHour ⟨9223372036854775807, 5⟩ = ⟨9223372036854775807, 0⟩ ∧
    sleepDuration ⟨9223372036854775807, 5⟩ = -5 ∧
    ¬ (0 < sleepDuration ⟨9223372036854775807, 5⟩) ∧
    sleepDuration ⟨lastHourSec, 0⟩ = 1807000000000 ∧
    ¬ (Hour ∣ ((Time.mk lastHourSec 0).nanos + sleepDuration ⟨lastHourSec, 0⟩)) ∧
    Hour ∣ ((Time.mk (-lastHourSec - 1) 999999999).nanos + 1) ∧
    sleepDuration ⟨-lastHourSec - 1, 999999999⟩ = 1793000000001 := by
  refine ⟨by decide, by decide, by decide, by decide, by decide, by decide, by decide⟩

/-! ## Theorems: `generateRandomFileName` -/

theorem letterBytes_length : letterBytes.data.length = 62 := by decide

theorem letterBytes_nodup : letterBytes.data.Nodup := by decide

/-- The character `letterBytes[d]`, with `'a'` outside the bounds. -/
theorem letterBytes_get (d : Nat) (h : d < 62) :
    letterBytes.data[d]? = some (letterBytes.data.getD d 'a') := by
  rw [List.getD_eq_getElem?_getD]
  have hlt : d < letterBytes.data.length := by rw [letterBytes_length]; exact h
  rw [List.getElem?_eq_getElem hlt]
  rfl

theorem letterBytes_getD_mem (d : Nat) (h : d < 62) :
    letterBytes.data.getD d 'a' ∈ letterBytes.data := by
  have hlt : d < letterBytes.data.length := by rw [letterBytes_length]; exact h
  rw [List.getD_eq_getElem _ _ hlt]
  exact List.getElem_mem hlt

theorem letterBytes_getD_inj (d e : Nat) (hd : d < 62) (he : e < 62)
    (h : letterBytes.data.getD d 'a' = letterBytes.data.getD e 'a') : d = e := by
  have hd1 : d < letterBytes.data.length := by rw [letterBytes_length]; exact hd
  have he1 : e < letterBytes.data.length := by rw [letterBytes_length]; exact he
  rw [List.getD_eq_getElem _ _ hd1, List.getD_eq_getElem _ _ he1] at h
  exact (List.Nodup.getElem_inj_iff letterBytes_nodup).mp h

theorem fillFrom_eq (draws : Nat → Nat) (h : ∀ i, draws i < 62) (k : Nat) :
    ∀ i, fillFrom draws i k
      = some ((List.range k).map (fun j => letterBytes.data.getD (draws (i + j)) 'a')) := by
  induction k with
  | zero => intro i; simp [fillFrom]
  | succ k ih =>
    intro i
    rw [fillFrom, letterBytes_get _ (h i), ih (i + 1)]
    simp only [List.range_succ_eq_map, List.map_cons, List.map_map, Nat.add_zero]
    congr 2
    apply List.map_congr_left
    intro j _
    simp only [Function.comp]
    congr 2
    omega

theorem generateRandomFileName_eq (draws : Nat → Nat) (h : ∀ i, draws i < 62) (n : Nat) :
    generateRandomFileName (n : Int) draws
      = some (String.mk ((List.range n).map (fun j => letterBytes.data.getD (draws j) 'a'))) := by
  unfold generateRandomFileName
  rw [if_neg (by omega), Int.toNat_ofNat, fillFrom_eq draws h n 0]
  simp

theorem generateRandomFileName_agree (d e : Nat → Nat) (hd : ∀ i, d i < 62)
    (he : ∀ i, e i < 62) (n : Nat)
    (h : generateRandomFileName (n : Int) d = generateRandomFileName (n : Int) e) :
    ∀ i, i < n → d i = e i := by
  rw [generateRandomFileName_eq d hd, generateRandomFileName_eq e he] at h
  injection (Option.some.inj h) with h1
  intro i hi
  have h2 := List.map_inj_left.mp h1 i (List.mem_range.mpr hi)
  exact letterBytes_getD_inj _ _ (hd i) (he i) h2

theorem identifiers_eq_range :
    {s : String | ∃ d : Nat → Nat, (∀ i, d i < 62) ∧
        generateRandomFileName 10 d = some s} = Set.range nameOfDraws := by
  ext s
  constructor
  · rintro ⟨d, hd, hs⟩
    refine ⟨fun j => ⟨d j.val, hd j.val⟩, ?_⟩
    have := generateRandomFileName_eq d hd 10
    rw [show ((10 : Nat) : Int) = 10 from rfl, hs] at this
    rw [Option.some.inj this]
    unfold nameOfDraws
    congr 1
  · rintro ⟨f, rfl⟩
    refine ⟨fun j => if h : j < 10 then (f ⟨j, h⟩).val else 0, ?_, ?_⟩
    · intro i
      by_cases hi : i < 10
      · simp only [hi, dite_true]; exact (f ⟨i, hi⟩).isLt
      · simp [hi]
    · have := generateRandomFileName_eq (fun j => if h : j < 10 then (f ⟨j, h⟩).val else 0)
        (by
          intro i
          by_cases hi : i < 10
          · simp only [hi, dite_true]; exact (f ⟨i, hi⟩).isLt
          · simp [hi]) 10
      rw [show ((10 : Nat) : Int) = 10 from rfl] at this
      rw [this]
      rfl

theorem nameOfDraws_injective : Function.Injective nameOfDraws := by
  intro f g h
  unfold nameOfDraws at h
  injection h with h1
  funext j
  have h2 := List.map_inj_left.mp h1 j.val (List.mem_range.mpr j.isLt)
  simp only [j.isLt, dite_true] at h2
  exact Fin.ext (letterBytes_getD_inj _ _ (f j).isLt (g j).isLt h2)

theorem identifiers_ncard :
    Set.ncard {s : String | ∃ d : Nat → Nat, (∀ i, d i < 62) ∧
        generateRandomFileName 10 d = some s} = 62 ^ 10 := by
  rw [identifiers_eq_range, ← Set.image_univ,
    Set.ncard_image_of_injective _ nameOfDraws_injective, Set.ncard_univ,
    Nat.card_eq_fintype_card, Fintype.card_fun, Fintype.card_fin, Fintype.card_fin]

/-- C9: for every sequence of draws in the range 0..61,
`generateRandomFileName(10)` does not panic and returns a string of exactly 10
characters, all from the 62-character alphabet; two such draw sequences that give
the same identifier agree on their first ten draws; the set of possible
identifiers has exactly `62^10` elements; and for every `n >= 0` the result has
length exactly `n`. -/
theorem generateRandomFileName_spec (draws : Nat → Nat) (h : ∀ i, draws i < 62) :
    (∃ s : String, generateRandomFileName 10 draws = some s ∧ s.length = 10 ∧
        ∀ c ∈ s.data, c ∈ letterBytes.data) ∧
    letterBytes.data.length = 62 ∧
    (∀ other : Nat → Nat, (∀ i, other i < 62) →
        generateRandomFileName 10 draws = generateRandomFileName 10 other →
        ∀ i, i < 10 → draws i = other i) ∧
    Set.ncard {s : String | ∃ d : Nat → Nat, (∀ i, d i < 62) ∧
        generateRandomFileName 10 d = some s} = 62 ^ 10 ∧
    (∀ n : Int, 0 ≤ n →
        ∃ s : String, generateRandomFileName n draws = some s ∧ (s.length : Int) = n) := by
  refine ⟨?_, letterBytes_length, ?_, identifiers_ncard, ?_⟩
  · refine ⟨_, generateRandomFileName_eq draws h 10, ?_, ?_⟩
    · rw [String.length, List.length_map, List.length_range]
    · intro c hc
      simp only [List.mem_map, List.mem_range] at hc
      obtain ⟨j, _, rfl⟩ := hc
      exact letterBytes_getD_mem _ (h j)
  · intro other ho heq
    exact generateRandomFileName_agree draws other h ho 10 heq
  · intro n hn
    obtain ⟨m, rfl⟩ := Int.eq_ofNat_of_zero_le hn
    refine ⟨_, generateRandomFileName_eq draws h m, ?_⟩
    rw [String.length, List.length_map, List.length_range]

/-- C9 at the draws `0, 1, 2, ...` (reduced modulo 62): the identifier is
`abcdefghij`. -/
theorem generateRandomFileName_spec_witness :
    generateRandomFileName 10 (fun i => i % 62) = some "abcdefghij" ∧
    ((∃ s : String, generateRandomFileName 10 (fun i => i % 62) = some s ∧ s.length = 10 ∧
        ∀ c ∈ s.data, c ∈ letterBytes.data) ∧
    letterBytes.data.length = 62 ∧
    (∀ other : Nat → Nat, (∀ i, other i < 62) →
        generateRandomFileName 10 (fun i => i % 62) = generateRandomFileName 10 other →
        ∀ i, i < 10 → (fun i => i % 62) i = other i) ∧
    Set.ncard {s : String | ∃ d : Nat → Nat, (∀ i, d i < 62) ∧
        generateRandomFileName 10 d = some s} = 62 ^ 10 ∧
    (∀ n : Int, 0 ≤ n →
        ∃ s : String, generateRandomFileName n (fun i => i % 62) = some s ∧
          (s.length : Int) = n)) :=
  ⟨by decide, generateRandomFileName_spec (fun i => i % 62) (fun i => Nat.mod_lt i (by decide))⟩

/-! ## Theorems: path strings -/

namespace filepath

theorem splitSlash_ne_nil (cs : List Char) : splitSlash cs ≠ [] := by
  cases cs with
  | nil => simp [splitSlash]
  | cons c cs =>
    unfold splitSlash
    split
    · simp
    · split <;> simp

theorem splitSlash_cons_of_ne (c : Char) (cs w : List Char) (ws : List (List Char))
    (hc : c ≠ '/') (hs : splitSlash cs = w :: ws) :
    splitSlash (c :: cs) = (c :: w) :: ws := by
  rw [splitSlash, if_neg hc, hs]

theorem splitSlash_append (a b : List Char) :
    splitSlash (a ++ '/' :: b) = splitSlash a ++ splitSlash b := by
  induction a with
  | nil => simp [splitSlash]
  | cons c a ih =>
    by_cases hc : c = '/'
    · simp [splitSlash, hc, ih]
    · cases hs : splitSlash a with
      | nil => exact absurd hs (splitSlash_ne_nil a)
      | cons w ws =>
        rw [hs] at ih
        rw [List.cons_append, splitSlash_cons_of_ne c _ w (ws ++ splitSlash b) hc ih,
          splitSlash_cons_of_ne c a w ws hc hs]
        rfl

theorem splitSlash_of_not_mem (n : List Char) (h : '/' ∉ n) : splitSlash n = [n] := by
  induction n with
  | nil => simp [splitSlash]
  | cons c n ih =>
    have hc : c ≠ '/' := fun e => h (by simp [e])
    have hn : '/' ∉ n := fun e => h (by simp [e])
    unfold splitSlash
    rw [if_neg hc, ih hn]

theorem splitSlash_not_mem (cs : List Char) : ∀ w ∈ splitSlash cs, '/' ∉ w := by
  induction cs with
  | nil => simp [splitSlash]
  | cons c cs ih =>
    unfold splitSlash
    by_cases hc : c = '/'
    · rw [if_pos hc]
      intro w hw
      rcases List.mem_cons.mp hw with h | h
      · simp [h]
      · exact ih w h
    · rw [if_neg hc]
      cases hs : splitSlash cs with
      | nil => exact absurd hs (splitSlash_ne_nil cs)
      | cons v vs =>
        rw [hs] at ih
        intro w hw
        rcases List.mem_cons.mp hw with h | h
        · rw [h]
          intro hmem
          rcases List.mem_cons.mp hmem with h1 | h1
          · exact hc h1.symm
          · exact ih v (List.mem_cons_self _ _) h1
        · exact ih w (List.mem_cons_of_mem _ h)

theorem elements_append_slash (a b : String) :
    elements (a ++ "/" ++ b) = elements a ++ elements b := by
  unfold elements
  have : (a ++ "/" ++ b).data = a.data ++ '/' :: b.data := by
    simp [String.data_append]
  rw [this, splitSlash_append, List.map_append]

theorem elements_of_not_mem (n : String) (h : '/' ∉ n.data) : elements n = [n] := by
  unfold elements
  rw [splitSlash_of_not_mem _ h]
  rfl

theorem elements_not_mem (p : String) : ∀ e ∈ elements p, '/' ∉ e.data := by
  intro e he
  unfold elements at he
  obtain ⟨w, hw, rfl⟩ := List.mem_map.mp he
  exact splitSlash_not_mem _ w hw

theorem elements_ne_nil (p : String) : elements p ≠ [] := by
  unfold elements
  intro h
  exact splitSlash_ne_nil _ (List.map_eq_nil_iff.mp h)

theorem elements_Join (L : List String) (hne : L ≠ []) (h : ∀ e ∈ L, '/' ∉ e.data) :
    elements (strings.Join L "/") = L := by
  induction L with
  | nil => exact absurd rfl hne
  | cons a L ih =>
    cases L with
    | nil =>
      simp only [strings.Join]
      exact elements_of_not_mem a (h a (List.mem_cons_self _ _))
    | cons b rest =>
      simp only [strings.Join]
      rw [elements_append_slash, elements_of_not_mem a (h a (List.mem_cons_self _ _)),
        ih (by simp) (fun e he => h e (List.mem_cons_of_mem _ he))]
      rfl

end filepath

namespace filepath

theorem cleanStep_skip (r : Bool) (out : List String) (c : String) (h : c = "" ∨ c = ".") :
    cleanStep r out c = out := by
  unfold cleanStep
  rw [if_pos h]

theorem cleanStep_proper (r : Bool) (out : List String) (c : String) (h : Proper c) :
    cleanStep r out c = c :: out := by
  unfold cleanStep
  rw [if_neg (by rintro (e | e); exact h.1 e; exact h.2.1 e), if_neg h.2.2]

theorem walkStep_skip (out : List String) (c : String) (h : c = "" ∨ c = ".") :
    walkStep out c = out := by
  unfold walkStep
  rw [if_pos h]

theorem walkStep_proper (out : List String) (c : String) (h : Proper c) :
    walkStep out c = c :: out := by
  unfold walkStep
  rw [if_neg (by rintro (e | e); exact h.1 e; exact h.2.1 e), if_neg h.2.2]

theorem walkStep_dotdot (out : List String) : walkStep out ".." = out.drop 1 := by
  unfold walkStep
  rw [if_neg (by decide), if_pos rfl]

theorem element_cases (c : String) : (c = "" ∨ c = ".") ∨ c = ".." ∨ Proper c := by
  by_cases h1 : c = ""
  · exact Or.inl (Or.inl h1)
  · by_cases h2 : c = "."
    · exact Or.inl (Or.inr h2)
    · by_cases h3 : c = ".."
      · exact Or.inr (Or.inl h3)
      · exact Or.inr (Or.inr ⟨h1, h2, h3⟩)

theorem foldl_walkStep_proper (S : List String) (N : List String) (h : ∀ x ∈ N, Proper x) :
    N.foldl walkStep S = N.reverse ++ S := by
  induction N generalizing S with
  | nil => rfl
  | cons a N ih =>
    rw [List.foldl_cons, walkStep_proper S a (h a (List.mem_cons_self _ _)),
      ih _ (fun x hx => h x (List.mem_cons_of_mem _ hx))]
    simp

theorem foldl_walkStep_dotdots (S : List String) (k : Nat) :
    (List.replicate k "..").foldl walkStep S = S.drop k := by
  induction k generalizing S with
  | zero => simp
  | succ k ih =>
    rw [List.replicate_succ, List.foldl_cons, walkStep_dotdot, ih]
    simp [List.drop_drop]

theorem Tied_step (S out T : List String) (c : String) (h : Tied S out T) :
    Tied S (cleanStep false out c) (walkStep T c) := by
  obtain ⟨N, k, rfl, hN, rfl⟩ := h
  rcases element_cases c with hs | hd | hp
  · rw [cleanStep_skip _ _ _ hs, walkStep_skip _ _ hs]
    exact ⟨N, k, rfl, hN, rfl⟩
  · subst hd
    rw [walkStep_dotdot]
    cases N with
    | nil =>
      refine ⟨[], k + 1, ?_, by simp, ?_⟩
      · cases k with
        | zero => simp [cleanStep]
        | succ k => simp [cleanStep, List.replicate_succ]
      · simp [List.drop_drop]
    | cons top rest =>
      have htop : top ≠ ".." := (hN top (List.mem_cons_self _ _)).2.2
      refine ⟨rest, k, ?_, fun x hx => hN x (List.mem_cons_of_mem _ hx), by simp⟩
      simp [cleanStep, htop]
  · rw [cleanStep_proper _ _ _ hp, walkStep_proper _ _ hp]
    refine ⟨c :: N, k, by simp, ?_, by simp⟩
    intro x hx
    rcases List.mem_cons.mp hx with e | e
    · rw [e]; exact hp
    · exact hN x e

theorem Tied_foldl (S : List String) (cs : List String) :
    ∀ out T, Tied S out T → Tied S (cs.foldl (cleanStep false) out) (cs.foldl walkStep T) := by
  induction cs with
  | nil => intro out T h; exact h
  | cons c cs ih =>
    intro out T h
    exact ih _ _ (Tied_step S out T c h)

/-- The loop of `Clean` on a rooted path writes names only, and the walk from
the root ends at the same place. -/
theorem rooted_foldl (cs : List String) :
    ∀ out, (∀ x ∈ out, Proper x) →
      (∀ x ∈ cs.foldl (cleanStep true) out, Proper x) ∧
      cs.foldl (cleanStep true) out = cs.foldl walkStep out := by
  induction cs with
  | nil => intro out h; exact ⟨h, rfl⟩
  | cons c cs ih =>
    intro out h
    have key : cleanStep true out c = walkStep out c ∧ ∀ x ∈ walkStep out c, Proper x := by
      rcases element_cases c with hs | hd | hp
      · rw [cleanStep_skip _ _ _ hs, walkStep_skip _ _ hs]
        exact ⟨rfl, h⟩
      · subst hd
        rw [walkStep_dotdot]
        cases out with
        | nil => simp [cleanStep]
        | cons top rest =>
          have htop : top ≠ ".." := (h top (List.mem_cons_self _ _)).2.2
          refine ⟨by simp [cleanStep, htop], ?_⟩
          intro x hx
          exact h x (List.mem_cons_of_mem _ (by simpa using hx))
      · rw [cleanStep_proper _ _ _ hp, walkStep_proper _ _ hp]
        refine ⟨rfl, ?_⟩
        intro x hx
        rcases List.mem_cons.mp hx with e | e
        · rw [e]; exact hp
        · exact h x e
    rw [List.foldl_cons, List.foldl_cons, key.1]
    exact ih _ key.2

end filepath

namespace filepath

theorem cleanStep_mem (r : Bool) (out : List String) (c : String) :
    ∀ x ∈ cleanStep r out c, x ∈ out ∨ (x = c ∧ c ≠ "") := by
  intro x hx
  rcases element_cases c with hs | hd | hp
  · rw [cleanStep_skip _ _ _ hs] at hx
    exact Or.inl hx
  · subst hd
    unfold cleanStep at hx
    rw [if_neg (by decide), if_pos rfl] at hx
    cases out with
    | nil =>
      cases r with
      | true => simp at hx
      | false =>
        simp at hx
        exact Or.inr ⟨hx, by decide⟩
    | cons top rest =>
      simp only at hx
      split at hx
      · rcases List.mem_cons.mp hx with e | e
        · exact Or.inr ⟨e, by decide⟩
        · exact Or.inl e
      · exact Or.inl (List.mem_cons_of_mem _ hx)
  · rw [cleanStep_proper _ _ _ hp] at hx
    rcases List.mem_cons.mp hx with e | e
    · exact Or.inr ⟨e, hp.1⟩
    · exact Or.inl e

theorem foldl_cleanStep_mem (r : Bool) (cs : List String) :
    ∀ out, ∀ x ∈ cs.foldl (cleanStep r) out, x ∈ out ∨ (x ∈ cs ∧ x ≠ "") := by
  induction cs with
  | nil => intro out x hx; exact Or.inl hx
  | cons c cs ih =>
    intro out x hx
    rw [List.foldl_cons] at hx
    rcases ih _ x hx with h | h
    · rcases cleanStep_mem r out c x h with h1 | h1
      · exact Or.inl h1
      · exact Or.inr ⟨by rw [h1.1]; exact List.mem_cons_self _ _, by rw [h1.1]; exact h1.2⟩
    · exact Or.inr ⟨List.mem_cons_of_mem _ h.1, h.2⟩

/-- What `Clean` writes consists of non-empty elements without a separator. -/
theorem written_elements (r : Bool) (p : String) :
    ∀ x ∈ (elements p).foldl (cleanStep r) [], x ≠ "" ∧ '/' ∉ x.data := by
  intro x hx
  rcases foldl_cleanStep_mem r _ [] x hx with h | h
  · simp at h
  · exact ⟨h.2, elements_not_mem p x h.1⟩

theorem data_ne_nil (s : String) (h : s ≠ "") : s.data ≠ [] := by
  intro e
  apply h
  cases s
  simp at e
  subst e
  rfl

theorem Join_data_head (e : String) (rest : List String) (he : e ≠ "") :
    (strings.Join (e :: rest) "/").data.head? = e.data.head? := by
  have hne := data_ne_nil e he
  cases rest with
  | nil => rfl
  | cons b rest =>
    simp only [strings.Join, String.data_append]
    cases hd : e.data with
    | nil => exact absurd hd hne
    | cons c cs => simp

theorem Join_ne_empty (e : String) (rest : List String) (he : e ≠ "") :
    strings.Join (e :: rest) "/" ≠ "" := by
  intro h
  have h1 := Join_data_head e rest he
  rw [h] at h1
  have hne := data_ne_nil e he
  cases hd : e.data with
  | nil => exact hne hd
  | cons c cs => rw [hd] at h1; simp at h1

theorem isRooted_Join (e : String) (rest : List String) (he : e ≠ "") (hs : '/' ∉ e.data) :
    isRooted (strings.Join (e :: rest) "/") = false := by
  unfold isRooted
  rw [Join_data_head e rest he]
  have hne := data_ne_nil e he
  cases hd : e.data with
  | nil => exact absurd hd hne
  | cons c cs =>
    rw [hd] at hs
    have : c ≠ '/' := fun e => hs (by simp [e])
    simp [this]

theorem isRooted_slash_append (s : String) : isRooted ("/" ++ s) = true := by
  unfold isRooted
  simp [String.data_append]

theorem elements_slash_append (s : String) : elements ("/" ++ s) = "" :: elements s := by
  unfold elements
  have : ("/" ++ s).data = '/' :: s.data := by simp [String.data_append]
  rw [this, splitSlash]
  simp

theorem Clean_ne_empty (p : String) : Clean p ≠ "" := by
  unfold Clean
  by_cases hp : p = ""
  · rw [if_pos hp]; decide
  · rw [if_neg hp]
    simp only
    by_cases hr : isRooted p = true
    · rw [if_pos hr]
      intro h
      have := congrArg String.data h
      simp [String.data_append] at this
    · rw [if_neg hr]
      by_cases ho : (elements p).foldl (cleanStep (isRooted p)) [] = []
      · rw [if_pos ho]; decide
      · rw [if_neg ho]
        cases hrev : ((elements p).foldl (cleanStep (isRooted p)) []).reverse with
        | nil => exact absurd (List.reverse_eq_nil_iff.mp hrev) ho
        | cons e rest =>
          have hmem : e ∈ (elements p).foldl (cleanStep (isRooted p)) [] := by
            rw [← List.mem_reverse, hrev]; exact List.mem_cons_self _ _
          exact Join_ne_empty e rest (written_elements _ p e hmem).1

theorem isRooted_Clean (p : String) (hp : p ≠ "") : isRooted (Clean p) = isRooted p := by
  unfold Clean
  rw [if_neg hp]
  simp only
  by_cases hr : isRooted p = true
  · rw [if_pos hr, hr]
    exact isRooted_slash_append _
  · rw [if_neg hr]
    have hf : isRooted p = false := by simpa using hr
    rw [hf]
    by_cases ho : (elements p).foldl (cleanStep false) [] = []
    · rw [if_pos ho]; rfl
    · rw [if_neg ho]
      cases hrev : ((elements p).foldl (cleanStep false) []).reverse with
      | nil => exact absurd (List.reverse_eq_nil_iff.mp hrev) ho
      | cons e rest =>
        have hmem : e ∈ (elements p).foldl (cleanStep false) [] := by
          rw [← List.mem_reverse, hrev]; exact List.mem_cons_self _ _
        have := written_elements false p e hmem
        exact isRooted_Join e rest this.1 this.2

/-- The walk along `Clean p` ends where the walk along `p` ends. -/
theorem walk_Clean (S : List String) (p : String) (hp : p ≠ "") :
    (elements (Clean p)).foldl walkStep (if isRooted p then [] else S)
      = (elements p).foldl walkStep (if isRooted p then [] else S) := by
  unfold Clean
  rw [if_neg hp]
  simp only
  by_cases hr : isRooted p = true
  · rw [if_pos hr, hr]
    simp only [if_true]
    obtain ⟨hprop, heq⟩ := rooted_foldl (elements p) [] (by simp)
    rw [elements_slash_append, List.foldl_cons, walkStep_skip _ _ (Or.inl rfl)]
    by_cases ho : (elements p).foldl (cleanStep true) [] = []
    · rw [← heq, ho]
      rfl
    · rw [elements_Join _ (by simpa using ho)
        (fun e he => (written_elements true p e (List.mem_reverse.mp he)).2)]
      rw [foldl_walkStep_proper _ _ (fun x hx => hprop x (List.mem_reverse.mp hx))]
      rw [← heq]
      simp
  · have hf : isRooted p = false := by simpa using hr
    rw [if_neg hr, hf]
    simp only [Bool.false_eq_true, if_false]
    have htied := Tied_foldl S (elements p) [] S ⟨[], 0, by simp, by simp, by simp⟩
    obtain ⟨N, k, hout, hN, hT⟩ := htied
    rw [hT]
    by_cases ho : (elements p).foldl (cleanStep false) [] = []
    · rw [if_pos ho]
      rw [ho] at hout
      have hN0 : N = [] := by
        cases N with
        | nil => rfl
        | cons a N => simp at hout
      have hk0 : k = 0 := by
        cases k with
        | zero => rfl
        | succ k => rw [hN0] at hout; simp [List.replicate_succ] at hout
      rw [hN0, hk0]
      rfl
    · rw [if_neg ho]
      rw [elements_Join _ (by simpa using ho)
        (fun e he => (written_elements false p e (List.mem_reverse.mp he)).2)]
      rw [hout, List.reverse_append, List.reverse_replicate, List.foldl_append,
        foldl_walkStep_dotdots, foldl_walkStep_proper _ _
          (fun x hx => hN x (List.mem_reverse.mp hx))]
      simp

end filepath

/-- A cleaned path names the same place as the path itself. -/
theorem resolve_Clean (cwd : List String) (p : String) (hp : p ≠ "") :
    resolve cwd (filepath.Clean p) = resolve cwd p := by
  unfold resolve
  rw [if_neg (filepath.Clean_ne_empty p), if_neg hp, filepath.isRooted_Clean p hp,
    filepath.walk_Clean cwd.reverse p hp]

namespace filepath

theorem validName_iff (n : String) : validName n = true ↔ Proper n ∧ '/' ∉ n.data := by
  unfold validName Proper
  simp [and_assoc]

theorem Join_pair (d n : String) (hd : d ≠ "") : Join [d, n] = Clean (d ++ "/" ++ n) := by
  unfold Join
  simp [List.dropWhile, hd, strings.Join]

theorem Join_pair_ne_empty (d n : String) (hn : n ≠ "") : Join [d, n] ≠ "" := by
  by_cases hd : d = ""
  · subst hd
    unfold Join
    simp [List.dropWhile, hn, strings.Join]
    exact Clean_ne_empty n
  · rw [Join_pair d n hd]
    exact Clean_ne_empty _

theorem isRooted_append (d s : String) (hd : d ≠ "") : isRooted (d ++ s) = isRooted d := by
  unfold isRooted
  have hne := data_ne_nil d hd
  rw [String.data_append]
  cases h : d.data with
  | nil => exact absurd h hne
  | cons c cs => simp

theorem append_ne_empty (d s : String) (hd : d ≠ "") : d ++ s ≠ "" := by
  intro h
  have h1 := congrArg String.data h
  rw [String.data_append] at h1
  have hne := data_ne_nil d hd
  cases hdd : d.data with
  | nil => exact hne hdd
  | cons c cs => rw [hdd] at h1; simp at h1

end filepath

/-- The place `d/n` names: the walk along `n` from the place `d` names. -/
theorem resolve_append_slash (cwd : List String) (d n : String) (p : List String)
    (hp : resolve cwd d = some p) :
    resolve cwd (d ++ "/" ++ n)
      = some (((filepath.elements n).foldl walkStep p.reverse).reverse) := by
  have hd : d ≠ "" := by
    intro h
    rw [h] at hp
    simp [resolve] at hp
  unfold resolve at hp ⊢
  rw [if_neg hd] at hp
  have hne : d ++ "/" ++ n ≠ "" := by
    rw [String.append_assoc]
    exact filepath.append_ne_empty d _ hd
  rw [if_neg hne]
  have hroot : filepath.isRooted (d ++ "/" ++ n) = filepath.isRooted d := by
    rw [String.append_assoc]
    exact filepath.isRooted_append d _ hd
  rw [hroot, filepath.elements_append_slash, List.foldl_append]
  have := Option.some.inj hp
  rw [← this, List.reverse_reverse]

/-- The place `filepath.Join(d, n)` names. -/
theorem resolve_Join (cwd : List String) (d n : String) (p : List String)
    (hp : resolve cwd d = some p) :
    resolve cwd (filepath.Join [d, n])
      = some (((filepath.elements n).foldl walkStep p.reverse).reverse) := by
  have hd : d ≠ "" := by
    intro h
    rw [h] at hp
    simp [resolve] at hp
  rw [filepath.Join_pair d n hd, resolve_Clean]
  · exact resolve_append_slash cwd d n p hp
  · rw [String.append_assoc]
    exact filepath.append_ne_empty d _ hd

theorem walk_validName (S : List String) (n : String) (hn : validName n = true) :
    (filepath.elements n).foldl walkStep S = n :: S := by
  obtain ⟨hprop, hs⟩ := (filepath.validName_iff n).mp hn
  rw [filepath.elements_of_not_mem n hs, List.foldl_cons, List.foldl_nil, filepath.walkStep_proper _ _ hprop]

/-- The entry `n` of the directory `d`, named as `d/n`. -/
theorem resolve_append_name (cwd : List String) (d n : String) (p : List String)
    (hp : resolve cwd d = some p) (hn : validName n = true) :
    resolve cwd (d ++ "/" ++ n) = some (p ++ [n]) := by
  rw [resolve_append_slash cwd d n p hp, walk_validName _ n hn]
  simp

/-- The entry `n` of the directory `d`, named as `filepath.Join(d, n)`. -/
theorem resolve_Join_name (cwd : List String) (d n : String) (p : List String)
    (hp : resolve cwd d = some p) (hn : validName n = true) :
    resolve cwd (filepath.Join [d, n]) = some (p ++ [n]) := by
  rw [resolve_Join cwd d n p hp, walk_validName _ n hn]
  simp

namespace filepath

theorem Base_of_suffix (s n : String) (X : List Char) (hs : s.data = X ++ n.data)
    (hn : n ≠ "") (hslash : '/' ∉ n.data) (hX : X = [] ∨ ∃ Y, X = Y ++ ['/']) :
    Base s = n := by
  have hne := data_ne_nil n hn
  have hsne : s ≠ "" := by
    intro h
    rw [h] at hs
    have : X ++ n.data = [] := hs.symm
    exact hne (List.append_eq_nil.mp this).2
  -- the reversed name, character by character
  obtain ⟨c, cs, hrev⟩ : ∃ c cs, n.data.reverse = c :: cs := by
    cases h : n.data.reverse with
    | nil => exact absurd (List.reverse_eq_nil_iff.mp h) hne
    | cons c cs => exact ⟨c, cs, rfl⟩
  have hall : ∀ x ∈ n.data.reverse, x ≠ '/' := by
    intro x hx e
    exact hslash (by rw [← e]; exact List.mem_reverse.mp hx)
  have hc : c ≠ '/' := hall c (by rw [hrev]; exact List.mem_cons_self _ _)
  unfold Base
  rw [if_neg hsne]
  simp only
  have hstrip : (s.data.reverse.dropWhile (fun c => decide (c = '/'))).reverse = s.data := by
    rw [hs, List.reverse_append, hrev]
    simp only [List.cons_append, List.dropWhile, hc, decide_False, List.reverse_cons]
    have h2 : cs.reverse ++ [c] = n.data := by
      have := congrArg List.reverse hrev
      simpa using this.symm
    show (cs ++ X.reverse).reverse ++ [c] = X ++ n.data
    rw [List.reverse_append, List.reverse_reverse, List.append_assoc, h2]
  rw [hstrip]
  have hlast : lastElement s.data = n.data := by
    unfold lastElement
    rw [hs, List.reverse_append]
    have htw : ∀ (l : List Char) (r : List Char), (∀ x ∈ l, x ≠ '/') →
        (r = [] ∨ ∃ r', r = '/' :: r') →
        (l ++ r).takeWhile (fun c => decide (c ≠ '/')) = l := by
      intro l r hl hr
      induction l with
      | nil =>
        rcases hr with h | ⟨r', h⟩
        · simp [h]
        · simp [h, List.takeWhile]
      | cons a l ih =>
        have ha : a ≠ '/' := hl a (List.mem_cons_self _ _)
        have ih' := ih (fun x hx => hl x (List.mem_cons_of_mem _ hx))
        simp only [List.cons_append, List.takeWhile, ha, ne_eq, not_false_eq_true, decide_True]
        exact congrArg (List.cons a) ih'
    rw [htw _ _ hall]
    · simp
    · rcases hX with h | ⟨Y, h⟩
      · left; simp [h]
      · right; exact ⟨Y.reverse, by simp [h]⟩
  rw [hlast, if_neg hne]

theorem strings_Join_snoc (L : List String) (n : String) :
    (strings.Join (L ++ [n]) "/").data
      = (if L = [] then [] else (strings.Join L "/").data ++ ['/']) ++ n.data := by
  induction L with
  | nil => simp [strings.Join]
  | cons a L ih =>
    cases L with
    | nil => simp [strings.Join, String.data_append]
    | cons b rest =>
      have : (a :: b :: rest) ++ [n] = a :: b :: (rest ++ [n]) := rfl
      rw [this]
      simp only [strings.Join, String.data_append]
      have ih' := ih
      rw [if_neg (by simp)] at ih'
      have h2 : (b :: rest) ++ [n] = b :: (rest ++ [n]) := rfl
      rw [h2] at ih'
      rw [ih']
      simp [strings.Join, String.data_append]

/-- The last element of `filepath.Join(d, n)` is the name `n`. -/
theorem Base_Join_name (d n : String) (hd : d ≠ "") (hn : validName n = true) :
    Base (Join [d, n]) = n := by
  obtain ⟨hprop, hs⟩ := (validName_iff n).mp hn
  rw [Join_pair d n hd]
  have hne : d ++ "/" ++ n ≠ "" := by
    rw [String.append_assoc]
    exact append_ne_empty d _ hd
  have hel : elements (d ++ "/" ++ n) = elements d ++ [n] := by
    rw [elements_append_slash, elements_of_not_mem n hs]
  have hout : ∀ r, (elements (d ++ "/" ++ n)).foldl (cleanStep r) []
      = n :: (elements d).foldl (cleanStep r) [] := by
    intro r
    rw [hel, List.foldl_append, List.foldl_cons, List.foldl_nil, cleanStep_proper _ _ _ hprop]
  unfold Clean
  rw [if_neg hne]
  simp only
  rw [hout]
  by_cases hr : isRooted (d ++ "/" ++ n) = true
  · rw [if_pos hr, List.reverse_cons]
    apply Base_of_suffix _ n
      ('/' :: (if ((elements d).foldl (cleanStep (isRooted (d ++ "/" ++ n))) []).reverse = []
        then [] else (strings.Join ((elements d).foldl
          (cleanStep (isRooted (d ++ "/" ++ n))) []).reverse "/").data ++ ['/']))
    · rw [String.data_append, strings_Join_snoc]
      simp
    · exact hprop.1
    · exact hs
    · right
      split
      · exact ⟨[], by simp⟩
      · exact ⟨'/' :: (strings.Join ((elements d).foldl
          (cleanStep (isRooted (d ++ "/" ++ n))) []).reverse "/").data, by simp⟩
  · rw [if_neg hr, if_neg (by simp), List.reverse_cons]
    apply Base_of_suffix _ n
      (if ((elements d).foldl (cleanStep (isRooted (d ++ "/" ++ n))) []).reverse = []
        then [] else (strings.Join ((elements d).foldl
          (cleanStep (isRooted (d ++ "/" ++ n))) []).reverse "/").data ++ ['/'])
    · rw [strings_Join_snoc]
    · exact hprop.1
    · exact hs
    · split
      · left; rfl
      · right; exact ⟨_, rfl⟩

end filepath

/-! ## Theorems: the directory tree -/

theorem lookup_nil (nd : Node) : nd.lookup [] = some nd := by
  cases nd <;> rfl

theorem lookup_dir_cons (es : Listing) (r l : Bool) (n : String) (rest : List String) :
    (Node.dir es r l).lookup (n :: rest)
      = (lookupEntry es n).bind (fun child => child.lookup rest) := by
  rw [Node.lookup]
  cases lookupEntry es n <;> rfl

theorem lookup_file_cons (d : Bytes) (l : Bool) (n : String) (rest : List String) :
    (Node.file d l).lookup (n :: rest) = none := rfl

theorem lookup_append (p q : List String) :
    ∀ nd : Node, nd.lookup (p ++ q) = (nd.lookup p).bind (fun m => m.lookup q) := by
  induction p with
  | nil => intro nd; rw [lookup_nil]; rfl
  | cons n p ih =>
    intro nd
    cases nd with
    | file d l => rfl
    | dir es r l =>
      rw [List.cons_append, lookup_dir_cons, lookup_dir_cons]
      cases lookupEntry es n with
      | none => rfl
      | some child => exact ih child

theorem lookupEntry_cons (m n : String) (nd : Node) (rest : Listing) :
    lookupEntry ((m, nd) :: rest) n = if m = n then some nd else lookupEntry rest n := rfl

theorem wfEntries_cons (n : String) (nd : Node) (rest : Listing) :
    wfEntries ((n, nd) :: rest) = true ↔
      validName n = true ∧ lookupEntry rest n = none ∧ nd.wf = true ∧ wfEntries rest = true := by
  rw [wfEntries]
  simp [and_assoc]

theorem listableEntries_cons (n : String) (nd : Node) (rest : Listing) :
    listableEntries ((n, nd) :: rest) = true ↔
      nd.listable = true ∧ listableEntries rest = true := by
  rw [listableEntries]
  simp

/-! ## Theorems: `findBytecodeFolder` -/

theorem validName_bytecodeModules : validName bytecodeModules = true := by decide

theorem bytecodeModules_ne_empty : bytecodeModules ≠ "" := by decide

theorem findInFiles_nil (d : String) : findInFiles d [] = "" := by
  rw [findInFiles]

theorem findInFiles_cons (d n : String) (nd : Node) (rest : Listing) :
    findInFiles d ((n, nd) :: rest) =
      if (nd.IsDir && decide (n = bytecodeModules)) = true then
        filepath.Join [d, bytecodeModules]
      else if nd.IsDir = true then
        if findBelow (filepath.Join [d, n]) nd ≠ "" then findBelow (filepath.Join [d, n]) nd
        else findInFiles d rest
      else findInFiles d rest := by
  rw [findInFiles]

theorem findBelow_dir (d : String) (es : Listing) (l : Bool) :
    findBelow d (.dir es true l) = findInFiles d es := by
  rw [findBelow]

theorem findBelow_unreadable (d : String) (es : Listing) (l : Bool) :
    findBelow d (.dir es false l) = "" := by
  rw [findBelow]

theorem findBelow_file (d : String) (data : Bytes) (l : Bool) :
    findBelow d (.file data l) = "" := by
  rw [findBelow]

mutual
theorem dirsBelow_path_ne (d : String) : ∀ (nd : Node),
    ∀ x ∈ dirsBelow d nd, x.1 ≠ "" → x.2 ≠ ""
  | .file _ _ => by intro x hx; rw [dirsBelow] at hx; simp at hx
  | .dir _ false _ => by intro x hx; rw [dirsBelow] at hx; simp at hx
  | .dir es true _ => by
    intro x hx
    rw [dirsBelow] at hx
    exact dirsIn_path_ne d es x hx
theorem dirsIn_path_ne (d : String) : ∀ (es : Listing),
    ∀ x ∈ dirsIn d es, x.1 ≠ "" → x.2 ≠ ""
  | [] => by intro x hx; rw [dirsIn] at hx; simp at hx
  | (n, nd) :: rest => by
    intro x hx hne
    rw [dirsIn] at hx
    rcases List.mem_append.mp hx with h | h
    · by_cases hd : nd.IsDir = true
      · rw [if_pos hd] at h
        rcases List.mem_cons.mp h with e | e
        · rw [e] at hne ⊢
          exact filepath.Join_pair_ne_empty d n hne
        · exact dirsBelow_path_ne (filepath.Join [d, n]) nd x e hne
      · rw [if_neg hd] at h
        simp at h
    · exact dirsIn_path_ne d rest x h hne
end

theorem firstMarker_nil : firstMarker [] = "" := rfl

theorem firstMarker_cons_marker (p : String) (l : List (String × String)) :
    firstMarker ((bytecodeModules, p) :: l) = p := by
  simp [firstMarker, List.find?]

theorem firstMarker_cons_other (n p : String) (l : List (String × String))
    (h : n ≠ bytecodeModules) : firstMarker ((n, p) :: l) = firstMarker l := by
  simp [firstMarker, List.find?, h]

theorem firstMarker_append (a b : List (String × String))
    (ha : ∀ x ∈ a, x.1 ≠ "" → x.2 ≠ "") :
    firstMarker (a ++ b) = if firstMarker a ≠ "" then firstMarker a else firstMarker b := by
  unfold firstMarker
  rw [List.find?_append]
  cases h : a.find? (fun x => decide (x.1 = bytecodeModules)) with
  | none => simp
  | some x =>
    have hmem := List.mem_of_find?_eq_some h
    have hname : x.1 = bytecodeModules := by
      have := List.find?_some h
      simpa using this
    have hx : x.2 ≠ "" := ha x hmem (by rw [hname]; exact bytecodeModules_ne_empty)
    simp [hx]

mutual
/-- The early-exit search of `findBytecodeFolder` returns the first marker
directory of the pre-order traversal. -/
theorem findBelow_eq_firstMarker : ∀ (nd : Node) (d : String),
    findBelow d nd = firstMarker (dirsBelow d nd)
  | .file _ _, d => by rw [findBelow, dirsBelow]; rfl
  | .dir _ false _, d => by rw [findBelow, dirsBelow]; rfl
  | .dir es true _, d => by
    rw [findBelow, dirsBelow]
    exact findInFiles_eq_firstMarker es d
theorem findInFiles_eq_firstMarker : ∀ (es : Listing) (d : String),
    findInFiles d es = firstMarker (dirsIn d es)
  | [], d => by rw [findInFiles, dirsIn]; rfl
  | (n, nd) :: rest, d => by
    rw [findInFiles_cons, dirsIn]
    have ihrest := findInFiles_eq_firstMarker rest d
    by_cases hdir : nd.IsDir = true
    · rw [if_pos hdir]
      by_cases hn : n = bytecodeModules
      · subst hn
        simp only [hdir, decide_True, Bool.and_self, if_true]
        rw [List.cons_append, firstMarker_cons_marker]
      · have hcond : ¬ ((nd.IsDir && decide (n = bytecodeModules)) = true) := by
          simp [hn]
        rw [if_neg hcond, if_pos hdir, List.cons_append, firstMarker_cons_other _ _ _ hn,
          firstMarker_append _ _ (dirsBelow_path_ne _ nd),
          ← findBelow_eq_firstMarker nd (filepath.Join [d, n]), ← ihrest]
    · have hcond : ¬ ((nd.IsDir && decide (n = bytecodeModules)) = true) := by
        simp [hdir]
      rw [if_neg hcond, if_neg hdir, if_neg hdir, List.nil_append, ihrest]
end

/-- C10: `findBytecodeFolder` returns the directory named `bytecode_modules`
that comes first in the depth-first pre-order traversal visiting the entries of
each directory in listing order; in the loop over a listing, a directory entry
named `bytecode_modules` is returned when the entries before it are no such
directory and the searches below them found nothing, whatever entries come
after it. -/
theorem findBytecodeFolder_first_in_preorder (env : Env) (w : World) (dirPath : String) :
    findBytecodeFolder env w dirPath
      = firstMarker (match os.find env w dirPath with
          | none => []
          | some nd => dirsBelow dirPath nd) ∧
    ∀ (before after : Listing) (sub : Listing) (r l : Bool),
      (∀ e ∈ before, ¬ (e.2.IsDir = true ∧ e.1 = bytecodeModules)) →
      (∀ e ∈ before, findBelow (filepath.Join [dirPath, e.1]) e.2 = "") →
      findInFiles dirPath (before ++ (bytecodeModules, Node.dir sub r l) :: after)
        = filepath.Join [dirPath, bytecodeModules] := by
  constructor
  · unfold findBytecodeFolder
    cases os.find env w dirPath with
    | none => rfl
    | some nd => exact findBelow_eq_firstMarker nd dirPath
  · intro before after sub r l hnot hsearch
    induction before with
    | nil =>
      rw [List.nil_append, findInFiles_cons]
      simp [Node.IsDir]
    | cons e before ih =>
      obtain ⟨n, nd⟩ := e
      have ih' := ih (fun e he => hnot e (List.mem_cons_of_mem _ he))
        (fun e he => hsearch e (List.mem_cons_of_mem _ he))
      have h1 := hnot (n, nd) (List.mem_cons_self _ _)
      have h2 := hsearch (n, nd) (List.mem_cons_self _ _)
      rw [List.cons_append, findInFiles_cons]
      have hcond : ¬ ((nd.IsDir && decide (n = bytecodeModules)) = true) := by
        simpa using h1
      rw [if_neg hcond]
      by_cases hdir : nd.IsDir = true
      · rw [if_pos hdir]
        simp only at h2
        rw [h2]
        simpa using ih'
      · rw [if_neg hdir]
        exact ih'

theorem resolve_ne_empty (cwd : List String) (d : String) (p : List String)
    (hp : resolve cwd d = some p) : d ≠ "" := by
  intro h
  rw [h] at hp
  simp [resolve] at hp

theorem IsDir_iff (nd : Node) : nd.IsDir = true ↔ ∃ es r l, nd = .dir es r l := by
  cases nd with
  | file d l => simp [Node.IsDir]
  | dir es r l => simp [Node.IsDir]

mutual
theorem none_below : ∀ (nd : Node) (d : String), nd.listable = true → findBelow d nd = "" →
    ∀ (chain : List String) (sub : Listing) (r l : Bool),
      nd.lookup (chain ++ [bytecodeModules]) ≠ some (.dir sub r l)
  | .file _ _, _, _, _ => by
    intro chain sub r l
    cases chain <;> simp [Node.lookup]
  | .dir es false _, _, hl, _ => by
    rw [Node.listable] at hl
    simp at hl
  | .dir es true l0, d, hl, h => by
    rw [Node.listable] at hl
    rw [findBelow] at h
    exact none_in es d (by simpa using hl) h true l0
theorem none_in : ∀ (es : Listing) (d : String), listableEntries es = true →
    findInFiles d es = "" →
    ∀ (r0 l0 : Bool) (chain : List String) (sub : Listing) (r l : Bool),
      (Node.dir es r0 l0).lookup (chain ++ [bytecodeModules]) ≠ some (.dir sub r l)
  | [], _, _, _ => by
    intro r0 l0 chain sub r l
    cases chain <;> simp [Node.lookup, lookupEntry]
  | (n, nd) :: rest, d, hl, h => by
    intro r0 l0 chain sub r l hfound
    obtain ⟨hlnd, hlrest⟩ := (listableEntries_cons n nd rest).mp hl
    rw [findInFiles_cons] at h
    -- the head entry is not the marker directory
    have hcond : ¬ ((nd.IsDir && decide (n = bytecodeModules)) = true) := by
      intro hc
      rw [if_pos hc] at h
      exact filepath.Join_pair_ne_empty d bytecodeModules bytecodeModules_ne_empty h
    rw [if_neg hcond] at h
    -- the search below the head and in the rest found nothing
    have hsplit : (nd.IsDir = true → findBelow (filepath.Join [d, n]) nd = "") ∧
        findInFiles d rest = "" := by
      by_cases hdir : nd.IsDir = true
      · rw [if_pos hdir] at h
        by_cases hf : findBelow (filepath.Join [d, n]) nd = ""
        · rw [if_neg (by simpa using hf)] at h
          exact ⟨fun _ => hf, h⟩
        · rw [if_pos hf] at h
          exact absurd h hf
      · rw [if_neg hdir] at h
        exact ⟨fun hd => absurd hd hdir, h⟩
    -- where the path leads
    obtain ⟨c, tail, hct, htail⟩ : ∃ c tail, chain ++ [bytecodeModules] = c :: tail ∧
        (tail = [] ∧ c = bytecodeModules ∨ ∃ chain', tail = chain' ++ [bytecodeModules]) := by
      cases chain with
      | nil => exact ⟨bytecodeModules, [], rfl, Or.inl ⟨rfl, rfl⟩⟩
      | cons c chain' => exact ⟨c, chain' ++ [bytecodeModules], rfl, Or.inr ⟨chain', rfl⟩⟩
    rw [hct, lookup_dir_cons, lookupEntry_cons] at hfound
    by_cases hnc : n = c
    · rw [if_pos hnc] at hfound
      simp only [Option.bind] at hfound
      rcases htail with ⟨ht, hc⟩ | ⟨chain', ht⟩
      · rw [ht, lookup_nil] at hfound
        have hnd : nd = .dir sub r l := Option.some.inj hfound
        apply hcond
        rw [hnd, hnc, hc]
        simp [Node.IsDir]
      · rw [ht] at hfound
        have hdir : nd.IsDir = true := by
          cases nd with
          | file _ _ =>
            cases chain' <;> simp [Node.lookup] at hfound
          | dir _ _ _ => rfl
        exact none_below nd (filepath.Join [d, n]) hlnd (hsplit.1 hdir) chain' sub r l hfound
    · rw [if_neg hnc] at hfound
      have hrest : (Node.dir rest r0 l0).lookup (chain ++ [bytecodeModules])
          = some (.dir sub r l) := by
        rw [hct, lookup_dir_cons]
        exact hfound
      exact none_in rest d hlrest hsplit.2 r0 l0 chain sub r l hrest
end

mutual
theorem found_below (cwd : List String) : ∀ (nd : Node) (d : String) (p : List String),
    resolve cwd d = some p → nd.wf = true → findBelow d nd ≠ "" →
    ∃ (chain : List String) (sub : Listing) (r l : Bool),
      resolve cwd (findBelow d nd) = some (p ++ chain ++ [bytecodeModules]) ∧
      nd.lookup (chain ++ [bytecodeModules]) = some (.dir sub r l) ∧
      filepath.Base (findBelow d nd) = bytecodeModules
  | .file _ _, d, _, _, _, h => by
    rw [findBelow] at h
    exact absurd rfl h
  | .dir es false _, d, _, _, _, h => by
    rw [findBelow] at h
    exact absurd rfl h
  | .dir es true l0, d, p, hp, hwf, h => by
    rw [Node.wf] at hwf
    rw [findBelow] at h ⊢
    exact found_in cwd es d p hp hwf h true l0
theorem found_in (cwd : List String) : ∀ (es : Listing) (d : String) (p : List String),
    resolve cwd d = some p → wfEntries es = true → findInFiles d es ≠ "" →
    ∀ (r0 l0 : Bool), ∃ (chain : List String) (sub : Listing) (r l : Bool),
      resolve cwd (findInFiles d es) = some (p ++ chain ++ [bytecodeModules]) ∧
      (Node.dir es r0 l0).lookup (chain ++ [bytecodeModules]) = some (.dir sub r l) ∧
      filepath.Base (findInFiles d es) = bytecodeModules
  | [], d, _, _, _, h => by
    rw [findInFiles] at h
    exact absurd rfl h
  | (n, nd) :: rest, d, p, hp, hwf, h => by
    intro r0 l0
    obtain ⟨hvalid, huniq, hwfnd, hwfrest⟩ := (wfEntries_cons n nd rest).mp hwf
    have hd := resolve_ne_empty cwd d p hp
    -- a result found among the later entries
    have later : findInFiles d rest ≠ "" →
        ∃ (chain : List String) (sub : Listing) (r l : Bool),
          resolve cwd (findInFiles d rest) = some (p ++ chain ++ [bytecodeModules]) ∧
          (Node.dir ((n, nd) :: rest) r0 l0).lookup (chain ++ [bytecodeModules])
            = some (.dir sub r l) ∧
          filepath.Base (findInFiles d rest) = bytecodeModules := by
      intro hne
      obtain ⟨chain, sub, r, l, h1, h2, h3⟩ := found_in cwd rest d p hp hwfrest hne r0 l0
      refine ⟨chain, sub, r, l, h1, ?_, h3⟩
      obtain ⟨c, tail, hct⟩ : ∃ c tail, chain ++ [bytecodeModules] = c :: tail := by
        cases chain with
        | nil => exact ⟨_, _, rfl⟩
        | cons c chain' => exact ⟨_, _, rfl⟩
      rw [hct, lookup_dir_cons] at h2 ⊢
      rw [lookupEntry_cons]
      have hnc : n ≠ c := by
        intro e
        rw [← e, huniq] at h2
        simp at h2
      rw [if_neg hnc]
      exact h2
    rw [findInFiles_cons] at h ⊢
    by_cases hcond : (nd.IsDir && decide (n = bytecodeModules)) = true
    · rw [if_pos hcond]
      have hc : nd.IsDir = true ∧ n = bytecodeModules := by simpa using hcond
      obtain ⟨sub, r, l, hnd⟩ := (IsDir_iff nd).mp hc.1
      refine ⟨[], sub, r, l, ?_, ?_, ?_⟩
      · rw [resolve_Join_name cwd d bytecodeModules p hp validName_bytecodeModules]
        simp
      · rw [List.nil_append, lookup_dir_cons, lookupEntry_cons, if_pos hc.2]
        simp [lookup_nil, hnd]
      · exact filepath.Base_Join_name d bytecodeModules hd validName_bytecodeModules
    · rw [if_neg hcond] at h ⊢
      by_cases hdir : nd.IsDir = true
      · rw [if_pos hdir] at h ⊢
        by_cases hf : findBelow (filepath.Join [d, n]) nd ≠ ""
        · rw [if_pos hf]
          have hp' := resolve_Join_name cwd d n p hp hvalid
          obtain ⟨chain', sub, r, l, h1, h2, h3⟩ :=
            found_below cwd nd (filepath.Join [d, n]) (p ++ [n]) hp' hwfnd hf
          refine ⟨n :: chain', sub, r, l, ?_, ?_, h3⟩
          · rw [h1]
            simp
          · rw [List.cons_append, lookup_dir_cons, lookupEntry_cons, if_pos rfl]
            exact h2
        · rw [if_neg hf] at h ⊢
          exact later h
      · rw [if_neg hdir] at h ⊢
        exact later h
end

/-- C3: when `dirPath` names a directory `nd` whose subtree can be listed
throughout (and is well formed), `findBytecodeFolder(dirPath)` is the empty
string exactly when no directory named `bytecode_modules` exists anywhere below
`dirPath`; otherwise it is a path that names a directory below `dirPath` (the
place of `dirPath`, then a chain of entry names, then `bytecode_modules`) and
whose last element is `bytecode_modules`. -/
theorem findBytecodeFolder_spec (env : Env) (w : World) (dirPath : String)
    (p : List String) (es : Listing) (l0 : Bool)
    (hp : resolve env.cwd dirPath = some p)
    (hnd : w.root.lookup p = some (.dir es true l0))
    (hlist : listableEntries es = true) (hwf : wfEntries es = true) :
    (findBytecodeFolder env w dirPath = "" ↔
      ¬ ∃ (chain : List String) (sub : Listing) (r l : Bool),
        w.root.lookup (p ++ chain ++ [bytecodeModules]) = some (.dir sub r l)) ∧
    (findBytecodeFolder env w dirPath ≠ "" →
      ∃ (chain : List String) (sub : Listing) (r l : Bool),
        resolve env.cwd (findBytecodeFolder env w dirPath)
          = some (p ++ chain ++ [bytecodeModules]) ∧
        w.root.lookup (p ++ chain ++ [bytecodeModules]) = some (.dir sub r l) ∧
        filepath.Base (findBytecodeFolder env w dirPath) = bytecodeModules) := by
  have hfb : findBytecodeFolder env w dirPath = findInFiles dirPath es := by
    unfold findBytecodeFolder os.find
    rw [hp]
    simp only
    rw [hnd]
    simp only
    rw [findBelow]
  have hlook : ∀ chain : List String,
      w.root.lookup (p ++ chain ++ [bytecodeModules])
        = (Node.dir es true l0).lookup (chain ++ [bytecodeModules]) := by
    intro chain
    rw [List.append_assoc, lookup_append, hnd]
    rfl
  rw [hfb]
  have hsome : findInFiles dirPath es ≠ "" →
      ∃ (chain : List String) (sub : Listing) (r l : Bool),
        resolve env.cwd (findInFiles dirPath es) = some (p ++ chain ++ [bytecodeModules]) ∧
        w.root.lookup (p ++ chain ++ [bytecodeModules]) = some (.dir sub r l) ∧
        filepath.Base (findInFiles dirPath es) = bytecodeModules := by
    intro hne
    obtain ⟨chain, sub, r, l, h1, h2, h3⟩ := found_in env.cwd es dirPath p hp hwf hne true l0
    exact ⟨chain, sub, r, l, h1, by rw [hlook]; exact h2, h3⟩
  refine ⟨⟨?_, ?_⟩, hsome⟩
  · intro hempty ⟨chain, sub, r, l, hfound⟩
    rw [hlook] at hfound
    exact none_in es dirPath hlist hempty true l0 chain sub r l hfound
  · intro hnone
    by_contra hne
    obtain ⟨chain, sub, r, l, _, h2, _⟩ := hsome hne
    exact hnone ⟨chain, sub, r, l, h2⟩

/-! ## Theorems: `findBytecodeFolder` call by call -/

theorem find_of_resolve (env : Env) (w : World) (d : String) (p : List String)
    (hp : resolve env.cwd d = some p) : os.find env w d = w.root.lookup p := by
  unfold os.find
  rw [hp]

theorem depthEntries_cons (n : String) (nd : Node) (rest : Listing) :
    depthEntries ((n, nd) :: rest) = max nd.depth (depthEntries rest) := by
  rw [depthEntries]

mutual
/-- On a well-formed tree, the search that lists every directory by its path
string returns, within a bound of one more than the depth of the subtree, what
the search along the tree returns. -/
theorem byPath_eq_findBelow (env : Env) (w : World) : ∀ (nd : Node) (d : String)
    (p : List String) (fuel : Nat),
    resolve env.cwd d = some p → w.root.lookup p = some nd → nd.wf = true →
    nd.depth ≤ fuel →
    findBytecodeFolderByPath env w (fuel + 1) d = some (findBelow d nd)
  | .file _ _, d, p, fuel, hp, hnd, _, _ => by
    rw [findBytecodeFolderByPath]
    unfold os.ReadDir
    rw [find_of_resolve env w d p hp, hnd, findBelow]
  | .dir es false _, d, p, fuel, hp, hnd, _, _ => by
    rw [findBytecodeFolderByPath]
    unfold os.ReadDir
    rw [find_of_resolve env w d p hp, hnd, findBelow]
  | .dir es true l, d, p, fuel, hp, hnd, hwf, hdepth => by
    rw [Node.wf] at hwf
    rw [Node.depth] at hdepth
    obtain ⟨fuel', rfl⟩ : ∃ fuel', fuel = fuel' + 1 := ⟨fuel - 1, by omega⟩
    rw [findBytecodeFolderByPath]
    unfold os.ReadDir
    rw [find_of_resolve env w d p hp, hnd, findBelow]
    simp only
    apply scanFiles_eq_findInFiles env w es d p fuel' hp _ hwf (by omega)
    intro n nd hlook
    rw [lookup_append, hnd]
    simp only [Option.bind]
    rw [lookup_dir_cons, hlook]
    simp [lookup_nil]
theorem scanFiles_eq_findInFiles (env : Env) (w : World) : ∀ (es : Listing) (d : String)
    (p : List String) (fuel : Nat),
    resolve env.cwd d = some p →
    (∀ (n : String) (nd : Node), lookupEntry es n = some nd →
      w.root.lookup (p ++ [n]) = some nd) →
    wfEntries es = true → depthEntries es ≤ fuel →
    scanFiles (findBytecodeFolderByPath env w (fuel + 1)) d es = some (findInFiles d es)
  | [], d, p, fuel, _, _, _, _ => by
    rw [scanFiles, findInFiles]
  | (n, nd) :: rest, d, p, fuel, hp, hlook, hwf, hdepth => by
    obtain ⟨hvalid, huniq, hwfnd, hwfrest⟩ := (wfEntries_cons n nd rest).mp hwf
    rw [depthEntries_cons] at hdepth
    have hrest : scanFiles (findBytecodeFolderByPath env w (fuel + 1)) d rest
        = some (findInFiles d rest) := by
      apply scanFiles_eq_findInFiles env w rest d p fuel hp _ hwfrest (by omega)
      intro m md hm
      apply hlook m md
      rw [lookupEntry_cons]
      have hnm : n ≠ m := by
        intro e
        rw [e] at huniq
        rw [huniq] at hm
        simp at hm
      rw [if_neg hnm]
      exact hm
    rw [scanFiles, findInFiles_cons]
    by_cases hcond : (nd.IsDir && decide (n = bytecodeModules)) = true
    · rw [if_pos hcond, if_pos hcond]
    · rw [if_neg hcond, if_neg hcond]
      by_cases hdir : nd.IsDir = true
      · rw [if_pos hdir, if_pos hdir]
        have hnd : w.root.lookup (p ++ [n]) = some nd :=
          hlook n nd (by rw [lookupEntry_cons, if_pos rfl])
        have hp' := resolve_Join_name env.cwd d n p hp hvalid
        rw [byPath_eq_findBelow env w nd (filepath.Join [d, n]) (p ++ [n]) fuel hp' hnd hwfnd
          (by omega)]
        simp only
        by_cases hf : findBelow (filepath.Join [d, n]) nd ≠ ""
        · rw [if_pos hf, if_pos hf]
        · rw [if_neg hf, if_neg hf]
          exact hrest
      · rw [if_neg hdir, if_neg hdir]
        exact hrest
end

/-- The bound is enough: on a well-formed tree, `findBytecodeFolder` run call by
call (each call listing its directory by path) returns, and returns what
`findBytecodeFolder` returns. -/
theorem findBytecodeFolderByPath_eq (env : Env) (w : World) (dirPath : String)
    (p : List String) (nd : Node)
    (hp : resolve env.cwd dirPath = some p) (hnd : w.root.lookup p = some nd)
    (hwf : nd.wf = true) (fuel : Nat) (hfuel : nd.depth < fuel) :
    findBytecodeFolderByPath env w fuel dirPath = some (findBytecodeFolder env w dirPath) := by
  obtain ⟨fuel', rfl⟩ : ∃ fuel', fuel = fuel' + 1 := ⟨fuel - 1, by omega⟩
  rw [byPath_eq_findBelow env w nd dirPath p fuel' hp hnd hwf (by omega)]
  unfold findBytecodeFolder
  rw [find_of_resolve env w dirPath p hp, hnd]

/-! ## Theorems: changing the directory tree -/

theorem filter_cons_drop (m n : String) (md : Node) (es : Listing) (h : m = n) :
    ((m, md) :: es).filter (fun e => decide (e.1 ≠ n))
      = es.filter (fun e => decide (e.1 ≠ n)) := by
  rw [List.filter_cons, if_neg]
  simpa using h

theorem filter_cons_keep (m n : String) (md : Node) (es : Listing) (h : m ≠ n) :
    ((m, md) :: es).filter (fun e => decide (e.1 ≠ n))
      = (m, md) :: es.filter (fun e => decide (e.1 ≠ n)) := by
  rw [List.filter_cons, if_pos]
  simpa using h

theorem lookupEntry_filter_self (es : Listing) (n : String) :
    lookupEntry (es.filter (fun e => decide (e.1 ≠ n))) n = none := by
  induction es with
  | nil => rfl
  | cons e es ih =>
    obtain ⟨m, md⟩ := e
    by_cases h : m = n
    · rw [filter_cons_drop m n md es h]
      exact ih
    · rw [filter_cons_keep m n md es h, lookupEntry_cons, if_neg h]
      exact ih

theorem lookupEntry_filter_other (es : Listing) (n m : String) (h : m ≠ n) :
    lookupEntry (es.filter (fun e => decide (e.1 ≠ n))) m = lookupEntry es m := by
  induction es with
  | nil => rfl
  | cons e es ih =>
    obtain ⟨k, kd⟩ := e
    by_cases hk : k = n
    · have hkm : k ≠ m := fun e => h (by rw [← e, hk])
      rw [filter_cons_drop k n kd es hk, lookupEntry_cons, if_neg hkm]
      exact ih
    · rw [filter_cons_keep k n kd es hk, lookupEntry_cons, lookupEntry_cons, ih]

theorem lookupEntry_insert_self (es : Listing) (n : String) (nd : Node)
    (h : lookupEntry es n = none) : lookupEntry (insertEntry n nd es) n = some nd := by
  induction es with
  | nil => simp [insertEntry, lookupEntry]
  | cons e es ih =>
    obtain ⟨m, md⟩ := e
    rw [lookupEntry_cons] at h
    by_cases hm : m = n
    · rw [if_pos hm] at h; simp at h
    · rw [if_neg hm] at h
      rw [insertEntry]
      split
      · simp [lookupEntry]
      · rw [lookupEntry_cons, if_neg hm]
        exact ih h

theorem lookupEntry_insert_other (es : Listing) (n m : String) (nd : Node) (h : m ≠ n) :
    lookupEntry (insertEntry n nd es) m = lookupEntry es m := by
  induction es with
  | nil => simp [insertEntry, lookupEntry, Ne.symm h]
  | cons e es ih =>
    obtain ⟨k, kd⟩ := e
    rw [insertEntry]
    split
    · rw [lookupEntry_cons, if_neg (Ne.symm h)]
    · rw [lookupEntry_cons, lookupEntry_cons, ih]

theorem lookupEntry_replace_self (es : Listing) (n : String) (nd : Node)
    (h : lookupEntry es n ≠ none) : lookupEntry (replaceEntry n nd es) n = some nd := by
  induction es with
  | nil => exact absurd rfl h
  | cons e es ih =>
    obtain ⟨m, md⟩ := e
    rw [lookupEntry_cons] at h
    rw [replaceEntry]
    by_cases hm : m = n
    · rw [if_pos hm, lookupEntry_cons, if_pos hm]
    · rw [if_neg hm] at h
      rw [if_neg hm, lookupEntry_cons, if_neg hm]
      exact ih h

theorem lookupEntry_replace_other (es : Listing) (n m : String) (nd : Node) (h : m ≠ n) :
    lookupEntry (replaceEntry n nd es) m = lookupEntry es m := by
  induction es with
  | nil => rfl
  | cons e es ih =>
    obtain ⟨k, kd⟩ := e
    rw [replaceEntry]
    by_cases hk : k = n
    · have hkm : k ≠ m := fun e => h (by rw [← e, hk])
      rw [if_pos hk, lookupEntry_cons, lookupEntry_cons, if_neg hkm, if_neg hkm, ih]
    · rw [if_neg hk, lookupEntry_cons, lookupEntry_cons, ih]

/-- After `putEntry`, the name holds what was put. -/
theorem lookupEntry_put_self (es : Listing) (n : String) (new : Option Node) :
    lookupEntry (putEntry es n new) n = new := by
  cases new with
  | none => exact lookupEntry_filter_self es n
  | some nd =>
    rw [putEntry]
    cases h : lookupEntry es n with
    | none => exact lookupEntry_insert_self es n nd h
    | some old => exact lookupEntry_replace_self es n nd (by rw [h]; simp)

/-- The other names are left alone by `putEntry`. -/
theorem lookupEntry_put_other (es : Listing) (n m : String) (new : Option Node) (h : m ≠ n) :
    lookupEntry (putEntry es n new) m = lookupEntry es m := by
  cases new with
  | none => exact lookupEntry_filter_other es n m h
  | some nd =>
    rw [putEntry]
    cases lookupEntry es n with
    | none => exact lookupEntry_insert_other es n m nd h
    | some old => exact lookupEntry_replace_other es n m nd h

theorem put_single (new : Option Node) (n : String) (es : Listing) (r l : Bool) :
    (Node.dir es r l).put new [n] = some (.dir (putEntry es n new) r l) := by
  rw [Node.put]

theorem put_cons_cons (new : Option Node) (n m : String) (rest : List String)
    (es : Listing) (r l : Bool) :
    (Node.dir es r l).put new (n :: m :: rest) =
      match lookupEntry es n with
      | none => none
      | some child =>
        match child.put new (m :: rest) with
        | none => none
        | some child' => some (.dir (putEntry es n (some child')) r l) := by
  cases h : lookupEntry es n with
  | none => simp [Node.put, h]
  | some child =>
    cases h2 : child.put new (m :: rest) with
    | none => simp [Node.put, h, h2]
    | some child' => simp [Node.put, h, h2]

/-- Putting at `p/n` succeeds when `p` is a directory, and changes the listing
of `p` at the name `n`. -/
theorem put_child (new : Option Node) (n : String) (p : List String) :
    ∀ (root : Node) (es : Listing) (r l : Bool), root.lookup p = some (.dir es r l) →
      ∃ root', root.put new (p ++ [n]) = some root' ∧
        root'.lookup p = some (.dir (putEntry es n new) r l) := by
  induction p with
  | nil =>
    intro root es r l h
    rw [lookup_nil] at h
    have := Option.some.inj h
    subst this
    exact ⟨_, put_single new n es r l, lookup_nil _⟩
  | cons z p ih =>
    intro root es r l h
    cases root with
    | file d l0 => simp [Node.lookup] at h
    | dir es0 r0 l0 =>
      rw [lookup_dir_cons] at h
      cases hch : lookupEntry es0 z with
      | none => rw [hch] at h; simp at h
      | some ch =>
        rw [hch] at h
        simp only [Option.bind] at h
        obtain ⟨ch', hput, hlook⟩ := ih ch es r l h
        obtain ⟨m, rest, hm⟩ : ∃ m rest, p ++ [n] = m :: rest := by
          cases p with
          | nil => exact ⟨_, _, rfl⟩
          | cons a p => exact ⟨_, _, rfl⟩
        refine ⟨.dir (putEntry es0 z (some ch')) r0 l0, ?_, ?_⟩
        · rw [List.cons_append, hm, put_cons_cons, hch]
          simp only
          rw [← hm, hput]
        · rw [lookup_dir_cons, lookupEntry_put_self]
          exact hlook

/-- Putting at a path leaves alone every path that parts from it. -/
theorem put_frame (new : Option Node) (a : List String) (x y : String) (b c : List String)
    (hxy : x ≠ y) :
    ∀ (root root' : Node), root.put new (a ++ x :: b) = some root' →
      root'.lookup (a ++ y :: c) = root.lookup (a ++ y :: c) := by
  induction a with
  | nil =>
    intro root root' h
    cases root with
    | file d l0 => simp [Node.put] at h
    | dir es r l =>
      rw [List.nil_append] at h ⊢
      cases b with
      | nil =>
        rw [put_single] at h
        rw [← Option.some.inj h, lookup_dir_cons, lookup_dir_cons,
          lookupEntry_put_other _ _ _ _ (Ne.symm hxy)]
      | cons m rest =>
        rw [put_cons_cons] at h
        cases hch : lookupEntry es x with
        | none => rw [hch] at h; simp at h
        | some ch =>
          rw [hch] at h
          simp only at h
          cases hp : ch.put new (m :: rest) with
          | none => rw [hp] at h; simp at h
          | some ch' =>
            rw [hp] at h
            simp only at h
            rw [← Option.some.inj h, lookup_dir_cons, lookup_dir_cons,
              lookupEntry_put_other _ _ _ _ (Ne.symm hxy)]
  | cons z a ih =>
    intro root root' h
    cases root with
    | file d l0 => simp [Node.put] at h
    | dir es r l =>
      obtain ⟨m, rest, hm⟩ : ∃ m rest, a ++ x :: b = m :: rest := by
        cases a with
        | nil => exact ⟨_, _, rfl⟩
        | cons k a => exact ⟨_, _, rfl⟩
      rw [List.cons_append, hm, put_cons_cons] at h
      cases hch : lookupEntry es z with
      | none => rw [hch] at h; simp at h
      | some ch =>
        rw [hch] at h
        simp only at h
        cases hp : ch.put new (m :: rest) with
        | none => rw [hp] at h; simp at h
        | some ch' =>
          rw [hp] at h
          simp only at h
          rw [← hm] at hp
          rw [← Option.some.inj h, List.cons_append, lookup_dir_cons, lookup_dir_cons,
            lookupEntry_put_self, hch]
          exact ih ch ch' hp

theorem filter_of_lookupEntry_none (es : Listing) (n : String) (h : lookupEntry es n = none) :
    es.filter (fun e => decide (e.1 ≠ n)) = es := by
  induction es with
  | nil => rfl
  | cons e es ih =>
    obtain ⟨m, md⟩ := e
    rw [lookupEntry_cons] at h
    by_cases hm : m = n
    · rw [if_pos hm] at h; simp at h
    · rw [if_neg hm] at h
      rw [filter_cons_keep m n md es hm, ih h]

theorem replace_of_lookupEntry_none (es : Listing) (n : String) (nd : Node)
    (h : lookupEntry es n = none) : replaceEntry n nd es = es := by
  induction es with
  | nil => rfl
  | cons e es ih =>
    obtain ⟨m, md⟩ := e
    rw [lookupEntry_cons] at h
    by_cases hm : m = n
    · rw [if_pos hm] at h; simp at h
    · rw [if_neg hm] at h
      rw [replaceEntry, if_neg hm, ih h]

/-- Putting at the first entry of a listing without a second entry of that
name: the entry is dropped or replaced in place. -/
theorem putEntry_head (n : String) (nd : Node) (rest : Listing) (new : Option Node)
    (h : lookupEntry rest n = none) :
    putEntry ((n, nd) :: rest) n new
      = match new with
        | none => rest
        | some left => (n, left) :: rest := by
  cases new with
  | none =>
    simp only [putEntry]
    rw [filter_cons_drop n n nd rest rfl, filter_of_lookupEntry_none rest n h]
  | some left =>
    simp only [putEntry, lookupEntry_cons, if_true, replaceEntry]
    rw [replace_of_lookupEntry_none rest n left h]

/-! ## Theorems: `clearDirectory` -/

/-- The call `os.RemoveAll` on an entry of a directory: the tree afterwards and the error. -/
theorem RemoveAll_child (env : Env) (w : World) (path n : String) (pp : List String)
    (nd : Node) (es : Listing) (r l : Bool)
    (hp : resolve env.cwd path = some pp) (hn : validName n = true)
    (hdir : w.root.lookup pp = some (.dir es r l)) (hent : lookupEntry es n = some nd) :
    ∃ root', w.root.put nd.removeAll (pp ++ [n]) = some root' ∧
      os.RemoveAll env w (path ++ "/" ++ n)
        = (⟨root', w.trace ++ [Event.RemoveAll (path ++ "/" ++ n)]⟩,
            if nd.removeAll.isSome then some "unlinkat: operation not permitted" else none) ∧
      root'.lookup pp = some (.dir (putEntry es n nd.removeAll) r l) := by
  obtain ⟨root', hput, hlook⟩ := put_child nd.removeAll n pp w.root es r l hdir
  refine ⟨root', hput, ?_, hlook⟩
  have hres := resolve_append_name env.cwd path n pp hp hn
  have hfind : w.root.lookup (pp ++ [n]) = some nd := by
    rw [lookup_append, hdir]
    simp only [Option.bind]
    rw [lookup_dir_cons, hent]
    simp [lookup_nil]
  unfold os.RemoveAll
  simp only [hres, hfind, hput]

theorem sweepListing_cons_removed (n : String) (nd : Node) (rest : Listing)
    (h : nd.removeAll = none) : sweepListing ((n, nd) :: rest) = sweepListing rest := by
  rw [sweepListing, h]

theorem sweepListing_cons_left (n : String) (nd left : Node) (rest : Listing)
    (h : nd.removeAll = some left) :
    sweepListing ((n, nd) :: rest) = ((n, left) :: rest, true) := by
  rw [sweepListing, h]

/-- The loop of `clearDirectory` over the listing of the directory `path`
leaves there what `sweepListing` says, reports an error exactly when
`sweepListing` stops early, and leaves alone every path that parts from `path`. -/
theorem clearEntries_spec (env : Env) (path : String) (pp : List String) (l : Bool)
    (hp : resolve env.cwd path = some pp) :
    ∀ (es : Listing) (w : World), w.root.lookup pp = some (.dir es true l) →
      wfEntries es = true →
      (clearEntries env path w es).1.root.lookup pp = some (.dir (sweepListing es).1 true l) ∧
      ((clearEntries env path w es).2.isSome = (sweepListing es).2) ∧
      (∀ (a : List String) (x y : String) (b c : List String), pp = a ++ x :: b → x ≠ y →
        (clearEntries env path w es).1.root.lookup (a ++ y :: c)
          = w.root.lookup (a ++ y :: c)) := by
  intro es
  induction es with
  | nil =>
    intro w hdir _
    rw [clearEntries]
    exact ⟨hdir, rfl, fun _ _ _ _ _ _ _ => rfl⟩
  | cons e rest ih =>
    obtain ⟨n, nd⟩ := e
    intro w hdir hwf
    obtain ⟨hvalid, huniq, _, hwfrest⟩ := (wfEntries_cons n nd rest).mp hwf
    obtain ⟨root', hput, hrm, hlook⟩ :=
      RemoveAll_child env w path n pp nd ((n, nd) :: rest) true l hp hvalid hdir
        (by rw [lookupEntry_cons, if_pos rfl])
    rw [putEntry_head n nd rest nd.removeAll huniq] at hlook
    have hframe : ∀ (a : List String) (x y : String) (b c : List String),
        pp = a ++ x :: b → x ≠ y →
        root'.lookup (a ++ y :: c) = w.root.lookup (a ++ y :: c) := by
      intro a x y b c hpp hxy
      apply put_frame nd.removeAll a x y (b ++ [n]) c hxy w.root root'
      rw [← hput, hpp]
      simp
    rw [clearEntries, hrm]
    cases hra : nd.removeAll with
    | none =>
      rw [hra] at hlook
      simp only [Option.isSome_none, Bool.false_eq_true, if_false]
      rw [sweepListing_cons_removed n nd rest hra]
      obtain ⟨h1, h2, h3⟩ := ih ⟨root', w.trace ++ [Event.RemoveAll (path ++ "/" ++ n)]⟩
        hlook hwfrest
      refine ⟨h1, h2, ?_⟩
      intro a x y b c hpp hxy
      rw [h3 a x y b c hpp hxy]
      exact hframe a x y b c hpp hxy
    | some left =>
      rw [hra] at hlook
      simp only [Option.isSome_some, if_true]
      rw [sweepListing_cons_left n nd left rest hra]
      exact ⟨hlook, rfl, hframe⟩

/-- The function `clearDirectory` on a listable directory. -/
theorem clearDirectory_spec (env : Env) (w : World) (path : String) (pp : List String)
    (es : Listing) (l : Bool)
    (hp : resolve env.cwd path = some pp)
    (hdir : w.root.lookup pp = some (.dir es true l)) (hwf : wfEntries es = true) :
    (clearDirectory env w path).1.root.lookup pp = some (.dir (sweepListing es).1 true l) ∧
    ((clearDirectory env w path).2.isSome = (sweepListing es).2) ∧
    (∀ (a : List String) (x y : String) (b c : List String), pp = a ++ x :: b → x ≠ y →
      (clearDirectory env w path).1.root.lookup (a ++ y :: c)
        = w.root.lookup (a ++ y :: c)) := by
  have hread : os.ReadDir env w path = .ok es := by
    unfold os.ReadDir os.find
    simp only [hp, hdir]
  unfold clearDirectory
  rw [hread]
  exact clearEntries_spec env path pp l hp es w hdir hwf

theorem sweepListing_all_removed (es : Listing) (h : ∀ e ∈ es, e.2.removeAll = none) :
    sweepListing es = ([], false) := by
  induction es with
  | nil => rfl
  | cons e es ih =>
    obtain ⟨n, nd⟩ := e
    rw [sweepListing_cons_removed n nd es (h (n, nd) (List.mem_cons_self _ _))]
    exact ih (fun e he => h e (List.mem_cons_of_mem _ he))

theorem sweepListing_stops (before after : Listing) (n : String) (nd left : Node)
    (hb : ∀ e ∈ before, e.2.removeAll = none) (hn : nd.removeAll = some left) :
    sweepListing (before ++ (n, nd) :: after) = ((n, left) :: after, true) := by
  induction before with
  | nil => exact sweepListing_cons_left n nd left after hn
  | cons e before ih =>
    obtain ⟨m, md⟩ := e
    rw [List.cons_append,
      sweepListing_cons_removed m md _ (hb (m, md) (List.mem_cons_self _ _))]
    exact ih (fun e he => hb e (List.mem_cons_of_mem _ he))

theorem resolve_TMP (cwd : List String) : resolve cwd TMP = some (cwd ++ ["temp"]) := by
  unfold resolve
  rw [if_neg (by decide)]
  have h1 : filepath.isRooted TMP = false := by decide
  have h2 : filepath.elements TMP = ["temp", ""] := by decide
  rw [h1, h2]
  simp [walkStep]

theorem resolve_RESULT (cwd : List String) : resolve cwd RESULT = some (cwd ++ ["results"]) := by
  unfold resolve
  rw [if_neg (by decide)]
  have h1 : filepath.isRooted RESULT = false := by decide
  have h2 : filepath.elements RESULT = ["results", ""] := by decide
  rw [h1, h2]
  simp [walkStep]

/-- One sweep: what it leaves of the two pools and which of the two
`clearDirectory` calls report an error. -/
theorem clearTempFolder_spec (env : Env) (now : Time) (w : World)
    (es1 es2 : Listing) (l1 l2 : Bool)
    (h1 : w.root.lookup (env.cwd ++ ["temp"]) = some (.dir es1 true l1))
    (h2 : w.root.lookup (env.cwd ++ ["results"]) = some (.dir es2 true l2))
    (hwf1 : wfEntries es1 = true) (hwf2 : wfEntries es2 = true) :
    (clearTempFolder env now w).1 = sleepDuration now ∧
    (clearTempFolder env now w).2.1.root.lookup (env.cwd ++ ["temp"])
      = some (.dir (sweepListing es1).1 true l1) ∧
    (clearTempFolder env now w).2.1.root.lookup (env.cwd ++ ["results"])
      = some (.dir (sweepListing es2).1 true l2) ∧
    (clearTempFolder env now w).2.2.1.isSome = (sweepListing es1).2 ∧
    (clearTempFolder env now w).2.2.2.isSome = (sweepListing es2).2 := by
  obtain ⟨a1, a2, a3⟩ := clearDirectory_spec env w TMP (env.cwd ++ ["temp"]) es1 l1
    (resolve_TMP env.cwd) h1 hwf1
  have h2' : (clearDirectory env w TMP).1.root.lookup (env.cwd ++ ["results"])
      = some (.dir es2 true l2) := by
    rw [a3 env.cwd "temp" "results" [] [] rfl (by decide)]
    exact h2
  obtain ⟨b1, b2, b3⟩ := clearDirectory_spec env (clearDirectory env w TMP).1 RESULT
    (env.cwd ++ ["results"]) es2 l2 (resolve_RESULT env.cwd) h2' hwf2
  unfold clearTempFolder
  refine ⟨rfl, ?_, b1, a2, b2⟩
  simp only
  rw [b3 env.cwd "results" "temp" [] [] rfl (by decide)]
  exact a1

theorem lookup_below_empty (root : Node) (pp : List String) (r l : Bool)
    (h : root.lookup pp = some (.dir [] r l)) (n : String) (q : List String) :
    root.lookup (pp ++ n :: q) = none := by
  rw [lookup_append, h]
  rfl

/-- C7: when the pool can be listed and every removal succeeds,
`clearDirectory(p)` returns no error, afterwards none of the former entries of
`p` exists (nor anything below them) and `p` is still there, an empty
directory; one sweep does this to both `temp/` and `results/`. -/
theorem clearDirectory_empties (env : Env) (now : Time) (w : World)
    (path : String) (pp : List String) (es : Listing) (l : Bool)
    (es1 es2 : Listing) (l1 l2 : Bool)
    (hp : resolve env.cwd path = some pp)
    (hdir : w.root.lookup pp = some (.dir es true l)) (hwf : wfEntries es = true)
    (hrm : ∀ e ∈ es, e.2.removeAll = none)
    (h1 : w.root.lookup (env.cwd ++ ["temp"]) = some (.dir es1 true l1))
    (h2 : w.root.lookup (env.cwd ++ ["results"]) = some (.dir es2 true l2))
    (hwf1 : wfEntries es1 = true) (hwf2 : wfEntries es2 = true)
    (hrm1 : ∀ e ∈ es1, e.2.removeAll = none) (hrm2 : ∀ e ∈ es2, e.2.removeAll = none) :
    ((clearDirectory env w path).2 = none ∧
      (∀ e ∈ es, ∀ q : List String,
        (clearDirectory env w path).1.root.lookup (pp ++ e.1 :: q) = none) ∧
      (clearDirectory env w path).1.root.lookup pp = some (.dir [] true l)) ∧
    ((clearTempFolder env now w).2.2.1 = none ∧ (clearTempFolder env now w).2.2.2 = none ∧
      (∀ e ∈ es1, ∀ q : List String,
        (clearTempFolder env now w).2.1.root.lookup (env.cwd ++ ["temp"] ++ e.1 :: q) = none) ∧
      (∀ e ∈ es2, ∀ q : List String,
        (clearTempFolder env now w).2.1.root.lookup (env.cwd ++ ["results"] ++ e.1 :: q)
          = none) ∧
      (clearTempFolder env now w).2.1.root.lookup (env.cwd ++ ["temp"])
        = some (.dir [] true l1) ∧
      (clearTempFolder env now w).2.1.root.lookup (env.cwd ++ ["results"])
        = some (.dir [] true l2)) := by
  constructor
  · obtain ⟨a1, a2, _⟩ := clearDirectory_spec env w path pp es l hp hdir hwf
    rw [sweepListing_all_removed es hrm] at a1 a2
    refine ⟨?_, ?_, a1⟩
    · cases h : (clearDirectory env w path).2 with
      | none => rfl
      | some e => rw [h] at a2; simp at a2
    · intro e _ q
      exact lookup_below_empty _ pp true l a1 e.1 q
  · obtain ⟨_, s1, s2, s3, s4⟩ := clearTempFolder_spec env now w es1 es2 l1 l2 h1 h2 hwf1 hwf2
    rw [sweepListing_all_removed es1 hrm1] at s1 s3
    rw [sweepListing_all_removed es2 hrm2] at s2 s4
    refine ⟨?_, ?_, ?_, ?_, s1, s2⟩
    · cases h : (clearTempFolder env now w).2.2.1 with
      | none => rfl
      | some e => rw [h] at s3; simp at s3
    · cases h : (clearTempFolder env now w).2.2.2 with
      | none => rfl
      | some e => rw [h] at s4; simp at s4
    · intro e _ q
      exact lookup_below_empty _ _ true l1 s1 e.1 q
    · intro e _ q
      exact lookup_below_empty _ _ true l2 s2 e.1 q

theorem lookupEntry_wf (es : Listing) (n : String) (nd : Node)
    (hwf : wfEntries es = true) (h : lookupEntry es n = some nd) : nd.wf = true := by
  induction es with
  | nil => simp [lookupEntry] at h
  | cons e es ih =>
    obtain ⟨m, md⟩ := e
    obtain ⟨_, _, hmd, hrest⟩ := (wfEntries_cons m md es).mp hwf
    rw [lookupEntry_cons] at h
    by_cases hm : m = n
    · rw [if_pos hm] at h
      rw [← Option.some.inj h]
      exact hmd
    · rw [if_neg hm] at h
      exact ih hrest h

/-- Every object of a well-formed tree is well formed. -/
theorem lookup_wf (p : List String) : ∀ (root nd : Node), root.wf = true →
    root.lookup p = some nd → nd.wf = true := by
  induction p with
  | nil =>
    intro root nd hwf h
    rw [lookup_nil] at h
    rw [← Option.some.inj h]
    exact hwf
  | cons n p ih =>
    intro root nd hwf h
    cases root with
    | file d l => simp [Node.lookup] at h
    | dir es r l =>
      rw [Node.wf] at hwf
      rw [lookup_dir_cons] at h
      cases hch : lookupEntry es n with
      | none => rw [hch] at h; simp at h
      | some ch =>
        rw [hch] at h
        exact ih ch nd (lookupEntry_wf es n ch hwf hch) h

theorem wfEntries_of_lookup (root : Node) (p : List String) (es : Listing) (r l : Bool)
    (hwf : root.wf = true) (h : root.lookup p = some (.dir es r l)) : wfEntries es = true := by
  have := lookup_wf p root _ hwf h
  rw [Node.wf] at this
  exact this

/-- What `os.ReadDir` returns is decided by the object at the place the path
names. -/
theorem ReadDir_eq_of_lookup (env : Env) (w w' : World) (path : String) (pp : List String)
    (hp : resolve env.cwd path = some pp) (h : w'.root.lookup pp = w.root.lookup pp) :
    os.ReadDir env w' path = os.ReadDir env w path := by
  unfold os.ReadDir os.find
  rw [hp]
  simp only
  rw [h]

theorem ReadDir_ok (env : Env) (w : World) (path : String) (pp : List String) (es : Listing)
    (hp : resolve env.cwd path = some pp) (h : os.ReadDir env w path = .ok es) :
    ∃ l, w.root.lookup pp = some (.dir es true l) := by
  unfold os.ReadDir os.find at h
  rw [hp] at h
  simp only at h
  cases hl : w.root.lookup pp with
  | none => rw [hl] at h; simp at h
  | some nd =>
    rw [hl] at h
    cases nd with
    | file d l => simp at h
    | dir es' r l =>
      cases r with
      | false => simp at h
      | true =>
        simp only [Except.ok.injEq] at h
        exact ⟨l, by rw [h]⟩

theorem ReadDir_of_listable (env : Env) (w : World) (path : String) (pp : List String)
    (es : Listing) (l : Bool) (hp : resolve env.cwd path = some pp)
    (h : w.root.lookup pp = some (.dir es true l)) : os.ReadDir env w path = .ok es := by
  unfold os.ReadDir os.find
  simp only [hp, h]

/-- One call of `clearDirectory` on a pool, whether the pool can be listed or
not: places that part from the pool are left alone; a pool that cannot be listed
is left as it is and the error of `os.ReadDir` is returned; a pool that can be
listed is left as `sweepListing` says. -/
theorem clearDirectory_cases (env : Env) (w : World) (path : String) (pp : List String)
    (hp : resolve env.cwd path = some pp)
    (hwf : ∀ es l, w.root.lookup pp = some (.dir es true l) → wfEntries es = true) :
    (∀ (a : List String) (x y : String) (b c : List String), pp = a ++ x :: b → x ≠ y →
      (clearDirectory env w path).1.root.lookup (a ++ y :: c) = w.root.lookup (a ++ y :: c)) ∧
    (∀ e, os.ReadDir env w path = .error e → clearDirectory env w path = (w, some e)) ∧
    (∀ es l, w.root.lookup pp = some (.dir es true l) →
      (clearDirectory env w path).1.root.lookup pp = some (.dir (sweepListing es).1 true l) ∧
      (clearDirectory env w path).2.isSome = (sweepListing es).2) := by
  have herr : ∀ e, os.ReadDir env w path = .error e → clearDirectory env w path = (w, some e) := by
    intro e he
    unfold clearDirectory
    rw [he]
  refine ⟨?_, herr, ?_⟩
  · intro a x y b c hpp hxy
    cases hrd : os.ReadDir env w path with
    | error e => rw [herr e hrd]
    | ok es =>
      obtain ⟨l, hl⟩ := ReadDir_ok env w path pp es hp hrd
      exact (clearDirectory_spec env w path pp es l hp hl (hwf es l hl)).2.2 a x y b c hpp hxy
  · intro es l hl
    obtain ⟨h1, h2, _⟩ := clearDirectory_spec env w path pp es l hp hl (hwf es l hl)
    exact ⟨h1, h2⟩

/-- One sweep, pool by pool, in a well-formed tree: each of the two
`clearDirectory` calls acts on the pool as it was before the sweep, whatever the
state of the other pool. -/
theorem clearTempFolder_pools (env : Env) (now : Time) (w : World) (hwf : w.root.wf = true) :
    ((∀ e, os.ReadDir env w TMP = .error e →
        (clearTempFolder env now w).2.2.1 = some e ∧
        ∀ c, (clearTempFolder env now w).2.1.root.lookup (env.cwd ++ "temp" :: c)
          = w.root.lookup (env.cwd ++ "temp" :: c)) ∧
      (∀ es l, w.root.lookup (env.cwd ++ ["temp"]) = some (.dir es true l) →
        (clearTempFolder env now w).2.1.root.lookup (env.cwd ++ ["temp"])
          = some (.dir (sweepListing es).1 true l) ∧
        (clearTempFolder env now w).2.2.1.isSome = (sweepListing es).2)) ∧
    ((∀ e, os.ReadDir env w RESULT = .error e →
        (clearTempFolder env now w).2.2.2 = some e ∧
        ∀ c, (clearTempFolder env now w).2.1.root.lookup (env.cwd ++ "results" :: c)
          = w.root.lookup (env.cwd ++ "results" :: c)) ∧
      (∀ es l, w.root.lookup (env.cwd ++ ["results"]) = some (.dir es true l) →
        (clearTempFolder env now w).2.1.root.lookup (env.cwd ++ ["results"])
          = some (.dir (sweepListing es).1 true l) ∧
        (clearTempFolder env now w).2.2.2.isSome = (sweepListing es).2)) := by
  obtain ⟨f1, e1, s1⟩ := clearDirectory_cases env w TMP (env.cwd ++ ["temp"])
    (resolve_TMP env.cwd) (fun es l h => wfEntries_of_lookup w.root _ es true l hwf h)
  have keep : ∀ c, (clearDirectory env w TMP).1.root.lookup (env.cwd ++ "results" :: c)
      = w.root.lookup (env.cwd ++ "results" :: c) :=
    fun c => f1 env.cwd "temp" "results" [] c rfl (by decide)
  obtain ⟨f2, e2, s2⟩ := clearDirectory_cases env (clearDirectory env w TMP).1 RESULT
    (env.cwd ++ ["results"]) (resolve_RESULT env.cwd)
    (fun es l h => wfEntries_of_lookup w.root _ es true l hwf (by rw [← keep []]; exact h))
  have keep2 : ∀ c,
      (clearDirectory env (clearDirectory env w TMP).1 RESULT).1.root.lookup
        (env.cwd ++ "temp" :: c)
      = (clearDirectory env w TMP).1.root.lookup (env.cwd ++ "temp" :: c) :=
    fun c => f2 env.cwd "results" "temp" [] c rfl (by decide)
  unfold clearTempFolder
  simp only
  refine ⟨⟨?_, ?_⟩, ⟨?_, ?_⟩⟩
  · intro e he
    constructor
    · rw [e1 e he]
    · intro c
      rw [keep2 c, e1 e he]
  · intro es l hl
    obtain ⟨h1, h2⟩ := s1 es l hl
    exact ⟨by rw [keep2 []]; exact h1, h2⟩
  · intro e he
    have he' : os.ReadDir env (clearDirectory env w TMP).1 RESULT = .error e := by
      rw [ReadDir_eq_of_lookup env w _ RESULT _ (resolve_RESULT env.cwd) (keep [])]
      exact he
    constructor
    · rw [e2 e he']
    · intro c
      rw [e2 e he']
      exact keep c
  · intro es l hl
    exact s2 es l (by rw [keep []]; exact hl)

/-- C6, as amended: in one sweep each of the two pools is swept as it was before
the sweep, whatever the state of the other one, also when the other one cannot
be listed; and `clearDirectory` stops at the first child whose removal fails: of
a pool whose listing is `before`, then that child, then `after`, the children
in `before` are gone, the failing child keeps what could not be removed, the
children in `after` are left as they were, and an error is reported.  A pool
all of whose removals succeed is emptied without error, and a pool that cannot
be listed is left as it is and the error of the listing is reported. -/
theorem sweep_stops_at_first_failure (env : Env) (now : Time) (w : World)
    (hwf : w.root.wf = true) :
    (∀ (before after : Listing) (n : String) (nd left : Node) (l : Bool),
      w.root.lookup (env.cwd ++ ["temp"]) = some (.dir (before ++ (n, nd) :: after) true l) →
      (∀ e ∈ before, e.2.removeAll = none) → nd.removeAll = some left →
      (clearTempFolder env now w).2.2.1.isSome = true ∧
      (clearTempFolder env now w).2.1.root.lookup (env.cwd ++ ["temp"])
        = some (.dir ((n, left) :: after) true l)) ∧
    (∀ (before after : Listing) (n : String) (nd left : Node) (l : Bool),
      w.root.lookup (env.cwd ++ ["results"])
        = some (.dir (before ++ (n, nd) :: after) true l) →
      (∀ e ∈ before, e.2.removeAll = none) → nd.removeAll = some left →
      (clearTempFolder env now w).2.2.2.isSome = true ∧
      (clearTempFolder env now w).2.1.root.lookup (env.cwd ++ ["results"])
        = some (.dir ((n, left) :: after) true l)) ∧
    (∀ (es : Listing) (l : Bool),
      w.root.lookup (env.cwd ++ ["temp"]) = some (.dir es true l) →
      (∀ e ∈ es, e.2.removeAll = none) →
      (clearTempFolder env now w).2.2.1 = none ∧
      (clearTempFolder env now w).2.1.root.lookup (env.cwd ++ ["temp"])
        = some (.dir [] true l)) ∧
    (∀ (es : Listing) (l : Bool),
      w.root.lookup (env.cwd ++ ["results"]) = some (.dir es true l) →
      (∀ e ∈ es, e.2.removeAll = none) →
      (clearTempFolder env now w).2.2.2 = none ∧
      (clearTempFolder env now w).2.1.root.lookup (env.cwd ++ ["results"])
        = some (.dir [] true l)) ∧
    (∀ e, os.ReadDir env w TMP = .error e →
      (clearTempFolder env now w).2.2.1 = some e ∧
      ∀ c, (clearTempFolder env now w).2.1.root.lookup (env.cwd ++ "temp" :: c)
        = w.root.lookup (env.cwd ++ "temp" :: c)) ∧
    (∀ e, os.ReadDir env w RESULT = .error e →
      (clearTempFolder env now w).2.2.2 = some e ∧
      ∀ c, (clearTempFolder env now w).2.1.root.lookup (env.cwd ++ "results" :: c)
        = w.root.lookup (env.cwd ++ "results" :: c)) := by
  obtain ⟨⟨te, ts⟩, ⟨re, rs⟩⟩ := clearTempFolder_pools env now w hwf
  refine ⟨?_, ?_, ?_, ?_, te, re⟩
  · intro before after n nd left l hl hb hn
    obtain ⟨h1, h2⟩ := ts _ l hl
    rw [sweepListing_stops before after n nd left hb hn] at h1 h2
    exact ⟨h2, h1⟩
  · intro before after n nd left l hl hb hn
    obtain ⟨h1, h2⟩ := rs _ l hl
    rw [sweepListing_stops before after n nd left hb hn] at h1 h2
    exact ⟨h2, h1⟩
  · intro es l hl hrm
    obtain ⟨h1, h2⟩ := ts es l hl
    rw [sweepListing_all_removed es hrm] at h1 h2
    refine ⟨?_, h1⟩
    cases h : (clearTempFolder env now w).2.2.1 with
    | none => rfl
    | some e => rw [h] at h2; simp at h2
  · intro es l hl hrm
    obtain ⟨h1, h2⟩ := rs es l hl
    rw [sweepListing_all_removed es hrm] at h1 h2
    refine ⟨?_, h1⟩
    cases h : (clearTempFolder env now w).2.2.2 with
    | none => rfl
    | some e => rw [h] at h2; simp at h2

/-! ## Theorems: `unzip` -/

theorem MkdirAll_trace (env : Env) (w : World) (path : String) :
    (os.MkdirAll env w path).1.trace = w.trace ++ [Event.MkdirAll path] := by
  unfold os.MkdirAll
  simp only
  split
  · rfl
  · split <;> rfl

theorem openForWrite_trace (env : Env) (w : World) (path : String) (t : Bool) :
    (os.openForWrite env w path t).1.trace = w.trace := by
  unfold os.openForWrite
  split
  · rfl
  · split
    · rfl
    · split
      · split <;> rfl
      · rfl
    · split <;> rfl

theorem OpenFile_trace (env : Env) (w : World) (path : String) :
    (os.OpenFile env w path).1.trace = w.trace ++ [Event.OpenFile path] := by
  unfold os.OpenFile
  rw [openForWrite_trace]

theorem Create_trace (env : Env) (w : World) (path : String) :
    (os.Create env w path).1.trace = w.trace ++ [Event.Create path] := by
  unfold os.Create
  rw [openForWrite_trace]

theorem Copy_trace (env : Env) (w : World) (path : String) (data : Bytes) (f : Bool) :
    (os.Copy env w path data f).1.trace = w.trace := by
  unfold os.Copy
  split
  · rfl
  · split
    · split <;> rfl
    · rfl

/-- The calls `unzip` makes for the entries of an archive: `os.MkdirAll` on the
joined path of an entry or on its parent, `os.OpenFile` on the joined path. -/
theorem unzipEntries_trace (env : Env) (dest : String) :
    ∀ (files : List ZipFile) (w : World),
      ∃ new, (unzipEntries env dest w files).1.trace = w.trace ++ new ∧
        ∀ e ∈ new, ∃ f ∈ files,
          e = Event.MkdirAll (filepath.Join [dest, f.Name]) ∨
          e = Event.MkdirAll (filepath.Dir (filepath.Join [dest, f.Name])) ∨
          e = Event.OpenFile (filepath.Join [dest, f.Name]) := by
  intro files
  induction files with
  | nil =>
    intro w
    exact ⟨[], by simp [unzipEntries], by simp⟩
  | cons f rest ih =>
    intro w
    -- what the later entries add
    have later : ∀ (w' : World) (pre : List Event), w'.trace = w.trace ++ pre →
        (∀ e ∈ pre,
          e = Event.MkdirAll (filepath.Join [dest, f.Name]) ∨
          e = Event.MkdirAll (filepath.Dir (filepath.Join [dest, f.Name])) ∨
          e = Event.OpenFile (filepath.Join [dest, f.Name])) →
        ∃ new, (unzipEntries env dest w' rest).1.trace = w.trace ++ new ∧
          ∀ e ∈ new, ∃ g ∈ f :: rest,
            e = Event.MkdirAll (filepath.Join [dest, g.Name]) ∨
            e = Event.MkdirAll (filepath.Dir (filepath.Join [dest, g.Name])) ∨
            e = Event.OpenFile (filepath.Join [dest, g.Name]) := by
      intro w' pre hpre hall
      obtain ⟨new, hnew, hmem⟩ := ih w'
      refine ⟨pre ++ new, by rw [hnew, hpre, List.append_assoc], ?_⟩
      intro e he
      rcases List.mem_append.mp he with h | h
      · exact ⟨f, List.mem_cons_self _ _, hall e h⟩
      · obtain ⟨g, hg, hor⟩ := hmem e h
        exact ⟨g, List.mem_cons_of_mem _ hg, hor⟩
    -- an early return after the calls `pre`
    have early : ∀ (w' : World) (pre : List Event), w'.trace = w.trace ++ pre →
        (∀ e ∈ pre,
          e = Event.MkdirAll (filepath.Join [dest, f.Name]) ∨
          e = Event.MkdirAll (filepath.Dir (filepath.Join [dest, f.Name])) ∨
          e = Event.OpenFile (filepath.Join [dest, f.Name])) →
        ∃ new, w'.trace = w.trace ++ new ∧
          ∀ e ∈ new, ∃ g ∈ f :: rest,
            e = Event.MkdirAll (filepath.Join [dest, g.Name]) ∨
            e = Event.MkdirAll (filepath.Dir (filepath.Join [dest, g.Name])) ∨
            e = Event.OpenFile (filepath.Join [dest, g.Name]) := by
      intro w' pre hpre hall
      exact ⟨pre, hpre, fun e he => ⟨f, List.mem_cons_self _ _, hall e he⟩⟩
    rw [unzipEntries]
    cases hopen : f.Open with
    | none => exact early w [] (by simp) (by simp)
    | some rc =>
      simp only
      by_cases hdir : f.IsDir = true
      · rw [if_pos hdir]
        exact later _ [Event.MkdirAll (filepath.Join [dest, f.Name])]
          (MkdirAll_trace env w _) (by simp)
      · rw [if_neg hdir]
        have t1 := MkdirAll_trace env w (filepath.Dir (filepath.Join [dest, f.Name]))
        cases h1 : os.MkdirAll env w (filepath.Dir (filepath.Join [dest, f.Name])) with
        | mk w1 e1 =>
          rw [h1] at t1
          simp only at t1
          cases e1 with
          | some e => exact early w1 [_] t1 (by simp)
          | none =>
            simp only
            have t2 := OpenFile_trace env w1 (filepath.Join [dest, f.Name])
            cases h2 : os.OpenFile env w1 (filepath.Join [dest, f.Name]) with
            | mk w2 e2 =>
              rw [h2] at t2
              simp only at t2
              rw [t1, List.append_assoc] at t2
              cases e2 with
              | some e => exact early w2 _ t2 (by simp)
              | none =>
                simp only
                have t3 := Copy_trace env w2 (filepath.Join [dest, f.Name]) rc f.Corrupt
                cases h3 : os.Copy env w2 (filepath.Join [dest, f.Name]) rc f.Corrupt with
                | mk w3 e3 =>
                  rw [h3] at t3
                  simp only at t3
                  rw [t2] at t3
                  cases e3 with
                  | some e => exact early w3 _ t3 (by simp)
                  | none => exact later w3 _ t3 (by simp)

theorem walk_without_dotdot (cs : List String) (h : ".." ∉ cs) :
    ∀ S : List String, ∃ N, cs.foldl walkStep S = N ++ S := by
  induction cs with
  | nil => intro S; exact ⟨[], rfl⟩
  | cons c cs ih =>
    intro S
    have hc : c ≠ ".." := fun e => h (by rw [e]; exact List.mem_cons_self _ _)
    have hcs : ".." ∉ cs := fun e => h (List.mem_cons_of_mem _ e)
    rw [List.foldl_cons]
    rcases filepath.element_cases c with hs | hd | hp
    · rw [filepath.walkStep_skip _ _ hs]
      exact ih hcs S
    · exact absurd hd hc
    · rw [filepath.walkStep_proper _ _ hp]
      obtain ⟨N, hN⟩ := ih hcs (c :: S)
      exact ⟨N ++ [c], by rw [hN]; simp⟩

/-- An entry name without `..` joined to `dest` names a place at or below `dest`. -/
theorem Join_inside (cwd : List String) (dest name : String) (a : List String)
    (ha : resolve cwd dest = some a) (hloc : localName name) :
    insideDir cwd dest (filepath.Join [dest, name]) := by
  obtain ⟨N, hN⟩ := walk_without_dotdot (filepath.elements name) hloc a.reverse
  refine ⟨a, a ++ N.reverse, ha, ?_, List.prefix_append _ _⟩
  rw [resolve_Join cwd dest name a ha, hN]
  simp

/-! ## Theorems: what `unzip` leaves alone -/

/-- Two paths of which neither is a prefix of the other part at some element. -/
theorem exists_diverge : ∀ (P q : List String), ¬ q <+: P → ¬ P <+: q →
    ∃ (c : List String) (x y : String) (b d : List String),
      P = c ++ x :: b ∧ q = c ++ y :: d ∧ x ≠ y := by
  intro P
  induction P with
  | nil => intro q _ h; exact absurd (List.nil_prefix) h
  | cons x P ih =>
    intro q h1 h2
    cases q with
    | nil => exact absurd (List.nil_prefix) h1
    | cons y q =>
      by_cases hxy : x = y
      · subst hxy
        have h1' : ¬ q <+: P := fun h => h1 ((List.prefix_cons_inj x).mpr h)
        have h2' : ¬ P <+: q := fun h => h2 ((List.prefix_cons_inj x).mpr h)
        obtain ⟨c, x', y', b, d, hP, hq, hne⟩ := ih q h1' h2'
        exact ⟨x :: c, x', y', b, d, by rw [hP]; rfl, by rw [hq]; rfl, hne⟩
      · exact ⟨[], x, y, P, q, rfl, rfl, hxy⟩

theorem lookup_emptyDir (q : List String) (h : q ≠ []) : Node.emptyDir.lookup q = none := by
  cases q with
  | nil => exact absurd rfl h
  | cons n q => rfl

theorem mkdirAll_nil_dir (es : Listing) (r l : Bool) :
    (Node.dir es r l).mkdirAll [] = some (.dir es r l) := by
  rw [Node.mkdirAll]

theorem mkdirAll_file (d : Bytes) (l : Bool) (P : List String) :
    (Node.file d l).mkdirAll P = none := by
  cases P <;> rw [Node.mkdirAll]

theorem mkdirAll_cons_dir (es : Listing) (r l : Bool) (n : String) (rest : List String) :
    (Node.dir es r l).mkdirAll (n :: rest)
      = (((lookupEntry es n).getD Node.emptyDir).mkdirAll rest).map
          (fun child' => .dir (putEntry es n (some child')) r l) := by
  rw [Node.mkdirAll]
  cases ((lookupEntry es n).getD Node.emptyDir).mkdirAll rest <;> rfl

/-- Creating the directories along `P` changes nothing at a place that is not
on the way to `P`. -/
theorem mkdirAll_frame : ∀ (P : List String) (root root' : Node) (q : List String),
    root.mkdirAll P = some root' → ¬ q <+: P → root'.lookup q = root.lookup q := by
  intro P
  induction P with
  | nil =>
    intro root root' q h _
    cases root with
    | file d l => rw [mkdirAll_file] at h; simp at h
    | dir es r l =>
      rw [mkdirAll_nil_dir] at h
      rw [← Option.some.inj h]
  | cons n rest ih =>
    intro root root' q h hq
    cases root with
    | file d l => rw [mkdirAll_file] at h; simp at h
    | dir es r l =>
      rw [mkdirAll_cons_dir] at h
      cases hch : ((lookupEntry es n).getD Node.emptyDir).mkdirAll rest with
      | none => rw [hch] at h; simp at h
      | some child' =>
        rw [hch] at h
        simp only [Option.map] at h
        rw [← Option.some.inj h]
        cases q with
        | nil => exact absurd List.nil_prefix hq
        | cons m q' =>
          rw [lookup_dir_cons, lookup_dir_cons]
          by_cases hmn : m = n
          · subst hmn
            have hq' : ¬ q' <+: rest := fun hp => hq ((List.prefix_cons_inj m).mpr hp)
            rw [lookupEntry_put_self]
            simp only [Option.bind]
            rw [ih _ child' q' hch hq']
            cases hent : lookupEntry es m with
            | none =>
              simp only [Option.getD, Option.bind]
              exact lookup_emptyDir q' (fun e => hq' (by rw [e]; exact List.nil_prefix))
            | some ch => rfl
          · rw [lookupEntry_put_other _ _ _ _ hmn]

/-- The call `os.MkdirAll(path)` changes nothing at a place that is not on the
way to the place `path` names. -/
theorem MkdirAll_frame (env : Env) (w : World) (path : String) (q : List String)
    (h : ∀ P, resolve env.cwd path = some P → ¬ q <+: P) :
    (os.MkdirAll env w path).1.root.lookup q = w.root.lookup q := by
  unfold os.MkdirAll
  simp only
  cases hres : resolve env.cwd path with
  | none => rfl
  | some P =>
    simp only
    cases hmk : w.root.mkdirAll P with
    | none => rfl
    | some root' => exact mkdirAll_frame P w.root root' q hmk (h P hres)

/-- Putting at `P` changes nothing at a place that is neither on the way to `P`
nor at or below `P`. -/
theorem put_parts (new : Option Node) (P q : List String) (root root' : Node)
    (h : root.put new P = some root') (h1 : ¬ q <+: P) (h2 : ¬ P <+: q) :
    root'.lookup q = root.lookup q := by
  obtain ⟨c, x, y, b, d, hP, hq, hne⟩ := exists_diverge P q h1 h2
  subst hP hq
  exact put_frame new c x y b d hne root root' h

theorem openForWrite_frame (env : Env) (w : World) (path : String) (t : Bool)
    (q : List String)
    (h : ∀ P, resolve env.cwd path = some P → ¬ q <+: P ∧ ¬ P <+: q) :
    (os.openForWrite env w path t).1.root.lookup q = w.root.lookup q := by
  unfold os.openForWrite
  cases hres : resolve env.cwd path with
  | none => rfl
  | some P =>
    obtain ⟨h1, h2⟩ := h P hres
    simp only
    cases hl : w.root.lookup P with
    | none =>
      simp only
      cases hput : w.root.put (some (.file [] false)) P with
      | none => rfl
      | some root' => exact put_parts _ P q w.root root' hput h1 h2
    | some nd =>
      cases nd with
      | dir es r l => rfl
      | file old locked =>
        simp only
        cases t with
        | false => rfl
        | true =>
          simp only [if_true]
          cases hput : w.root.put (some (.file [] locked)) P with
          | none => rfl
          | some root' => exact put_parts _ P q w.root root' hput h1 h2

theorem OpenFile_frame (env : Env) (w : World) (path : String) (q : List String)
    (h : ∀ P, resolve env.cwd path = some P → ¬ q <+: P ∧ ¬ P <+: q) :
    (os.OpenFile env w path).1.root.lookup q = w.root.lookup q := by
  unfold os.OpenFile
  exact openForWrite_frame env _ path false q h

theorem Copy_frame (env : Env) (w : World) (path : String) (data : Bytes) (f : Bool)
    (q : List String)
    (h : ∀ P, resolve env.cwd path = some P → ¬ q <+: P ∧ ¬ P <+: q) :
    (os.Copy env w path data f).1.root.lookup q = w.root.lookup q := by
  unfold os.Copy
  cases hres : resolve env.cwd path with
  | none => rfl
  | some P =>
    obtain ⟨h1, h2⟩ := h P hres
    simp only
    cases hl : w.root.lookup P with
    | none => rfl
    | some nd =>
      cases nd with
      | dir es r l => rfl
      | file old locked =>
        simp only
        cases hput : w.root.put (some (.file (os.overwrite data old) locked)) P with
        | none => rfl
        | some root' => exact put_parts _ P q w.root root' hput h1 h2

namespace filepath

theorem dropWhile_head_not (p : Char → Bool) : ∀ (l : List Char) (z : Char) (zs : List Char),
    l.dropWhile p = z :: zs → p z = false := by
  intro l
  induction l with
  | nil => intro z zs h; simp at h
  | cons c l ih =>
    intro z zs h
    rw [List.dropWhile_cons] at h
    by_cases hc : p c = true
    · rw [if_pos hc] at h
      exact ih z zs h
    · rw [if_neg hc] at h
      injection h with h1 _
      rw [← h1]
      simpa using hc

theorem split_last (cs : List Char) :
    ∃ pre last, cs = pre ++ last ∧ upToLastSlash cs = pre ∧ '/' ∉ last ∧
      (pre = [] ∨ ∃ Y, pre = Y ++ ['/']) := by
  refine ⟨upToLastSlash cs, lastElement cs, ?_, rfl, ?_, ?_⟩
  · unfold upToLastSlash lastElement
    have h := List.takeWhile_append_dropWhile (fun c => decide (c ≠ '/')) cs.reverse
    have h2 := congrArg List.reverse h
    rw [List.reverse_append, List.reverse_reverse] at h2
    exact h2.symm
  · unfold lastElement
    intro hmem
    have h1 := List.mem_takeWhile_imp (List.mem_reverse.mp hmem)
    simp at h1
  · unfold upToLastSlash
    cases hd : cs.reverse.dropWhile (fun c => decide (c ≠ '/')) with
    | nil => left; rfl
    | cons z zs =>
      right
      have h1 := dropWhile_head_not _ _ z zs hd
      have hz : z = '/' := by simpa using h1
      exact ⟨zs.reverse, by rw [List.reverse_cons, hz]⟩

theorem isRooted_of_not_mem (s : String) (h : '/' ∉ s.data) : isRooted s = false := by
  unfold isRooted
  cases hd : s.data with
  | nil => simp
  | cons c cs =>
    rw [hd] at h
    have : c ≠ '/' := fun e => h (by simp [e])
    simp [this]

theorem String_mk_data (s : String) : String.mk s.data = s := by
  cases s
  rfl

end filepath

theorem resolve_dot (cwd : List String) : resolve cwd "." = some cwd := by
  unfold resolve
  rw [if_neg (by decide)]
  have h1 : filepath.isRooted "." = false := by decide
  have h2 : filepath.elements "." = ["."] := by decide
  rw [h1, h2]
  simp [walkStep]

/-- The place `filepath.Dir(s)` names: where the walk along `s` stands before
its last element. -/
theorem resolve_Dir (cwd : List String) (s : String) :
    ∃ (E : List String) (e : String), filepath.elements s = E ++ [e] ∧
      resolve cwd (filepath.Dir s)
        = some ((E.foldl walkStep (if filepath.isRooted s then [] else cwd.reverse)).reverse) := by
  obtain ⟨pre, last, hsplit, hup, hlast, hpre⟩ := filepath.split_last s.data
  unfold filepath.Dir
  rw [hup]
  rcases hpre with hnil | ⟨Y, hY⟩
  · -- no separator in `s`
    subst hnil
    have hno : '/' ∉ s.data := by rw [hsplit]; simpa using hlast
    refine ⟨[], s, ?_, ?_⟩
    · rw [filepath.elements_of_not_mem s hno]
      rfl
    · have hc : filepath.Clean (String.mk []) = "." := by decide
      rw [hc, resolve_dot, filepath.isRooted_of_not_mem s hno]
      simp
  · subst hY
    have hdata : s.data = Y ++ '/' :: last := by
      rw [List.append_assoc] at hsplit
      exact hsplit
    refine ⟨(filepath.splitSlash Y).map String.mk, String.mk last, ?_, ?_⟩
    · unfold filepath.elements
      rw [hdata, filepath.splitSlash_append, filepath.splitSlash_of_not_mem _ hlast]
      simp
    · have hne : String.mk (Y ++ ['/']) ≠ "" := by
        intro h
        have := congrArg String.data h
        simp at this
      rw [resolve_Clean cwd _ hne]
      unfold resolve
      rw [if_neg hne]
      have hroot : filepath.isRooted (String.mk (Y ++ ['/'])) = filepath.isRooted s := by
        unfold filepath.isRooted
        rw [hdata]
        cases Y <;> simp
      have hel : filepath.elements (String.mk (Y ++ ['/']))
          = (filepath.splitSlash Y).map String.mk ++ [""] := by
        unfold filepath.elements
        have : (String.mk (Y ++ ['/'])).data = Y ++ '/' :: [] := rfl
        rw [this, filepath.splitSlash_append]
        simp [filepath.splitSlash]
      rw [hroot, hel, List.foldl_append, List.foldl_cons, List.foldl_nil,
        filepath.walkStep_skip _ _ (Or.inl rfl)]

theorem walkStep_cases (T : List String) (e : String) :
    walkStep T e = T ∨ walkStep T e = e :: T ∨ walkStep T e = T.drop 1 := by
  rcases filepath.element_cases e with hs | hd | hp
  · left; exact filepath.walkStep_skip T e hs
  · right; right; rw [hd]; exact filepath.walkStep_dotdot T
  · right; left; exact filepath.walkStep_proper T e hp

/-- The parent `filepath.Dir(s)` of a path that names a place at or below `a`
names a place at or below `a`, or the parent of `a`: nothing that parts from
`a` is on the way to it. -/
theorem Dir_not_on_the_way (cwd : List String) (s : String) (a b q : List String)
    (hs : resolve cwd s = some b) (hab : a <+: b) (hq1 : ¬ q <+: a) (hq2 : ¬ a <+: q) :
    ∀ P, resolve cwd (filepath.Dir s) = some P → ¬ q <+: P := by
  intro P hP hqP
  have hne := resolve_ne_empty cwd s b hs
  obtain ⟨E, e, hel, hdir⟩ := resolve_Dir cwd s
  rw [hdir] at hP
  have hP' := Option.some.inj hP
  unfold resolve at hs
  rw [if_neg hne, hel, List.foldl_append, List.foldl_cons, List.foldl_nil] at hs
  have hb := Option.some.inj hs
  -- `q` would be comparable with `a`
  have comparable : ∀ R, a <+: R → q <+: R → False := by
    intro R h1 h2
    rcases List.prefix_or_prefix_of_prefix h1 h2 with h | h
    · exact hq2 h
    · exact hq1 h
  rcases walkStep_cases
      (E.foldl walkStep (if filepath.isRooted s then [] else cwd.reverse)) e with h | h | h
  · rw [h, hP'] at hb
    rw [hb] at hqP
    exact comparable b hab hqP
  · rw [h, List.reverse_cons, hP'] at hb
    rw [← hb] at hab
    rcases List.prefix_concat_iff.mp hab with h1 | h1
    · -- `a` is the place itself, `P` its parent
      apply hq1
      rw [h1]
      exact hqP.trans (List.prefix_append _ _)
    · exact comparable P h1 hqP
  · rw [h] at hb
    -- `b` is `P` without its last element
    have hbP : b <+: P := by
      rw [← hb, ← hP']
      cases hT : E.foldl walkStep (if filepath.isRooted s then [] else cwd.reverse) with
      | nil => simp
      | cons z T => simp
    exact comparable P (hab.trans hbP) hqP

/-- Extracting entries whose joined paths all lie at or below `dest` changes
nothing at a place that is neither at or below `dest` nor on the way to it. -/
theorem unzipEntries_frame (env : Env) (dest : String) (a q : List String)
    (ha : resolve env.cwd dest = some a) (hq1 : ¬ q <+: a) (hq2 : ¬ a <+: q) :
    ∀ (files : List ZipFile) (w : World),
      (∀ f ∈ files, insideDir env.cwd dest (filepath.Join [dest, f.Name])) →
      (unzipEntries env dest w files).1.root.lookup q = w.root.lookup q := by
  intro files
  induction files with
  | nil => intro w _; rw [unzipEntries]
  | cons f rest ih =>
    intro w hloc
    have hrest := fun w' => ih w' (fun g hg => hloc g (List.mem_cons_of_mem _ hg))
    obtain ⟨a', b, ha', hb, hab⟩ := hloc f (List.mem_cons_self _ _)
    rw [ha] at ha'
    rw [← Option.some.inj ha'] at hab
    have hparts : ∀ P, resolve env.cwd (filepath.Join [dest, f.Name]) = some P →
        ¬ q <+: P ∧ ¬ P <+: q := by
      intro P hP
      rw [hb] at hP
      rw [← Option.some.inj hP]
      constructor
      · intro h
        rcases List.prefix_or_prefix_of_prefix hab h with h' | h'
        · exact hq2 h'
        · exact hq1 h'
      · intro h
        exact hq2 (hab.trans h)
    rw [unzipEntries]
    cases hopen : f.Open with
    | none => rfl
    | some rc =>
      simp only
      by_cases hdir : f.IsDir = true
      · rw [if_pos hdir, hrest]
        exact MkdirAll_frame env w _ q (fun P hP => (hparts P hP).1)
      · rw [if_neg hdir]
        have f1 := MkdirAll_frame env w (filepath.Dir (filepath.Join [dest, f.Name])) q
          (Dir_not_on_the_way env.cwd _ a b q hb hab hq1 hq2)
        cases h1 : os.MkdirAll env w (filepath.Dir (filepath.Join [dest, f.Name])) with
        | mk w1 e1 =>
          rw [h1] at f1
          simp only at f1
          cases e1 with
          | some e => exact f1
          | none =>
            simp only
            have f2 := OpenFile_frame env w1 (filepath.Join [dest, f.Name]) q hparts
            cases h2 : os.OpenFile env w1 (filepath.Join [dest, f.Name]) with
            | mk w2 e2 =>
              rw [h2] at f2
              simp only at f2
              cases e2 with
              | some e => exact f2.trans f1
              | none =>
                simp only
                have f3 := Copy_frame env w2 (filepath.Join [dest, f.Name]) rc f.Corrupt q hparts
                cases h3 : os.Copy env w2 (filepath.Join [dest, f.Name]) rc f.Corrupt with
                | mk w3 e3 =>
                  rw [h3] at f3
                  simp only at f3
                  cases e3 with
                  | some e => exact f3.trans (f2.trans f1)
                  | none =>
                    simp only
                    rw [hrest]
                    exact f3.trans (f2.trans f1)

/-- C2, as amended: `unzip` validates no entry name.  The calls with which it
creates or writes anything are `os.MkdirAll` on `filepath.Join(dest, f.Name)`
or on the parent of that path, and `os.OpenFile` on that path, for entries `f` of
the archive; for every entry whose name has no `..` element, that path names a
place at or below `dest`; and whenever the joined path of every entry names a
place at or below `dest` (as it also does for a name such as `a/../b`), every
place that is neither at or below `dest` nor on the way to `dest` holds after
`unzip` what it held before. -/
theorem unzip_targets (env : Env) (w : World) (src dest : String) (a : List String)
    (bytes : Bytes) (files : List ZipFile)
    (ha : resolve env.cwd dest = some a)
    (hread : os.ReadFile env w src = .ok bytes)
    (hzip : env.zipEntries bytes = some files) :
    (∃ new, (unzip env w src dest).1.trace = w.trace ++ new ∧
      ∀ e ∈ new, ∃ f ∈ files,
        e = Event.MkdirAll (filepath.Join [dest, f.Name]) ∨
        e = Event.MkdirAll (filepath.Dir (filepath.Join [dest, f.Name])) ∨
        e = Event.OpenFile (filepath.Join [dest, f.Name])) ∧
    (∀ f ∈ files, localName f.Name →
      insideDir env.cwd dest (filepath.Join [dest, f.Name])) ∧
    ((∀ f ∈ files, insideDir env.cwd dest (filepath.Join [dest, f.Name])) →
      ∀ q : List String, ¬ q <+: a → ¬ a <+: q →
        (unzip env w src dest).1.root.lookup q = w.root.lookup q) := by
  have hun : unzip env w src dest = unzipEntries env dest w files := by
    unfold unzip
    rw [hread]
    simp only
    rw [hzip]
  refine ⟨?_, ?_, ?_⟩
  · rw [hun]
    exact unzipEntries_trace env dest files w
  · intro f _ hloc
    exact Join_inside env.cwd dest f.Name a ha hloc
  · intro hin q hq1 hq2
    rw [hun]
    exact unzipEntries_frame env dest a q ha hq1 hq2 files w hin

/-- C2 at `project.zip` and at `detour.zip` extracted into `temp`: the joined
path of `project/bytecode_modules/mod.mv` lies below `temp` and `results/` is
left as it was; the entry `a/../b` of `detour.zip`, whose name has a `..`
element, is written to `temp/b`, and `results/` is left as it was. -/
theorem unzip_targets_witness :
    (insideDir ["srv"] "temp"
        (filepath.Join ["temp", "project/bytecode_modules/mod.mv"]) ∧
      (unzip (exampleEnv silentScanner) usedWorld "temp/project.zip" "temp").1.root.lookup
        ["srv", "results"] = usedWorld.root.lookup ["srv", "results"]) ∧
    (¬ localName "a/../b" ∧
      (unzip (exampleEnv silentScanner) detourWorld "temp/detour.zip" "temp").1.root.lookup
        ["srv", "temp", "b"] = some (.file [9] false) ∧
      (unzip (exampleEnv silentScanner) detourWorld "temp/detour.zip" "temp").1.root.lookup
        ["srv", "results"] = detourWorld.root.lookup ["srv", "results"]) :=
  have h := unzip_targets (exampleEnv silentScanner) usedWorld "temp/project.zip" "temp"
    ["srv", "temp"] [80, 75, 1]
    [⟨"project/", true, some [], false⟩,
      ⟨"project/bytecode_modules/", true, some [], false⟩,
      ⟨"project/bytecode_modules/mod.mv", false, some [1, 2, 3], false⟩]
    (by decide) (by rfl) (by rfl)
  have g := unzip_targets (exampleEnv silentScanner) detourWorld "temp/detour.zip" "temp"
    ["srv", "temp"] [80, 75, 4] [⟨"a/../b", false, some [9], false⟩]
    (by decide) (by rfl) (by rfl)
  ⟨⟨h.2.1 ⟨"project/bytecode_modules/mod.mv", false, some [1, 2, 3], false⟩
      (by simp) (by unfold localName; decide),
    h.2.2 (by
        intro f hf
        simp at hf
        rcases hf with rfl | rfl | rfl <;>
          exact h.2.1 _ (by simp) (by unfold localName; decide))
      ["srv", "results"] (by decide) (by decide)⟩,
   ⟨by unfold localName; decide, by rfl,
    g.2.2 (by
        intro f hf
        simp at hf
        subst hf
        exact ⟨["srv", "temp"], ["srv", "temp", "b"], by decide, by decide, by decide⟩)
      ["srv", "results"] (by decide) (by decide)⟩⟩

/-- C2 fails as stated: for the archive with the entry `../x` extracted into
`temp`, `unzip` returns no error and has written the file `/srv/x`, which did
not exist before and lies outside `/srv/temp`. -/
theorem unzip_writes_outside_dest :
    (unzip (exampleEnv silentScanner) slipWorld "temp/slip.zip" "temp").2 = none ∧
    slipWorld.root.lookup ["srv", "x"] = none ∧
    (unzip (exampleEnv silentScanner) slipWorld "temp/slip.zip" "temp").1.root.lookup ["srv", "x"]
      = some (.file [7] false) ∧
    (unzip (exampleEnv silentScanner) slipWorld "temp/slip.zip" "temp").1.trace
      = [Event.MkdirAll ".", Event.OpenFile "x"] ∧
    filepath.Join ["temp", "../x"] = "x" ∧
    ¬ insideDir ["srv"] "temp" (filepath.Join ["temp", "../x"]) := by
  refine ⟨by rfl, by rfl, by rfl, by decide, by decide, ?_⟩
  rintro ⟨a, b, ha, hb, hpre⟩
  have h1 : resolve ["srv"] "temp" = some ["srv", "temp"] := by decide
  have h2 : resolve ["srv"] (filepath.Join ["temp", "../x"]) = some ["srv", "x"] := by decide
  rw [h1] at ha
  rw [h2] at hb
  rw [← Option.some.inj ha, ← Option.some.inj hb] at hpre
  revert hpre
  decide

/-! ## Theorems: the pipeline -/

/-- What a call of `executeMovescanner` that returns has done: it has run the
scanner once, on whatever `findBytecodeFolder` returned, with the output path
`results/<name>.json`; it returns that file name when the scanner succeeded and
an error otherwise. -/
theorem executeMovescanner_spec (env : Env) (w : World) (inputDir : String)
    (w' : World) (name : String) (err : Error)
    (h : executeMovescanner env w inputDir = some (w', name, err)) :
    ∃ id, generateRandomFileName 10 (env.Intn env.UnixNano) = some id ∧
      w'.trace = w.trace ++ [Event.Command (MOVESCANNER env)
        ["-p", findBytecodeFolder env w inputDir, "-n", "-o", RESULT ++ (id ++ ".json")]] ∧
      w'.root = (env.run (MOVESCANNER env)
        ["-p", findBytecodeFolder env w inputDir, "-n", "-o", RESULT ++ (id ++ ".json")]
        w.root).1 ∧
      (err = none ↔ (env.run (MOVESCANNER env)
        ["-p", findBytecodeFolder env w inputDir, "-n", "-o", RESULT ++ (id ++ ".json")]
        w.root).2 = true) ∧
      (err = none → name = id ++ ".json") := by
  unfold executeMovescanner at h
  cases hg : generateRandomFileName 10 (env.Intn env.UnixNano) with
  | none => rw [hg] at h; simp at h
  | some id =>
    rw [hg] at h
    simp only at h
    refine ⟨id, rfl, ?_⟩
    cases hr : env.run (MOVESCANNER env)
        ["-p", findBytecodeFolder env w inputDir, "-n", "-o", RESULT ++ (id ++ ".json")]
        w.root with
    | mk root' ok =>
      rw [hr] at h
      cases ok with
      | false =>
        simp only [Option.some.injEq, Prod.mk.injEq] at h
        obtain ⟨h1, h2, h3⟩ := h
        subst h1 h2 h3
        simp
      | true =>
        simp only [Option.some.injEq, Prod.mk.injEq] at h
        obtain ⟨h1, h2, h3⟩ := h
        subst h1 h2 h3
        simp

theorem processJSON_of_find (env : Env) (w : World) (path : String) (bytes : Bytes) (l : Bool)
    (h : os.find env w path = some (.file bytes l)) :
    processJSON env w path = (bytes, none) := by
  unfold processJSON os.ReadFile
  rw [h]

/-- C4: in every run of `handleFileUpload` in which the stages before the
scanner succeed and `executeMovescanner` returns a file name and no error (the
scanner exited successfully), the scanner was run with `-o` followed by `RESULT`
concatenated with that name, the handler answers with status 200 and the page
carries what `processJSON` reads from that same path in the world the scanner
left: exactly the bytes of that file when it exists. -/
theorem handleFileUpload_reads_scanner_output (env : Env) (w : World) (header : Upload)
    (w4 w5 : World) (inputDir name : String)
    (hstages : saveAndExtract env w header = (w4, none, inputDir))
    (hscan : executeMovescanner env w4 inputDir = some (w5, name, none)) :
    env.run (MOVESCANNER env)
      ["-p", findBytecodeFolder env w4 inputDir, "-n", "-o", RESULT ++ name] w4.root
      = (w5.root, true) ∧
    w5.trace = w4.trace ++ [Event.Command (MOVESCANNER env)
      ["-p", findBytecodeFolder env w4 inputDir, "-n", "-o", RESULT ++ name]] ∧
    handleFileUpload env w (.ok header)
      = some (w5, ⟨200, .page (processJSON env w5 (RESULT ++ name)).1⟩) ∧
    ∀ (bytes : Bytes) (l : Bool), os.find env w5 (RESULT ++ name) = some (.file bytes l) →
      handleFileUpload env w (.ok header) = some (w5, ⟨200, .page bytes⟩) := by
  obtain ⟨id, _, htrace, hroot, herr, hname⟩ := executeMovescanner_spec _ _ _ _ _ _ hscan
  have hname' := hname rfl
  have hrun := herr.mp rfl
  have hh : handleFileUpload env w (.ok header)
      = some (w5, ⟨200, .page (processJSON env w5 (RESULT ++ name)).1⟩) := by
    unfold handleFileUpload
    simp only [hstages, hscan]
  refine ⟨?_, ?_, hh, ?_⟩
  · rw [hname', hroot]
    exact Prod.ext rfl hrun
  · rw [hname']
    exact htrace
  · intro bytes l hfind
    rw [hh, processJSON_of_find env _ _ bytes l hfind]

/-- The answers of `handleFileUpload` with status 200 are those of the runs in
which the scanner exited successfully. -/
theorem handleFileUpload_ok_only_after_scan (env : Env) (w : World)
    (form : Except String Upload) (w' : World) (resp : Response)
    (h : handleFileUpload env w form = some (w', resp)) (hok : resp.status = 200) :
    ∃ (header : Upload) (w4 : World) (inputDir name : String),
      form = .ok header ∧ saveAndExtract env w header = (w4, none, inputDir) ∧
      executeMovescanner env w4 inputDir = some (w', name, none) := by
  unfold handleFileUpload at h
  cases form with
  | error e =>
    simp only [Option.some.injEq, Prod.mk.injEq] at h
    rw [← h.2] at hok
    simp at hok
  | ok header =>
    simp only at h
    split at h
    · simp only [Option.some.injEq, Prod.mk.injEq] at h
      rw [← h.2] at hok
      simp at hok
    · rename_i w4 inputDir hst
      split at h
      · simp at h
      · simp only [Option.some.injEq, Prod.mk.injEq] at h
        rw [← h.2] at hok
        simp at hok
      · rename_i w5 name hexec
        simp only [Option.some.injEq, Prod.mk.injEq] at h
        rw [← h.1]
        exact ⟨header, w4, inputDir, name, rfl, hst, hexec⟩

/-! ## The theorems at concrete inputs -/

/-- C1 fails on the code: `empty.zip` holds no `bytecode_modules` directory,
`findBytecodeFolder` returns the empty string for its working area, and
`handleFileUpload` still runs the scanner, with `-p ""`, whatever the scanner
does; the answer has status 200 exactly when the scanner exits with status 0,
as it does for `writingScanner`. -/
theorem handleFileUpload_runs_scanner_without_modules
    (run : String → List String → Node → Node × Bool) :
    saveAndExtract (exampleEnv run) freshWorld ⟨"empty.zip", [80, 75, 2]⟩
      = (emptyExtracted, none, "temp/empty") ∧
    findBytecodeFolder (exampleEnv run) emptyExtracted "temp/empty" = "" ∧
    (∃ (w' : World) (resp : Response),
      handleFileUpload (exampleEnv run) freshWorld (.ok ⟨"empty.zip", [80, 75, 2]⟩)
        = some (w', resp) ∧
      w'.trace = emptyExtracted.trace ++
        [Event.Command "./MoveScanner" ["-p", "", "-n", "-o", "results/abcdefghij.json"]] ∧
      (resp.status = 200 ↔
        (run "./MoveScanner" ["-p", "", "-n", "-o", "results/abcdefghij.json"]
          emptyExtracted.root).2 = true)) ∧
    (handleFileUpload (exampleEnv writingScanner) freshWorld
        (.ok ⟨"empty.zip", [80, 75, 2]⟩)).map (fun r => r.2)
      = some ⟨200, .page [123, 125]⟩ := by
  have hst : saveAndExtract (exampleEnv run) freshWorld ⟨"empty.zip", [80, 75, 2]⟩
      = (emptyExtracted, none, "temp/empty") := by rfl
  have hfind : findBytecodeFolder (exampleEnv run) emptyExtracted "temp/empty" = "" := by rfl
  have hname : generateRandomFileName 10 ((exampleEnv run).Intn (exampleEnv run).UnixNano)
      = some "abcdefghij" := by
    show generateRandomFileName 10 (fun i => i % 62) = some "abcdefghij"
    decide
  refine ⟨hst, hfind, ?_, by decide⟩
  unfold handleFileUpload
  simp only [hst]
  unfold executeMovescanner
  simp only [hname, hfind]
  have hbin : MOVESCANNER (exampleEnv run) = "./MoveScanner" := by rfl
  have hout : RESULT ++ ("abcdefghij" ++ ".json") = "results/abcdefghij.json" := by decide
  rw [hbin, hout]
  cases hr : run "./MoveScanner" ["-p", "", "-n", "-o", "results/abcdefghij.json"]
      emptyExtracted.root with
  | mk root' ok =>
    have hr' : (exampleEnv run).run "./MoveScanner"
        ["-p", "", "-n", "-o", "results/abcdefghij.json"] emptyExtracted.root
        = (root', ok) := hr
    rw [hr']
    cases ok with
    | false => exact ⟨_, _, rfl, rfl, by simp⟩
    | true => exact ⟨_, _, rfl, rfl, by simp⟩

/-- C5 fails on the code: the scanner exits with status 0 without writing its
output file, `processJSON` fails to read it, and `handleFileUpload` answers with
status 200 and an empty result. -/
theorem handleFileUpload_ok_without_result :
    (handleFileUpload (exampleEnv silentScanner) freshWorld
        (.ok ⟨"project.zip", [80, 75, 1]⟩)).map (fun r => r.2)
      = some ⟨200, .page []⟩ ∧
    (handleFileUpload (exampleEnv silentScanner) freshWorld
        (.ok ⟨"project.zip", [80, 75, 1]⟩)).map
        (fun r => (processJSON (exampleEnv silentScanner) r.1 "results/abcdefghij.json").2)
      = some (some "open: no such file or directory") := by
  constructor
  · decide
  · decide

/-- C3 at the working area `temp/project` of `usedWorld`. -/
theorem findBytecodeFolder_spec_witness :
    findBytecodeFolder (exampleEnv silentScanner) usedWorld "temp/project"
      = "temp/project/bytecode_modules" ∧
    (findBytecodeFolder (exampleEnv silentScanner) usedWorld "temp/project" ≠ "" →
      ∃ (chain : List String) (sub : Listing) (r l : Bool),
        resolve ["srv"] (findBytecodeFolder (exampleEnv silentScanner) usedWorld "temp/project")
          = some (["srv", "temp", "project"] ++ chain ++ [bytecodeModules]) ∧
        usedWorld.root.lookup (["srv", "temp", "project"] ++ chain ++ [bytecodeModules])
          = some (.dir sub r l) ∧
        filepath.Base (findBytecodeFolder (exampleEnv silentScanner) usedWorld "temp/project")
          = bytecodeModules) :=
  ⟨by decide,
    (findBytecodeFolder_spec (exampleEnv silentScanner) usedWorld "temp/project"
      ["srv", "temp", "project"]
      [("bytecode_modules", .dir [("mod.mv", .file [1, 2, 3] false)] true false)] false
      (by decide) (by rfl) (by decide) (by decide)).2⟩

/-- C4 at the upload of `project.zip` with a scanner that writes `{}`: the
handler answers with status 200 and the page carries `{}`. -/
theorem handleFileUpload_reads_scanner_output_witness :
    handleFileUpload (exampleEnv writingScanner) freshWorld (.ok ⟨"project.zip", [80, 75, 1]⟩)
      = some (⟨usedWorld.root,
          [Event.Mkdir "temp/", Event.Create "temp/project.zip",
            Event.MkdirAll "temp/project",
            Event.MkdirAll "temp/project/bytecode_modules",
            Event.MkdirAll "temp/project/bytecode_modules",
            Event.OpenFile "temp/project/bytecode_modules/mod.mv",
            Event.Command "./MoveScanner"
              ["-p", "temp/project/bytecode_modules", "-n", "-o",
                "results/abcdefghij.json"]]⟩,
        ⟨200, .page [123, 125]⟩) :=
  (handleFileUpload_reads_scanner_output (exampleEnv writingScanner) freshWorld
    ⟨"project.zip", [80, 75, 1]⟩
    ⟨.dir [("srv", .dir
        [("results", .dir [] true false),
         ("temp", .dir
            [("project", .dir
                [("bytecode_modules", .dir [("mod.mv", .file [1, 2, 3] false)] true false)]
                true false),
             ("project.zip", .file [80, 75, 1] false)] true false)] true false)] true false,
      [Event.Mkdir "temp/", Event.Create "temp/project.zip",
        Event.MkdirAll "temp/project",
        Event.MkdirAll "temp/project/bytecode_modules",
        Event.MkdirAll "temp/project/bytecode_modules",
        Event.OpenFile "temp/project/bytecode_modules/mod.mv"]⟩
    ⟨usedWorld.root,
      [Event.Mkdir "temp/", Event.Create "temp/project.zip",
        Event.MkdirAll "temp/project",
        Event.MkdirAll "temp/project/bytecode_modules",
        Event.MkdirAll "temp/project/bytecode_modules",
        Event.OpenFile "temp/project/bytecode_modules/mod.mv",
        Event.Command "./MoveScanner"
          ["-p", "temp/project/bytecode_modules", "-n", "-o", "results/abcdefghij.json"]]⟩
    "temp/project" "abcdefghij.json" (by rfl) (by rfl)).2.2.2 [123, 125] false (by rfl)

/-- C7 at `usedWorld`: the sweep returns no error and leaves `temp/` and
`results/` empty. -/
theorem clearDirectory_empties_witness :
    (clearTempFolder (exampleEnv silentScanner) ⟨0, 0⟩ usedWorld).2.2.1 = none ∧
    (clearTempFolder (exampleEnv silentScanner) ⟨0, 0⟩ usedWorld).2.2.2 = none ∧
    (clearTempFolder (exampleEnv silentScanner) ⟨0, 0⟩ usedWorld).2.1.root.lookup ["srv", "temp"]
      = some (.dir [] true false) ∧
    (clearTempFolder (exampleEnv silentScanner) ⟨0, 0⟩ usedWorld).2.1.root.lookup ["srv", "results"]
      = some (.dir [] true false) :=
  have h := (clearDirectory_empties (exampleEnv silentScanner) ⟨0, 0⟩ usedWorld
    "temp/" ["srv", "temp"]
    [("project", .dir
        [("bytecode_modules", .dir [("mod.mv", .file [1, 2, 3] false)] true false)]
        true false),
      ("project.zip", .file [80, 75, 1] false)] false
    [("project", .dir
        [("bytecode_modules", .dir [("mod.mv", .file [1, 2, 3] false)] true false)]
        true false),
      ("project.zip", .file [80, 75, 1] false)]
    [("abcdefghij.json", .file [123, 125] false)] false false
    (by decide) (by rfl) (by decide)
    (by intro e he; simp at he; rcases he with rfl | rfl <;> rfl)
    (by rfl) (by rfl) (by decide) (by decide)
    (by intro e he; simp at he; rcases he with rfl | rfl <;> rfl)
    (by intro e he; simp at he; subst he; rfl)).2
  ⟨h.1, h.2.1, h.2.2.2.2.1, h.2.2.2.2.2⟩

/-- C6 fails as stated: in `stuckWorld` the removal of `temp/a` fails; the file
`temp/b`, whose removal succeeds when it is tried, is still there after the
sweep. -/
theorem sweep_leaves_later_children :
    (clearTempFolder (exampleEnv silentScanner) ⟨0, 0⟩ stuckWorld).2.2.1
      = some "unlinkat: operation not permitted" ∧
    (clearTempFolder (exampleEnv silentScanner) ⟨0, 0⟩ stuckWorld).2.1.root.lookup
      ["srv", "temp", "b"] = some (.file [2] false) ∧
    (os.RemoveAll (exampleEnv silentScanner)
      (clearTempFolder (exampleEnv silentScanner) ⟨0, 0⟩ stuckWorld).2.1 "temp//b").2 = none ∧
    (os.RemoveAll (exampleEnv silentScanner)
      (clearTempFolder (exampleEnv silentScanner) ⟨0, 0⟩ stuckWorld).2.1 "temp//b").1.root.lookup
      ["srv", "temp", "b"] = none := by
  refine ⟨by decide, by rfl, by decide, by rfl⟩

/-- C6, as amended, at `stuckWorld` and at `resultsOnlyWorld`: in the first the
sweep reports the error of `temp/a`, leaves `a` and `b` in `temp/` and empties
`results/`; in the second `temp/` cannot be listed, the error is reported and
`results/` is emptied. -/
theorem sweep_stops_at_first_failure_witness :
    ((clearTempFolder (exampleEnv silentScanner) ⟨0, 0⟩ stuckWorld).2.2.1.isSome = true ∧
      (clearTempFolder (exampleEnv silentScanner) ⟨0, 0⟩ stuckWorld).2.1.root.lookup
        ["srv", "temp"]
        = some (.dir [("a", .file [1] true), ("b", .file [2] false)] true false) ∧
      (clearTempFolder (exampleEnv silentScanner) ⟨0, 0⟩ stuckWorld).2.1.root.lookup
        ["srv", "results"] = some (.dir [] true false)) ∧
    ((clearTempFolder (exampleEnv silentScanner) ⟨0, 0⟩ resultsOnlyWorld).2.2.1
        = some "open: no such file or directory" ∧
      (clearTempFolder (exampleEnv silentScanner) ⟨0, 0⟩ resultsOnlyWorld).2.1.root.lookup
        ["srv", "results"] = some (.dir [] true false)) :=
  have h := sweep_stops_at_first_failure (exampleEnv silentScanner) ⟨0, 0⟩ stuckWorld
    (by decide)
  have hfail := h.1 [] [("b", .file [2] false)] "a" (.file [1] true) (.file [1] true) false
    (by rfl) (by simp) (by rfl)
  have hres := h.2.2.2.1 [("abcdefghij.json", .file [123, 125] false)] false (by rfl)
    (by intro e he; simp at he; subst he; rfl)
  have g := sweep_stops_at_first_failure (exampleEnv silentScanner) ⟨0, 0⟩ resultsOnlyWorld
    (by decide)
  have gtemp := g.2.2.2.2.1 "open: no such file or directory" (by rfl)
  have gres := g.2.2.2.1 [("abcdefghij.json", .file [123, 125] false)] false (by rfl)
    (by intro e he; simp at he; subst he; rfl)
  ⟨⟨hfail.1, hfail.2, hres.2⟩, ⟨gtemp.1, gres.2⟩⟩

end WMoveScanner
